import Mathlib

/-!
Verification of the crawl-and-ingest pipeline of gnosis-mcp.

The Python sources `src/gnosis_mcp/ingest.py` and `src/gnosis_mcp/crawl.py`
are shallowly embedded here.  Python strings are modelled as `List Char`
(one list element per code point); Python `dict`s as association lists;
async network / database calls as explicit oracle functions passed in as
arguments.  Every definition mirrors the corresponding Python function
line by line; source references are given in doc comments.
-/

namespace GnosisMcp

/-- Python strings are modelled as lists of characters. -/
abbrev Str := List Char

/-- Whitespace test used by Python `str.strip()` for the ASCII whitespace
characters (space, tab, newline, carriage return, vertical tab, form feed).
Documents containing other Unicode whitespace are outside the modelled domain. -/
def pyIsSpace (c : Char) : Bool :=
  c = ' ' || c = '\t' || c = '\n' || c = '\r' || c = '\x0b' || c = '\x0c'

/-- Python `s.strip()` (whitespace stripped from both ends). -/
def pyStrip (s : Str) : Str :=
  ((s.dropWhile pyIsSpace).reverse.dropWhile pyIsSpace).reverse

/-- Python `s.lstrip()` restricted to a character predicate. -/
def pyDropWhile (p : Char → Bool) (s : Str) : Str := s.dropWhile p

/-- Python `s.rstrip(cs)` for a single strip character: removes every
trailing occurrence of `c` (this is what `"x//".rstrip("/") = "x"` does). -/
def pyRstripChar (c : Char) (s : Str) : Str :=
  (s.reverse.dropWhile (fun a => a = c)).reverse

/-- Python slice `s[a:b]` for `0 ≤ a ≤ b` (out-of-range indices clamp,
exactly as in Python). -/
def pySlice (s : Str) (a b : Nat) : Str := (s.drop a).take (b - a)

/-- Does `needle` occur in `hay` starting at index `i`? -/
def matchesAt (needle hay : Str) (i : Nat) : Bool := needle.isPrefixOf (hay.drop i)

/-- Python `hay.find(needle, start)`: the least index `i ≥ start` at which
`needle` occurs in `hay`, `none` when Python returns `-1`. -/
def pyFind (hay needle : Str) (start : Nat) : Option Nat :=
  (List.range (hay.length + 1)).find? (fun i => decide (start ≤ i) && matchesAt needle hay i)

/-- Python `s.split(c)` for a one-character separator: always returns at
least one (possibly empty) piece. -/
def splitOnChar (c : Char) : Str → List Str
  | [] => [[]]
  | a :: rest =>
    match splitOnChar c rest with
    | [] => if a = c then [[], []] else [[a]]
    | l :: ls => if a = c then [] :: l :: ls else (a :: l) :: ls

/-- The lines of `s` (split on newline) paired with the index of their first
character, mirroring the `pos += len(line) + 1` bookkeeping of
`_find_protected_ranges` (ingest.py lines 180-191). -/
def linesWithPosAux (pos : Nat) : List Str → List (Nat × Str)
  | [] => []
  | l :: ls => (pos, l) :: linesWithPosAux (pos + l.length + 1) ls

def linesWithPos (s : Str) : List (Nat × Str) := linesWithPosAux 0 (splitOnChar '\n' s)

/-- Length of the maximal run of character `c` at the front of `s`. -/
def runLength (c : Char) : Str → Nat
  | [] => 0
  | a :: rest => if a = c then runLength c rest + 1 else 0

/-! ### Protected ranges (ingest.py `_find_protected_ranges`, lines 158-195) -/

/-- Matches of the regex `^(BT{3,}|~{3,})` (BT = backtick) in MULTILINE mode,
as `(match.start, match.end, marker first character)` triples, in document
order.  A match occurs at a line whose first character opens a run of at
least three backticks or tildes. -/
def fenceMatches (s : Str) : List (Nat × Nat × Char) :=
  (linesWithPos s).filterMap (fun pl =>
    match pl.2 with
    | [] => none
    | c :: _ =>
      if (c = '`' || c = '~') && decide (3 ≤ runLength c pl.2)
      then some (pl.1, pl.1 + runLength c pl.2, c) else none)

/-- The fence-pairing state machine of `_find_protected_ranges` (lines
166-177): open on the first marker, close on a marker with the same first
character, protect an unclosed fence to end of document. -/
def fenceRangesAux (textLen : Nat) :
    List (Nat × Nat × Char) → Option (Nat × Char) → List (Nat × Nat)
  | [], none => []
  | [], some st => [(st.1, textLen)]
  | m :: ms, none => fenceRangesAux textLen ms (some (m.1, m.2.2))
  | m :: ms, some st =>
    if m.2.2 = st.2 then (st.1, m.2.1) :: fenceRangesAux textLen ms none
    else fenceRangesAux textLen ms (some st)

/-- A table row per ingest.py line 185: the stripped line both starts and
ends with a pipe character. -/
def isTableLine (l : Str) : Bool :=
  decide ((pyStrip l).head? = some '|') && decide ((pyStrip l).getLast? = some '|')

/-- The table-range accumulation loop of `_find_protected_ranges` (lines
180-193): consecutive table lines form one `[start, pos)` range, a table
running to the last line is closed at `len(text)`. -/
def tableRangesAux (textLen : Nat) : List (Nat × Str) → Option Nat → List (Nat × Nat)
  | [], none => []
  | [], some ts => [(ts, textLen)]
  | (p, l) :: rest, none =>
      if isTableLine l then tableRangesAux textLen rest (some p)
      else tableRangesAux textLen rest none
  | (p, l) :: rest, some ts =>
      if isTableLine l then tableRangesAux textLen rest (some ts)
      else (ts, p) :: tableRangesAux textLen rest none

/-- Strict lexicographic order on ranges, for the stable `sorted(ranges)`. -/
def rangeLt (a b : Nat × Nat) : Bool :=
  a.1 < b.1 || (a.1 = b.1 && a.2 < b.2)

/-- Stable insertion into a sorted list (insert after equal keys). -/
def insertRange (x : Nat × Nat) : List (Nat × Nat) → List (Nat × Nat)
  | [] => [x]
  | y :: ys => if rangeLt x y then x :: y :: ys else y :: insertRange x ys

/-- Python `sorted` on the list of ranges (stable). -/
def sortRanges : List (Nat × Nat) → List (Nat × Nat)
  | [] => []
  | x :: xs => insertRange x (sortRanges xs)

/-- ingest.py `_find_protected_ranges` (lines 158-195): byte ranges of
fenced code blocks and tables that must not be split. -/
def findProtectedRanges (text : Str) : List (Nat × Nat) :=
  let fences := fenceRangesAux text.length (fenceMatches text) none
  let tables := tableRangesAux text.length (linesWithPos text) none
  sortRanges (fences ++ tables)

/-- ingest.py `_is_in_protected` (lines 198-205), with its early `break`
when `start > pos`. -/
def isInProtected (pos : Nat) : List (Nat × Nat) → Bool
  | [] => false
  | (s, e) :: rest =>
    if s ≤ pos && pos < e then true
    else if pos < s then false
    else isInProtected pos rest

/-! ### Paragraph splitting (ingest.py `_split_paragraphs_safe`, lines 208-256) -/

/-- The two-newline paragraph separator. -/
def nl2 : Str := ['\n', '\n']

theorem pyFind_some {hay needle : Str} {start i : Nat}
    (h : pyFind hay needle start = some i) :
    start ≤ i ∧ matchesAt needle hay i = true := by
  have := List.find?_some h
  simpa using this

theorem pyFind_some_le {hay needle : Str} {start i : Nat}
    (h : pyFind hay needle start = some i) :
    i + needle.length ≤ hay.length := by
  have h2 := (pyFind_some h).2
  unfold matchesAt at h2
  have hpre : needle <+: hay.drop i := by
    exact (List.isPrefixOf_iff_prefix).1 h2
  have hlen := hpre.length_le
  have hmem := List.mem_of_find?_eq_some h
  have hi : i < hay.length + 1 := by simpa [List.mem_range] using hmem
  simp [List.length_drop] at hlen
  omega

/-- The `while True: idx = text.find("\n\n", idx)` loop of
`_split_paragraphs_safe` (lines 216-224): collect paragraph-boundary
candidates outside protected ranges, advancing by two each time.  The
recursion is made structural by a fuel argument so that the definition
reduces inside the kernel; every successful find advances `idx` by at least
two and never beyond `text.length`, so `text.length + 1` units of fuel (as
supplied by `safeSplitPoints`) are never exhausted and the zero-fuel branch
is unreachable. -/
def safeSplitPointsAux (text : Str) (prot : List (Nat × Nat)) : Nat → Nat → List Nat
  | 0, _ => []
  | fuel + 1, idx =>
    match pyFind text nl2 idx with
    | none => []
    | some i =>
      (if isInProtected i prot then [] else [i]) ++ safeSplitPointsAux text prot fuel (i + 2)

/-- The full split-point list of `_split_paragraphs_safe` (lines 215-224). -/
def safeSplitPoints (text : Str) (prot : List (Nat × Nat)) : List Nat :=
  safeSplitPointsAux text prot (text.length + 1) 0

/-- The Python list comprehension
`segments = [text[boundaries[i]:boundaries[i+1]] for i in range(len(boundaries)-1)]`. -/
def pairSlices (t : Str) : List Nat → List Str
  | a :: b :: rest => pySlice t a b :: pairSlices t (b :: rest)
  | _ => []

/-- End-of-loop flush of `_split_paragraphs_safe` (lines 251-254). -/
def packFinish (chunks currentParts : List Str) : List Str :=
  if currentParts.isEmpty then chunks
  else
    let t := pyStrip currentParts.flatten
    if t.isEmpty then chunks else chunks ++ [t]

/-- The greedy packing loop of `_split_paragraphs_safe` (lines 235-254):
start a new chunk when adding the next segment would exceed `maxSize`. -/
def packLoopAux (maxSize : Nat) :
    List Str → List Str → List Str → Nat → List Str
  | [], chunks, currentParts, _ => packFinish chunks currentParts
  | seg :: rest, chunks, currentParts, currentLen =>
    if currentParts ≠ [] ∧ maxSize < currentLen + seg.length then
      packLoopAux maxSize rest
        (if (pyStrip currentParts.flatten).isEmpty then chunks
         else chunks ++ [pyStrip currentParts.flatten])
        [seg] seg.length
    else
      packLoopAux maxSize rest chunks (currentParts ++ [seg]) (currentLen + seg.length)

/-- ingest.py `_split_paragraphs_safe` (lines 208-256): split text at
paragraph boundaries, never inside code blocks or tables. -/
def splitParagraphsSafe (text : Str) (maxSize : Nat) : List Str :=
  if text.length ≤ maxSize then [text] else
  let prot := findProtectedRanges text
  let splitPoints := safeSplitPoints text prot
  if splitPoints = [] then [text] else
  let boundaries := [0] ++ splitPoints.map (· + 2) ++ [text.length]
  let segments := pairSlices text boundaries
  let packed := packLoopAux maxSize segments [] [] 0
  if packed = [] then [text] else packed

/-! ### Heading-based chunking (ingest.py lines 259-360) -/

/-- Matches of the MULTILINE regex `^#..# (.+)$` with `level` hash marks
(`_H1_RE`, `_H2_RE` and the `sub_re` of `_split_section_by_subheadings`),
as `(match.start, group 1)` pairs in document order.  A line matches when
it starts with exactly `level` hashes followed by a space and at least one
further character; the group is the remainder of the line. -/
def headingMatches (level : Nat) (text : Str) : List (Nat × Str) :=
  (linesWithPos text).filterMap (fun pl =>
    if (List.replicate level '#' ++ [' ']).isPrefixOf pl.2 && decide (level + 1 < pl.2.length)
    then some (pl.1, pl.2.drop (level + 1)) else none)

/-- ingest.py `extract_title` (lines 152-155): the first H1 heading. -/
def extractTitle (markdown : Str) : Option Str :=
  match headingMatches 1 markdown with
  | [] => none
  | (_, g) :: _ => some (pyStrip g)

/-- The part of a POSIX path after the last slash (ignoring trailing
slashes), as in `pathlib.PurePosixPath(...).name`. -/
def pathName (p : Str) : Str :=
  let q := (p.reverse.dropWhile (fun c => c = '/')).reverse
  (q.reverse.takeWhile (fun c => c ≠ '/')).reverse

/-- Rightmost index of character `c` in `s` (Python `s.rfind(c)`). -/
def pyRfindChar (s : Str) (c : Char) : Option Nat :=
  match pyRfindChar' s c 0 with
  | some i => some i
  | none => none
where pyRfindChar' : Str → Char → Nat → Option Nat
  | [], _, _ => none
  | a :: rest, d, i =>
    match pyRfindChar' rest d (i + 1) with
    | some j => some j
    | none => if a = d then some i else none

/-- `pathlib.Path(...).stem`: the final path component without its last
suffix (a dot at position 0 or at the very end does not count as a
suffix separator). -/
def pathStem (p : Str) : Str :=
  let name := pathName p
  match pyRfindChar name '.' with
  | some i => if 0 < i ∧ i + 1 < name.length then name.take i else name
  | none => name

/-- One chunk, ingest.py's `{"title", "content", "section_path"}` dict. -/
structure Chunk where
  title : Str
  content : Str
  sectionPath : Str
deriving Repr, DecidableEq

/-- The literal string " > " joining section paths. -/
def sepArrow : Str := [' ', '>', ' ']

/-- The literal string " (cont.)" appended to continuation-chunk titles. -/
def contSuffix : Str := [' ', '(', 'c', 'o', 'n', 't', '.', ')']

/-- The per-match section extraction shared by `chunk_by_headings` (lines
341-345) and `_split_section_by_subheadings` (lines 281-285): each match
yields `(group(1).strip(), content[start:next_start].strip())`. -/
def sectionsOf (content : Str) : List (Nat × Str) → List (Str × Str)
  | [] => []
  | (s, g) :: rest =>
    let e := match rest with | [] => content.length | (s2, _) :: _ => s2
    (pyStrip g, pyStrip (pySlice content s e)) :: sectionsOf content rest

/-- The `enumerate`-with-filter list comprehensions of ingest.py (lines
271-278, 296-303 and 331-338): part `j` becomes a chunk titled `title`
(for `j = 0`) or `title ++ " (cont.)"`, parts that strip to nothing are
skipped (their index still counts). -/
def enumFilterChunks (title sp : Str) (parts : List Str) : List Chunk :=
  (parts.enum.filter (fun ip => !(pyStrip ip.2).isEmpty)).map
    (fun ip => ⟨if ip.1 = 0 then title else title ++ contSuffix, ip.2, sp⟩)

/-- ingest.py `_split_section_by_subheadings` (lines 259-307): split an
oversized section at the next heading level, falling back to safe
paragraph splitting when there are no sub-headings.  The `for` loop over
the sub-section matches (lines 280-307) only ever appends to the result,
so it is rendered as `map` + `flatten`.  The recursion is made structural
by a fuel argument so that the definition reduces inside the kernel; the
level guard `level + 1 < 4` limits the recursion depth to two (levels 2
and 3), so the fuel of 4 supplied by the callers is never exhausted and
the zero-fuel branch is unreachable. -/
def splitSectionBySubheadings (fuel : Nat) (content docTitle parentTitle : Str)
    (level maxSize : Nat) : List Chunk :=
  match fuel with
  | 0 => []
  | fuel + 1 =>
    let ms := headingMatches (level + 1) content
    if ms.isEmpty then
      let parts := splitParagraphsSafe content maxSize
      if parts.length = 1 then
        [⟨parentTitle, pyStrip content, docTitle ++ sepArrow ++ parentTitle⟩]
      else enumFilterChunks parentTitle (docTitle ++ sepArrow ++ parentTitle) parts
    else
      ((sectionsOf content ms).map (fun ts =>
        if ts.2.length < 20 then []
        else if maxSize < ts.2.length ∧ level + 1 < 4 then
          splitSectionBySubheadings fuel ts.2 docTitle ts.1 (level + 1) maxSize
        else if maxSize < ts.2.length then
          enumFilterChunks ts.1 (docTitle ++ sepArrow ++ ts.1)
            (splitParagraphsSafe ts.2 maxSize)
        else [⟨ts.1, ts.2, docTitle ++ sepArrow ++ ts.1⟩])).flatten

/-- The `for i, match in enumerate(matches)` loop of `chunk_by_headings`
(lines 340-358): H2 sections under 20 characters are dropped, oversized
ones go to `_split_section_by_subheadings` at level 2. -/
def processH2 (docTitle : Str) (maxSize : Nat) : List (Str × Str) → List Chunk
  | [] => []
  | (title, content) :: rest =>
    (if content.length < 20 then []
     else if maxSize < content.length then
       splitSectionBySubheadings 4 content docTitle title 2 maxSize
     else [⟨title, content, docTitle ++ sepArrow ++ title⟩])
    ++ processH2 docTitle maxSize rest

/-- The `doc_title = extract_title(markdown) or Path(file_path).stem` of
chunk_by_headings (line 323); an H1 title that strips to the empty string is
falsy in Python and also falls back to the stem. -/
def docTitleOf (markdown filePath : Str) : Str :=
  match extractTitle markdown with
  | some t => if t.isEmpty then pathStem filePath else t
  | none => pathStem filePath

/-- ingest.py `chunk_by_headings` (lines 310-360): split markdown into
chunks by headings with structure-aware boundaries. -/
def chunkByHeadings (markdown filePath : Str) (maxChunkSize : Nat := 4000) : List Chunk :=
  let ms := headingMatches 2 markdown
  let docTitle := docTitleOf markdown filePath
  if ms.isEmpty then
    let stripped := pyStrip markdown
    if stripped.length ≤ maxChunkSize then [⟨docTitle, stripped, docTitle⟩]
    else
      let cs := enumFilterChunks docTitle docTitle (splitParagraphsSafe stripped maxChunkSize)
      if cs.isEmpty then [⟨docTitle, stripped, docTitle⟩] else cs
  else
    let chunks := processH2 docTitle maxChunkSize (sectionsOf markdown ms)
    if chunks.isEmpty then [⟨docTitle, pyStrip markdown, docTitle⟩] else chunks

/-! ### Basic lemmas about the string primitives -/

/-- The non-whitespace characters of a string, in order.  Two strings are
equal "up to whitespace trimming at boundaries" when this projection agrees,
which is how the reconstruction claim is stated. -/
def nonWs (s : Str) : Str := s.filter (fun c => !pyIsSpace c)

theorem filter_dropWhile_not (s : Str) :
    (s.dropWhile pyIsSpace).filter (fun c => !pyIsSpace c)
      = s.filter (fun c => !pyIsSpace c) := by
  induction s with
  | nil => rfl
  | cons a s ih =>
    by_cases ha : pyIsSpace a
    · simp [List.dropWhile_cons, ha, List.filter_cons, ih]
    · simp [List.dropWhile_cons, ha, List.filter_cons]

theorem nonWs_pyStrip (s : Str) : nonWs (pyStrip s) = nonWs s := by
  unfold nonWs pyStrip
  simp only [List.filter_reverse, filter_dropWhile_not, List.reverse_reverse]

theorem nonWs_append (s t : Str) : nonWs (s ++ t) = nonWs s ++ nonWs t := by
  simp [nonWs]

theorem nonWs_eq_nil_of_pyStrip_eq_nil {s : Str} (h : pyStrip s = []) :
    nonWs s = [] := by
  have := nonWs_pyStrip s
  rw [h] at this
  simpa [nonWs] using this.symm

theorem pyStrip_eq_nil_iff {s : Str} :
    pyStrip s = [] ↔ ∀ c ∈ s, pyIsSpace c = true := by
  constructor
  · intro h c hc
    unfold pyStrip at h
    have h1 : (s.dropWhile pyIsSpace).reverse.dropWhile pyIsSpace = [] := by
      have := congrArg List.reverse h
      simpa using this
    have h2 := List.dropWhile_eq_nil_iff.1 h1
    have h3 : ∀ x ∈ s.dropWhile pyIsSpace, pyIsSpace x = true := by
      intro x hx
      exact h2 x (List.mem_reverse.2 hx)
    have : s = s.takeWhile pyIsSpace ++ s.dropWhile pyIsSpace :=
      (List.takeWhile_append_dropWhile pyIsSpace s).symm
    rw [this] at hc
    rcases List.mem_append.1 hc with hc | hc
    · exact List.mem_takeWhile_imp hc
    · exact h3 c hc
  · intro h
    unfold pyStrip
    have : s.dropWhile pyIsSpace = [] := List.dropWhile_eq_nil_iff.2 h
    simp [this]

theorem matchesAt_add_le {needle hay : Str} {i : Nat} (hne : needle ≠ [])
    (h : matchesAt needle hay i = true) : i + needle.length ≤ hay.length := by
  unfold matchesAt at h
  have hpre : needle <+: hay.drop i := (List.isPrefixOf_iff_prefix).1 h
  have hlen := hpre.length_le
  simp [List.length_drop] at hlen
  by_cases hi : i ≤ hay.length
  · omega
  · exfalso
    have hdrop : hay.drop i = [] := List.drop_eq_nil_of_le (by omega)
    rw [hdrop] at hpre
    have := hpre.length_le
    simp at this
    exact hne (List.eq_nil_of_length_eq_zero (by omega))

theorem matchesAt_nl2 {hay : Str} {i : Nat}
    (h : matchesAt nl2 hay i = true) : i + 2 ≤ hay.length := by
  have := @matchesAt_add_le nl2 hay i (by simp [nl2]) h
  simpa [nl2] using this

/-- Python slice concatenation: adjacent slices glue together. -/
theorem pySlice_append (t : Str) {a b c : Nat} (hab : a ≤ b) (hbc : b ≤ c) :
    pySlice t a b ++ pySlice t b c = pySlice t a c := by
  unfold pySlice
  have hdrop : t.drop b = (t.drop a).drop (b - a) := by
    rw [List.drop_drop]
    congr 1
    omega
  rw [hdrop]
  rw [← List.take_add]
  congr 1
  omega

theorem pySlice_zero_length (t : Str) : pySlice t 0 t.length = t := by
  simp [pySlice]

/-! ### Invariants of the paragraph split-point loop -/

theorem mem_safeSplitPointsAux {text : Str} {prot : List (Nat × Nat)} :
    ∀ {fuel idx : Nat}, ∀ j ∈ safeSplitPointsAux text prot fuel idx,
      idx ≤ j ∧ matchesAt nl2 text j = true ∧ isInProtected j prot = false := by
  intro fuel
  induction fuel with
  | zero => intro idx j hj; simp [safeSplitPointsAux] at hj
  | succ fuel ih =>
    intro idx j hj
    rw [safeSplitPointsAux] at hj
    rcases hfind : pyFind text nl2 idx with _ | i
    · rw [hfind] at hj; simp at hj
    · rw [hfind] at hj
      have hxi := (pyFind_some hfind).1
      have hmatch := (pyFind_some hfind).2
      rcases List.mem_append.1 hj with hj | hj
      · by_cases hp : isInProtected i prot
        · simp [hp] at hj
        · simp [hp] at hj
          subst hj
          exact ⟨hxi, hmatch, by simpa using hp⟩
      · have := ih j hj
        exact ⟨by omega, this.2.1, this.2.2⟩

theorem mem_safeSplitPoints {text : Str} {prot : List (Nat × Nat)} :
    ∀ j ∈ safeSplitPoints text prot,
      matchesAt nl2 text j = true ∧ isInProtected j prot = false := by
  intro j hj
  exact (mem_safeSplitPointsAux j hj).2

theorem chain_safeSplitPointsAux (text : Str) (prot : List (Nat × Nat)) :
    ∀ (fuel idx : Nat),
      List.Chain' (fun a b => a + 2 ≤ b) (safeSplitPointsAux text prot fuel idx) := by
  intro fuel
  induction fuel with
  | zero => intro idx; simp [safeSplitPointsAux]
  | succ fuel ih =>
    intro idx
    rw [safeSplitPointsAux]
    rcases hfind : pyFind text nl2 idx with _ | i
    · simp
    · by_cases hp : isInProtected i prot
      · simpa [hp] using ih (i + 2)
      · simp only [hp, Bool.false_eq_true, if_neg, List.singleton_append]
        refine (List.chain'_cons').2 ⟨?_, ih (i + 2)⟩
        intro b hb
        have hbmem : b ∈ safeSplitPointsAux text prot fuel (i + 2) := by
          rcases hhead : safeSplitPointsAux text prot fuel (i + 2) with _ | ⟨c, rest⟩
          · rw [hhead] at hb; simp at hb
          · rw [hhead] at hb; simp at hb; subst hb; simp [hhead]
        exact (mem_safeSplitPointsAux b hbmem).1

/-! ### Gluing the segment slices back together -/

theorem chain_le_getLastD {l : List Nat} :
    ∀ {b : Nat}, List.Chain' (· ≤ ·) (b :: l) → b ≤ (b :: l).getLastD 0 := by
  induction l with
  | nil => intro b _; simp
  | cons c rest ih =>
    intro b h
    have h1 : b ≤ c := List.chain'_cons.1 h |>.1
    have h2 := ih (List.chain'_cons.1 h).2
    simpa using le_trans h1 (by simpa using h2)

theorem pairSlices_flatten (t : Str) :
    ∀ (bs : List Nat) (a : Nat), List.Chain' (· ≤ ·) (a :: bs) →
      (pairSlices t (a :: bs)).flatten = pySlice t a ((a :: bs).getLastD 0) := by
  intro bs
  induction bs with
  | nil =>
    intro a _
    simp [pairSlices, pySlice]
  | cons b rest ih =>
    intro a h
    have hab : a ≤ b := (List.chain'_cons.1 h).1
    have hchain : List.Chain' (· ≤ ·) (b :: rest) := (List.chain'_cons.1 h).2
    have hblast : b ≤ (b :: rest).getLastD 0 := chain_le_getLastD hchain
    calc (pairSlices t (a :: b :: rest)).flatten
        = pySlice t a b ++ (pairSlices t (b :: rest)).flatten := by
          simp [pairSlices]
      _ = pySlice t a b ++ pySlice t b ((b :: rest).getLastD 0) := by rw [ih b hchain]
      _ = pySlice t a ((b :: rest).getLastD 0) := pySlice_append t hab hblast
      _ = pySlice t a ((a :: b :: rest).getLastD 0) := by simp

theorem mem_of_mem_getLast? {α : Type} {l : List α} {x : α} (h : x ∈ l.getLast?) :
    x ∈ l := by
  rcases List.mem_getLast?_eq_getLast h with ⟨hne, rfl⟩
  exact List.getLast_mem hne

theorem getLastD_append_singleton (l : List Nat) (x d : Nat) :
    (l ++ [x]).getLastD d = x := by
  simp

/-- The boundary list of `_split_paragraphs_safe` is weakly sorted. -/
theorem boundaries_chain (text : Str) (prot : List (Nat × Nat)) :
    List.Chain' (· ≤ ·)
      ([0] ++ (safeSplitPoints text prot).map (· + 2) ++ [text.length]) := by
  set pts := safeSplitPoints text prot with hpts
  have hchain : List.Chain' (fun a b => a + 2 ≤ b) pts :=
    chain_safeSplitPointsAux text prot (text.length + 1) 0
  have hmap : List.Chain' (· ≤ ·) (pts.map (· + 2)) := by
    rw [List.chain'_map]
    exact hchain.imp (fun hab => by omega)
  have hbound : ∀ j ∈ pts, j + 2 ≤ text.length := by
    intro j hj
    exact matchesAt_nl2 (mem_safeSplitPoints j hj).1
  have hshape : [0] ++ pts.map (· + 2) ++ [text.length]
      = 0 :: (pts.map (· + 2) ++ [text.length]) := by simp
  rw [hshape]
  refine (List.chain'_cons').2 ⟨fun b _ => Nat.zero_le b, ?_⟩
  refine (List.chain'_append).2 ⟨hmap, by simp, ?_⟩
  intro x hx y hy
  have hylen : text.length = y := by simpa using hy
  subst hylen
  rcases List.mem_map.1 (mem_of_mem_getLast? hx) with ⟨j, hj, rfl⟩
  exact hbound j hj

/-! ### The greedy packing loop loses only boundary whitespace -/

theorem nonWs_packFinish (chunks currentParts : List Str) :
    nonWs (packFinish chunks currentParts).flatten
      = nonWs chunks.flatten ++ nonWs currentParts.flatten := by
  unfold packFinish
  by_cases h1 : currentParts.isEmpty
  · have hnil : currentParts = [] := List.isEmpty_iff.1 h1
    simp [h1, hnil, nonWs]
  · rw [if_neg h1]
    by_cases h2 : (pyStrip currentParts.flatten).isEmpty
    · have hstrip : pyStrip currentParts.flatten = [] := List.isEmpty_iff.1 h2
      have hz : nonWs currentParts.flatten = [] := nonWs_eq_nil_of_pyStrip_eq_nil hstrip
      simp [h2, hz]
    · rw [if_neg h2, List.flatten_append, nonWs_append]
      simp [nonWs_pyStrip]

theorem nonWs_nil : nonWs ([] : Str) = [] := rfl

theorem nonWs_flatten_cons (a : Str) (l : List Str) :
    nonWs ((a :: l).flatten) = nonWs a ++ nonWs l.flatten := by
  rw [List.flatten_cons, nonWs_append]

theorem nonWs_packLoopAux (maxSize : Nat) :
    ∀ (segs chunks currentParts : List Str) (currentLen : Nat),
      nonWs (packLoopAux maxSize segs chunks currentParts currentLen).flatten
        = nonWs chunks.flatten ++ nonWs currentParts.flatten ++ nonWs segs.flatten := by
  intro segs
  induction segs with
  | nil =>
    intro chunks parts len
    rw [packLoopAux, nonWs_packFinish]
    simp [nonWs_nil]
  | cons seg rest ih =>
    intro chunks parts len
    rw [packLoopAux]
    by_cases hc : parts ≠ [] ∧ maxSize < len + seg.length
    · rw [if_pos hc, ih]
      by_cases ht : (pyStrip parts.flatten).isEmpty
      · have hstrip : pyStrip parts.flatten = [] := List.isEmpty_iff.1 ht
        have hz : nonWs parts.flatten = [] := nonWs_eq_nil_of_pyStrip_eq_nil hstrip
        rw [if_pos ht, nonWs_flatten_cons, nonWs_flatten_cons, hz]
        simp [nonWs_nil]
      · rw [if_neg ht, List.flatten_append, nonWs_append, nonWs_flatten_cons,
          nonWs_flatten_cons, nonWs_flatten_cons, nonWs_pyStrip]
        simp [nonWs_nil, List.append_assoc]
    · rw [if_neg hc, ih, List.flatten_append, nonWs_append, nonWs_flatten_cons,
        nonWs_flatten_cons]
      simp [nonWs_nil, List.append_assoc]

/-- The text handed to `_split_paragraphs_safe` is reproduced, up to
whitespace trimming at the chunk boundaries, by concatenating the
returned pieces. -/
theorem nonWs_splitParagraphsSafe (text : Str) (maxSize : Nat) :
    nonWs (splitParagraphsSafe text maxSize).flatten = nonWs text := by
  unfold splitParagraphsSafe
  by_cases h1 : text.length ≤ maxSize
  · simp [h1]
  · rw [if_neg h1]
    by_cases h2 : safeSplitPoints text (findProtectedRanges text) = []
    · simp [h2]
    · simp only [h2, if_neg, if_false]
      have hchain := boundaries_chain text (findProtectedRanges text)
      have hshape : [0] ++ (safeSplitPoints text (findProtectedRanges text)).map (· + 2)
            ++ [text.length]
          = 0 :: ((safeSplitPoints text (findProtectedRanges text)).map (· + 2)
            ++ [text.length]) := by simp
      rw [hshape] at hchain ⊢
      have hflat := pairSlices_flatten text
        ((safeSplitPoints text (findProtectedRanges text)).map (· + 2) ++ [text.length])
        0 hchain
      rw [List.getLastD_cons, getLastD_append_singleton, pySlice_zero_length] at hflat
      by_cases h3 : packLoopAux maxSize
          (pairSlices text (0 :: ((safeSplitPoints text (findProtectedRanges text)).map
            (· + 2) ++ [text.length]))) [] [] 0 = []
      · rw [if_pos h3]
        simp
      · rw [if_neg h3, nonWs_packLoopAux]
        simp only [List.flatten_nil]
        rw [hflat]
        simp [nonWs]

/-! ### Dropped whitespace-only parts and the chunk content projection -/

theorem nonWs_filtered_parts :
    ∀ (l : List (Nat × Str)),
      nonWs ((l.filter (fun ip => !(pyStrip ip.2).isEmpty)).map Prod.snd).flatten
        = nonWs (l.map Prod.snd).flatten := by
  intro l
  induction l with
  | nil => rfl
  | cons ip rest ih =>
    by_cases hp : (pyStrip ip.2).isEmpty
    · have hstrip : pyStrip ip.2 = [] := List.isEmpty_iff.1 hp
      have hz : nonWs ip.2 = [] := nonWs_eq_nil_of_pyStrip_eq_nil hstrip
      simp only [List.filter_cons, hp, Bool.not_true, List.map_cons, List.flatten_cons,
        nonWs_append, hz, List.nil_append]
      exact ih
    · simp only [Bool.not_eq_true] at hp
      simp only [List.filter_cons, hp, Bool.not_false, if_true, List.map_cons,
        List.flatten_cons, nonWs_append]
      rw [ih]

theorem nonWs_enumFilterChunks (title sp : Str) (parts : List Str) :
    nonWs ((enumFilterChunks title sp parts).map Chunk.content).flatten
      = nonWs parts.flatten := by
  unfold enumFilterChunks
  rw [List.map_map]
  have hcomp : (Chunk.content ∘ fun ip : Nat × Str =>
      Chunk.mk (if ip.1 = 0 then title else title ++ contSuffix) ip.2 sp) = Prod.snd := by
    funext ip
    rfl
  rw [hcomp, nonWs_filtered_parts, List.enum_map_snd]

/-! ### Characters of lines are characters of the document -/

theorem splitOnChar_ne_nil (c : Char) (s : Str) : splitOnChar c s ≠ [] := by
  cases s with
  | nil => simp [splitOnChar]
  | cons a rest =>
    rw [splitOnChar]
    rcases hr : splitOnChar c rest with _ | ⟨hd, tl⟩
    · by_cases hac : a = c <;> simp [hac]
    · by_cases hac : a = c <;> simp [hac]

theorem mem_splitOnChar_subset (c : Char) :
    ∀ (s : Str) (l : Str), l ∈ splitOnChar c s → ∀ x ∈ l, x ∈ s := by
  intro s
  induction s with
  | nil =>
    intro l hl x hx
    simp [splitOnChar] at hl
    subst hl
    simp at hx
  | cons a rest ih =>
    intro l hl x hx
    rw [splitOnChar] at hl
    rcases hr : splitOnChar c rest with _ | ⟨hd, tl⟩
    · exact absurd hr (splitOnChar_ne_nil c rest)
    · rw [hr] at hl
      by_cases hac : a = c
      · simp only [hac, if_true] at hl
        rcases List.mem_cons.1 hl with rfl | hl2
        · simp at hx
        · have : l ∈ splitOnChar c rest := by rw [hr]; exact hl2
          exact List.mem_cons_of_mem a (ih l this x hx)
      · simp only [hac, if_false] at hl
        rcases List.mem_cons.1 hl with rfl | hl2
        · rcases List.mem_cons.1 hx with rfl | hx2
          · exact List.mem_cons_self x rest
          · have : hd ∈ splitOnChar c rest := by rw [hr]; exact List.mem_cons_self hd tl
            exact List.mem_cons_of_mem a (ih hd this x hx2)
        · have : l ∈ splitOnChar c rest := by
            rw [hr]; exact List.mem_cons_of_mem hd hl2
          exact List.mem_cons_of_mem a (ih l this x hx)

theorem mem_linesWithPosAux {ls : List Str} :
    ∀ {pos : Nat} {pl : Nat × Str}, pl ∈ linesWithPosAux pos ls → pl.2 ∈ ls := by
  induction ls with
  | nil => intro pos pl h; simp [linesWithPosAux] at h
  | cons l rest ih =>
    intro pos pl h
    rw [linesWithPosAux] at h
    rcases List.mem_cons.1 h with rfl | h2
    · exact List.mem_cons_self l rest
    · exact List.mem_cons_of_mem l (ih h2)

theorem mem_linesWithPos_chars {s : Str} {pl : Nat × Str} (h : pl ∈ linesWithPos s) :
    ∀ x ∈ pl.2, x ∈ s :=
  mem_splitOnChar_subset '\n' s pl.2 (mem_linesWithPosAux h)

/-- A document of whitespace has no heading match at any positive level. -/
theorem headingMatches_nil_of_all_ws {s : Str} (h : ∀ c ∈ s, pyIsSpace c = true)
    {level : Nat} (hl : 0 < level) : headingMatches level s = [] := by
  unfold headingMatches
  rw [List.filterMap_eq_nil]
  intro pl hpl
  by_cases hp : ((List.replicate level '#' ++ [' ']).isPrefixOf pl.2
      && decide (level + 1 < pl.2.length)) = true
  · exfalso
    have hpre : (List.replicate level '#' ++ [' ']) <+: pl.2 := by
      rw [Bool.and_eq_true] at hp
      exact (List.isPrefixOf_iff_prefix).1 hp.1
    have hhash : ('#' : Char) ∈ pl.2 := by
      apply hpre.subset
      cases level with
      | zero => omega
      | succ n => simp [List.replicate_succ]
    have := h '#' (mem_linesWithPos_chars hpl '#' hhash)
    simp [pyIsSpace] at this
  · simp [hp]

/-! ### Protected ranges end inside the document -/

theorem mem_insertRange {x y : Nat × Nat} :
    ∀ {l : List (Nat × Nat)}, x ∈ insertRange y l → x = y ∨ x ∈ l := by
  intro l
  induction l with
  | nil => intro h; simpa [insertRange] using h
  | cons z rest ih =>
    intro h
    rw [insertRange] at h
    by_cases hlt : rangeLt y z
    · simp only [hlt, if_true] at h
      rcases List.mem_cons.1 h with rfl | h2
      · exact Or.inl rfl
      · exact Or.inr h2
    · simp only [hlt, if_false] at h
      rcases List.mem_cons.1 h with rfl | h2
      · exact Or.inr (List.mem_cons_self x rest)
      · rcases ih h2 with h3 | h3
        · exact Or.inl h3
        · exact Or.inr (List.mem_cons_of_mem z h3)

theorem mem_sortRanges {x : Nat × Nat} :
    ∀ {l : List (Nat × Nat)}, x ∈ sortRanges l → x ∈ l := by
  intro l
  induction l with
  | nil => intro h; simpa [sortRanges] using h
  | cons y rest ih =>
    intro h
    rw [sortRanges] at h
    rcases mem_insertRange h with rfl | h2
    · exact List.mem_cons_self x rest
    · exact List.mem_cons_of_mem y (ih h2)

theorem splitOnChar_sum (c : Char) :
    ∀ (s : Str), ((splitOnChar c s).map (fun l => l.length + 1)).sum = s.length + 1 := by
  intro s
  induction s with
  | nil => simp [splitOnChar]
  | cons a rest ih =>
    rw [splitOnChar]
    rcases hr : splitOnChar c rest with _ | ⟨hd, tl⟩
    · exact absurd hr (splitOnChar_ne_nil c rest)
    · rw [hr] at ih
      by_cases hac : a = c
      · simp only [hac, if_true, List.map_cons, List.sum_cons] at ih ⊢
        simp at ih ⊢
        omega
      · simp only [hac, if_false, List.map_cons, List.sum_cons] at ih ⊢
        simp at ih ⊢
        omega

theorem linesWithPosAux_pos_bound :
    ∀ (ls : List Str) (pos : Nat) (pl : Nat × Str), pl ∈ linesWithPosAux pos ls →
      pos ≤ pl.1 ∧ pl.1 + pl.2.length + 1 ≤ pos + (ls.map (fun l => l.length + 1)).sum := by
  intro ls
  induction ls with
  | nil => intro pos pl h; simp [linesWithPosAux] at h
  | cons l rest ih =>
    intro pos pl h
    rw [linesWithPosAux] at h
    rcases List.mem_cons.1 h with rfl | h2
    · simp only [List.map_cons, List.sum_cons]
      omega
    · have := ih (pos + l.length + 1) pl h2
      simp only [List.map_cons, List.sum_cons]
      omega

theorem mem_linesWithPos_bound {s : Str} {pl : Nat × Str} (h : pl ∈ linesWithPos s) :
    pl.1 + pl.2.length ≤ s.length := by
  have := linesWithPosAux_pos_bound (splitOnChar '\n' s) 0 pl h
  have hsum := splitOnChar_sum '\n' s
  omega

theorem runLength_le_length (c : Char) : ∀ (l : Str), runLength c l ≤ l.length := by
  intro l
  induction l with
  | nil => simp [runLength]
  | cons a rest ih =>
    rw [runLength]
    by_cases hac : a = c <;> simp [hac] <;> omega

theorem fenceMatches_end_le {s : Str} {m : Nat × Nat × Char} (h : m ∈ fenceMatches s) :
    m.2.1 ≤ s.length := by
  unfold fenceMatches at h
  rcases List.mem_filterMap.1 h with ⟨pl, hpl, hm⟩
  have hrun : runLength (pl.2.headD ' ') pl.2 ≤ pl.2.length :=
    runLength_le_length (pl.2.headD ' ') pl.2
  have hbound := mem_linesWithPos_bound hpl
  split at hm
  · exact absurd hm (by simp)
  · next c lrest heq =>
    split at hm
    · have hm2 : m = (pl.1, pl.1 + runLength c pl.2, c) := by
        exact (Option.some_inj.1 hm).symm
      have hrun2 : runLength c pl.2 ≤ pl.2.length := runLength_le_length c pl.2
      rw [hm2]
      simp only []
      omega
    · exact absurd hm (by simp)

theorem fenceRangesAux_end_le {L : Nat} :
    ∀ (ms : List (Nat × Nat × Char)) (st : Option (Nat × Char)),
      (∀ m ∈ ms, m.2.1 ≤ L) →
      ∀ r ∈ fenceRangesAux L ms st, r.2 ≤ L := by
  intro ms
  induction ms with
  | nil =>
    intro st _ r hr
    cases st with
    | none => simp [fenceRangesAux] at hr
    | some s0 =>
      rw [fenceRangesAux] at hr
      simp at hr
      rw [hr]
  | cons m rest ih =>
    intro st hms r hr
    have hrest : ∀ x ∈ rest, x.2.1 ≤ L := fun x hx => hms x (List.mem_cons_of_mem m hx)
    cases st with
    | none =>
      rw [fenceRangesAux] at hr
      exact ih (some (m.1, m.2.2)) hrest r hr
    | some s0 =>
      rw [fenceRangesAux] at hr
      by_cases heq : m.2.2 = s0.2
      · rw [if_pos heq] at hr
        rcases List.mem_cons.1 hr with rfl | h2
        · exact hms m (List.mem_cons_self m rest)
        · exact ih none hrest r h2
      · rw [if_neg heq] at hr
        exact ih (some s0) hrest r hr

theorem tableRangesAux_end_le {L : Nat} :
    ∀ (ls : List (Nat × Str)) (st : Option Nat),
      (∀ pl ∈ ls, pl.1 ≤ L) →
      ∀ r ∈ tableRangesAux L ls st, r.2 ≤ L := by
  intro ls
  induction ls with
  | nil =>
    intro st _ r hr
    cases st with
    | none => simp [tableRangesAux] at hr
    | some s0 =>
      rw [tableRangesAux] at hr
      simp at hr
      rw [hr]
  | cons pl rest ih =>
    intro st hls r hr
    have hrest : ∀ x ∈ rest, x.1 ≤ L := fun x hx => hls x (List.mem_cons_of_mem pl hx)
    obtain ⟨p, l⟩ := pl
    cases st with
    | none =>
      rw [tableRangesAux] at hr
      by_cases ht : isTableLine l
      · rw [if_pos ht] at hr
        exact ih (some p) hrest r hr
      · rw [if_neg ht] at hr
        exact ih none hrest r hr
    | some s0 =>
      rw [tableRangesAux] at hr
      by_cases ht : isTableLine l
      · rw [if_pos ht] at hr
        exact ih (some s0) hrest r hr
      · rw [if_neg ht] at hr
        rcases List.mem_cons.1 hr with rfl | h2
        · exact hls (p, l) (List.mem_cons_self _ rest)
        · exact ih none hrest r h2

/-- Every protected range ends inside the document. -/
theorem findProtectedRanges_end_le {t : Str} {r : Nat × Nat}
    (h : r ∈ findProtectedRanges t) : r.2 ≤ t.length := by
  unfold findProtectedRanges at h
  have h2 := mem_sortRanges h
  rcases List.mem_append.1 h2 with h3 | h3
  · refine fenceRangesAux_end_le (fenceMatches t) none ?_ r h3
    intro m hm
    exact fenceMatches_end_le hm
  · refine tableRangesAux_end_le (linesWithPos t) none ?_ r h3
    intro pl hpl
    have := mem_linesWithPos_bound hpl
    omega

/-! ### Claim C1 -/

/-- The document of the C1 scenario (scaled to a 67-character document with a
level-2 heading whose section is dominated by a fenced code block, chunked
with a `maxChunkSize` of 15 so that the block is oversized). -/
def c1doc : Str :=
  ("# T\n\n## S\naaaa bbbb cccc\n\n```\ncode1\n\ncode2\n```\n\ntail tail tail tail").toList

/-- The fenced code block inside `c1doc`, including its `\n\n` paragraph
boundary that must not be used as a split point. -/
def c1fence : Str := ("```\ncode1\n\ncode2\n```").toList

/-- C1: no paragraph-boundary split point chosen by `_split_paragraphs_safe`
lies inside a protected range (first conjunct); a 4000-byte document cannot
contain a 4100-byte protected range at all, so the literal spec scenario is
vacuous (second conjunct); and in a scaled version of the scenario the fenced
code block, although its section exceeds `maxChunkSize`, survives intact as
the content of a single chunk that itself exceeds `maxChunkSize` (third
conjunct). -/
theorem c1_protected_ranges_never_split :
    (∀ (text : Str) (j : Nat),
        j ∈ safeSplitPoints text (findProtectedRanges text) →
        isInProtected j (findProtectedRanges text) = false)
    ∧ (∀ (doc : Str), doc.length ≤ 4000 →
        ∀ r ∈ findProtectedRanges doc, r.2 - r.1 < 4100)
    ∧ ((chunkByHeadings c1doc (("d.md").toList) 15).map Chunk.content
        = [("## S\naaaa bbbb cccc").toList, c1fence, ("tail tail tail tail").toList]
      ∧ 15 < c1fence.length) := by
  refine ⟨?_, ?_, ?_, ?_⟩
  · intro text j hj
    exact (mem_safeSplitPoints j hj).2
  · intro doc hdoc r hr
    have := findProtectedRanges_end_le hr
    omega
  · decide
  · decide

/-- A small document with one paragraph boundary and one protected range,
used to discharge the hypotheses of `c1_protected_ranges_never_split`. -/
def c1wtext : Str := ("ab\n\ncd\n```\nq\n```").toList

theorem c1_protected_ranges_never_split_witness :
    (2 ∈ safeSplitPoints c1wtext (findProtectedRanges c1wtext)
      ∧ isInProtected 2 (findProtectedRanges c1wtext) = false)
    ∧ (c1wtext.length ≤ 4000 ∧ (7, 16) ∈ findProtectedRanges c1wtext ∧ 16 - 7 < 4100) := by
  constructor
  · exact ⟨by decide, c1_protected_ranges_never_split.1 c1wtext 2 (by decide)⟩
  · exact ⟨by decide, by decide,
      c1_protected_ranges_never_split.2.1 c1wtext (by decide) (7, 16) (by decide)⟩

/-! ### Claim C2 -/

/-- A document with non-whitespace content before its first level-2 heading:
`chunk_by_headings` starts its first section at the first H2 match, so the
preamble appears in no chunk. -/
def c2doc : Str :=
  ("Intro text that is certainly long.\n\n## Sect\nBody text for the section is long enough.").toList

/-- C2 counterexample: for `c2doc` the concatenation of all chunk contents
loses the non-whitespace preamble before the first level-2 heading, so it
does not reproduce the source up to whitespace trimming. -/
theorem c2_counterexample_preamble_lost :
    nonWs ((chunkByHeadings c2doc (("doc.md").toList) 4000).map Chunk.content).flatten
      ≠ nonWs c2doc := by decide

/-- C2 (amended): for every markdown document with no level-2 heading line,
concatenating the content fields of the chunks returned by
`chunk_by_headings`, in order, reproduces the source document up to
whitespace trimming at chunk boundaries (formalised as equality of the
non-whitespace character sequences, so no non-whitespace content is lost or
reordered). -/
theorem c2_concat_reconstructs_no_h2 (markdown filePath : Str) (maxChunkSize : Nat)
    (hH2 : headingMatches 2 markdown = []) :
    nonWs ((chunkByHeadings markdown filePath maxChunkSize).map Chunk.content).flatten
      = nonWs markdown := by
  unfold chunkByHeadings
  simp only [hH2, List.isEmpty_nil, if_true]
  by_cases h1 : (pyStrip markdown).length ≤ maxChunkSize
  · simp only [h1, if_true]
    simp [nonWs_pyStrip, nonWs_nil]
  · simp only [h1, if_false]
    by_cases h2 : (enumFilterChunks (docTitleOf markdown filePath)
        (docTitleOf markdown filePath)
        (splitParagraphsSafe (pyStrip markdown) maxChunkSize)).isEmpty
    · simp only [h2, if_true]
      simp [nonWs_pyStrip, nonWs_nil]
    · simp only [h2, Bool.false_eq_true, if_false]
      rw [nonWs_enumFilterChunks, nonWs_splitParagraphsSafe, nonWs_pyStrip]

theorem c2_concat_reconstructs_no_h2_witness :
    headingMatches 2 (("hello\n\nworld").toList) = []
    ∧ nonWs ((chunkByHeadings (("hello\n\nworld").toList) (("f.md").toList) 3).map
        Chunk.content).flatten
      = nonWs (("hello\n\nworld").toList) :=
  ⟨by decide, c2_concat_reconstructs_no_h2 (("hello\n\nworld").toList) (("f.md").toList) 3
    (by decide)⟩

/-! ### Claim C10 -/

/-- C10: `chunk_by_headings` always returns a non-empty list, and on a
document that strips to nothing (all candidate sections are absent) it falls
back to a single chunk carrying the stripped document content. -/
theorem c10_chunkByHeadings_nonempty (markdown filePath : Str) (maxChunkSize : Nat) :
    chunkByHeadings markdown filePath maxChunkSize ≠ []
    ∧ (pyStrip markdown = [] →
        chunkByHeadings markdown filePath maxChunkSize
          = [⟨pathStem filePath, [], pathStem filePath⟩]) := by
  constructor
  · unfold chunkByHeadings
    by_cases hms : (headingMatches 2 markdown).isEmpty
    · simp only [hms, if_true]
      by_cases h1 : (pyStrip markdown).length ≤ maxChunkSize
      · simp [h1]
      · simp only [h1, if_false]
        by_cases h2 : (enumFilterChunks (docTitleOf markdown filePath)
            (docTitleOf markdown filePath)
            (splitParagraphsSafe (pyStrip markdown) maxChunkSize)).isEmpty
        · simp [h2]
        · simp only [h2, Bool.false_eq_true, if_false]
          exact fun hc => h2 (by simp [hc])
    · simp only [hms, Bool.false_eq_true, if_false]
      by_cases h2 : (processH2 (docTitleOf markdown filePath) maxChunkSize
          (sectionsOf markdown (headingMatches 2 markdown))).isEmpty
      · simp [h2]
      · simp only [h2, Bool.false_eq_true, if_false]
        exact fun hc => h2 (by simp [hc])
  · intro hstrip
    have hws : ∀ c ∈ markdown, pyIsSpace c = true := pyStrip_eq_nil_iff.1 hstrip
    have hH2 : headingMatches 2 markdown = [] :=
      headingMatches_nil_of_all_ws hws (by omega)
    have hH1 : headingMatches 1 markdown = [] :=
      headingMatches_nil_of_all_ws hws (by omega)
    unfold chunkByHeadings
    rw [hH2, hstrip]
    simp [docTitleOf, extractTitle, hH1]

theorem c10_chunkByHeadings_nonempty_witness :
    pyStrip (("  \n ").toList) = []
    ∧ chunkByHeadings (("  \n ").toList) (("a/b.md").toList) 4000
        = [⟨("b").toList, [], ("b").toList⟩] := by
  constructor
  · decide
  · have h := (c10_chunkByHeadings_nonempty (("  \n ").toList) (("a/b.md").toList) 4000).2
      (by decide)
    rw [h]
    decide

/-! ## URL parsing

crawl.py calls `urllib.parse.urlparse` / `urlunparse`.  The following
definitions are modelled from CPython `urllib/parse.py` (3.11+), restricted
to the modelled domain: ASCII input (so `str.lower` is ASCII lower-casing
and `_checknetloc` is a no-op) and bracket-free authorities (a netloc
containing `[` or `]` is IPv6 territory, which CPython validates separately;
the model reports it as `none` and every theorem stays outside it). -/

/-- Characters allowed in a URL scheme (`urllib.parse.scheme_chars`). -/
def isSchemeChar (c : Char) : Bool :=
  decide ('a' ≤ c ∧ c ≤ 'z') || decide ('A' ≤ c ∧ c ≤ 'Z')
    || decide ('0' ≤ c ∧ c ≤ '9') || c = '+' || c = '-' || c = '.'

/-- ASCII lower-casing of one character (Python `str.lower` on ASCII). -/
def asciiLowerChar (c : Char) : Char :=
  if 'A' ≤ c ∧ c ≤ 'Z' then Char.ofNat (c.toNat + 32) else c

/-- ASCII lower-casing of a string. -/
def asciiLower (s : Str) : Str := s.map asciiLowerChar

/-- Python `c.isascii() and c.isalpha()`. -/
def isAsciiAlpha (c : Char) : Bool :=
  decide ('a' ≤ c ∧ c ≤ 'z') || decide ('A' ≤ c ∧ c ≤ 'Z')

/-- The WHATWG C0-control-or-space set, left-stripped from a URL. -/
def isC0OrSpace (c : Char) : Bool := decide (c.toNat ≤ 0x20)

/-- The unsafe bytes removed anywhere in a URL (tab, CR, LF). -/
def isUnsafeUrlByte (c : Char) : Bool := c = '\t' || c = '\r' || c = '\n'

/-- The sanitising prelude of `urlsplit`: left-strip C0 controls and space,
then remove tab, CR and LF everywhere. -/
def cleanUrl (s : Str) : Str :=
  (s.dropWhile isC0OrSpace).filter (fun c => !isUnsafeUrlByte c)

/-- Index of the first character satisfying `p`, if any. -/
def firstIdx (p : Char → Bool) : Str → Option Nat
  | [] => none
  | a :: rest => if p a then some 0 else (firstIdx p rest).map (· + 1)

/-- A `urllib.parse.ParseResult` (also standing in for `SplitResult`,
whose `params` is always empty). -/
structure UrlParts where
  scheme : Str
  netloc : Str
  path : Str
  params : Str
  query : Str
  fragment : Str
deriving Repr, DecidableEq

/-- A character ending the netloc (`_splitnetloc` scans to the first of
`/?#`). -/
def isNetlocEnd (c : Char) : Bool := c = '/' || c = '?' || c = '#'

/-- The scheme-detection step of `urlsplit`: split at the first `:` when
everything before it is a valid scheme starting with an ASCII letter;
the scheme is lower-cased by `urlsplit` itself. -/
def schemeSplit (t : Str) : Str × Str :=
  match firstIdx (fun c => c = ':') t with
  | some i =>
    if 0 < i ∧ isAsciiAlpha (t.headD ' ') ∧ (t.take i).all isSchemeChar then
      (asciiLower (t.take i), t.drop (i + 1))
    else (([] : Str), t)
  | none => (([] : Str), t)

/-- CPython `urlsplit` on the modelled domain (`params` is returned
empty; `allow_fragments` is `True`). -/
def urlsplitM (url0 : Str) : Option UrlParts :=
  let url1 := cleanUrl url0
  let schemeRest := schemeSplit url1
  let scheme := schemeRest.1
  let rest := schemeRest.2
  let netlocRest :=
    if (['/', '/'] : Str).isPrefixOf rest then
      ((rest.drop 2).takeWhile (fun c => !isNetlocEnd c),
       (rest.drop 2).dropWhile (fun c => !isNetlocEnd c))
    else (([] : Str), rest)
  let netloc := netlocRest.1
  let rest2 := netlocRest.2
  if netloc.any (fun c => c = '[' || c = ']') then none
  else
    let restFrag :=
      match firstIdx (fun c => c = '#') rest2 with
      | some i => (rest2.take i, rest2.drop (i + 1))
      | none => (rest2, ([] : Str))
    let pathQuery :=
      match firstIdx (fun c => c = '?') restFrag.1 with
      | some i => (restFrag.1.take i, restFrag.1.drop (i + 1))
      | none => (restFrag.1, ([] : Str))
    some ⟨scheme, netloc, pathQuery.1, [], pathQuery.2, restFrag.2⟩

/-- CPython `_splitparams` (only reached when the path contains `;`):
split the params off the last path segment. -/
def splitParams (url : Str) : Str × Str :=
  let i? :=
    if url.contains '/' then
      match pyRfindChar url '/' with
      | some r =>
        match firstIdx (fun a => a = ';') (url.drop r) with
        | some j => some (r + j)
        | none => none
      | none => none
    else firstIdx (fun a => a = ';') url
  match i? with
  | none => (url, [])
  | some i => (url.take i, url.drop (i + 1))

/-- CPython `urlparse`: `urlsplit` plus the params split. -/
def urlparseM (url : Str) : Option UrlParts := do
  let sp ← urlsplitM url
  if sp.path.contains ';' then
    let pq := splitParams sp.path
    return { sp with path := pq.1, params := pq.2 }
  else
    return sp

/-- CPython `urlunsplit`. -/
def urlunsplitM (scheme netloc url query fragment : Str) : Str :=
  let url1 :=
    if netloc ≠ [] ∨ (url ≠ [] ∧ (['/', '/'] : Str).isPrefixOf url) then
      ['/', '/'] ++ netloc ++
        (if url ≠ [] ∧ url.headD ' ' ≠ '/' then '/' :: url else url)
    else url
  let url2 := if scheme ≠ [] then scheme ++ [':'] ++ url1 else url1
  let url3 := if query ≠ [] then url2 ++ ['?'] ++ query else url2
  if fragment ≠ [] then url3 ++ ['#'] ++ fragment else url3

/-- CPython `urlunparse`. -/
def urlunparseM (scheme netloc url params query fragment : Str) : Str :=
  urlunsplitM scheme netloc (if params ≠ [] then url ++ [';'] ++ params else url)
    query fragment

/-- crawl.py `normalize_url` (lines 138-145): lowercase scheme and netloc,
strip the fragment, `rstrip("/")` the path unless it is exactly "/".
`none` only outside the modelled domain (bracketed authority). -/
def normalizeUrl (url : Str) : Option Str := do
  let parsed ← urlparseM url
  let scheme := asciiLower parsed.scheme
  let host := asciiLower parsed.netloc
  let path := if parsed.path ≠ ['/'] then pyRstripChar '/' parsed.path else ['/']
  return urlunparseM scheme host path parsed.params parsed.query []

/-! ### Lemmas about `firstIdx` -/

theorem firstIdx_eq_none_iff {p : Char → Bool} :
    ∀ {s : Str}, firstIdx p s = none ↔ ∀ c ∈ s, p c = false := by
  intro s
  induction s with
  | nil => simp [firstIdx]
  | cons a rest ih =>
    rw [firstIdx]
    by_cases hp : p a
    · simp [hp]
    · rw [if_neg hp]
      cases hfi : firstIdx p rest with
      | none =>
        simp only [Option.map_none']
        constructor
        · intro _ c hc
          rcases List.mem_cons.1 hc with rfl | hc2
          · simpa using hp
          · exact ih.1 hfi c hc2
        · intro _
          trivial
      | some j =>
        simp only [Option.map_some']
        constructor
        · intro h
          exact absurd h (by simp)
        · intro h
          exfalso
          have h2 := ih.2 (fun c hc => h c (List.mem_cons_of_mem a hc))
          rw [hfi] at h2
          exact absurd h2 (by simp)

theorem firstIdx_some_decomp {p : Char → Bool} :
    ∀ {s : Str} {i : Nat}, firstIdx p s = some i →
      ∃ a c b, s = a ++ c :: b ∧ a.length = i ∧ (∀ x ∈ a, p x = false) ∧ p c = true := by
  intro s
  induction s with
  | nil => intro i h; simp [firstIdx] at h
  | cons a rest ih =>
    intro i h
    rw [firstIdx] at h
    by_cases hp : p a
    · simp only [hp, if_true, Option.some_inj] at h
      exact ⟨[], a, rest, by simp, by simp [← h], by simp, hp⟩
    · rw [if_neg hp] at h
      rcases Option.map_eq_some.1 h with ⟨j, hj, rfl⟩
      rcases ih hj with ⟨a2, c, b, hs, hl, ha, hc⟩
      refine ⟨a :: a2, c, b, by simp [hs], by simp [hl], ?_, hc⟩
      intro x hx
      rcases List.mem_cons.1 hx with rfl | hx2
      · simpa using hp
      · exact ha x hx2

theorem firstIdx_append_found {p : Char → Bool} {a b : Str} {c : Char}
    (ha : ∀ x ∈ a, p x = false) (hc : p c = true) :
    firstIdx p (a ++ c :: b) = some a.length := by
  induction a with
  | nil => simp [firstIdx, hc]
  | cons x a2 ih =>
    have hx : p x = false := ha x (List.mem_cons_self x a2)
    have ih2 := ih (fun y hy => ha y (List.mem_cons_of_mem x hy))
    rw [List.cons_append, firstIdx, if_neg (by simp [hx]), ih2]
    simp

theorem take_append_cons (a : Str) (c : Char) (b : Str) :
    (a ++ c :: b).take a.length = a := by
  simp

theorem drop_append_cons (a : Str) (c : Char) (b : Str) :
    (a ++ c :: b).drop (a.length + 1) = b := by
  have h : a ++ c :: b = (a ++ [c]) ++ b := by simp
  rw [h]
  have h2 : (a ++ [c]).length = a.length + 1 := by simp
  rw [← h2, List.drop_left]

/-! ### ASCII character-class lemmas -/

theorem char_le_iff_toNat {a b : Char} : a ≤ b ↔ a.toNat ≤ b.toNat := by
  rw [Char.le_def]
  rfl

theorem char_eq_of_toNat {a b : Char} (h : a.toNat = b.toNat) : a = b := by
  apply Char.eq_of_val_eq
  exact UInt32.toNat.inj h

theorem char_eq_iff_toNat {a b : Char} : a = b ↔ a.toNat = b.toNat :=
  ⟨fun h => by rw [h], char_eq_of_toNat⟩

theorem char_toNat_ofNat {n : Nat} (h : n < 55296) : (Char.ofNat n).toNat = n := by
  unfold Char.ofNat Char.ofNatAux
  have hv : n.isValidChar := Or.inl h
  simp [hv, Char.toNat, UInt32.toNat, BitVec.toNat_ofNatLt]

theorem asciiLowerChar_toNat (c : Char) :
    (asciiLowerChar c).toNat
      = if 65 ≤ c.toNat ∧ c.toNat ≤ 90 then c.toNat + 32 else c.toNat := by
  unfold asciiLowerChar
  by_cases h : 'A' ≤ c ∧ c ≤ 'Z'
  · have h1 : 65 ≤ c.toNat := char_le_iff_toNat.1 h.1
    have h2 : c.toNat ≤ 90 := char_le_iff_toNat.1 h.2
    rw [if_pos h, if_pos ⟨h1, h2⟩]
    exact char_toNat_ofNat (by omega)
  · have h3 : ¬(65 ≤ c.toNat ∧ c.toNat ≤ 90) := by
      intro hc
      exact h ⟨char_le_iff_toNat.2 hc.1, char_le_iff_toNat.2 hc.2⟩
    rw [if_neg h, if_neg h3]

theorem asciiLowerChar_idem (c : Char) :
    asciiLowerChar (asciiLowerChar c) = asciiLowerChar c := by
  apply char_eq_of_toNat
  have h1 := asciiLowerChar_toNat c
  have h2 := asciiLowerChar_toNat (asciiLowerChar c)
  rw [h1] at h2
  rw [h2, h1]
  split_ifs <;> omega

theorem asciiLower_idem (s : Str) : asciiLower (asciiLower s) = asciiLower s := by
  unfold asciiLower
  rw [List.map_map]
  apply List.map_congr_left
  intro c _
  exact asciiLowerChar_idem c

/-- `asciiLowerChar` only ever produces a lower-case letter or its input;
so a character outside `a..z` in the image was already in the source. -/
theorem asciiLowerChar_eq_symbol {c d : Char}
    (hd : ¬(97 ≤ d.toNat ∧ d.toNat ≤ 122)) (h : asciiLowerChar c = d) : c = d := by
  have ht := asciiLowerChar_toNat c
  rw [h] at ht
  by_cases hc : 65 ≤ c.toNat ∧ c.toNat ≤ 90
  · rw [if_pos hc] at ht
    exact absurd ⟨by omega, by omega⟩ hd
  · rw [if_neg hc] at ht
    exact char_eq_of_toNat ht.symm

theorem mem_asciiLower_symbol {d : Char} {s : Str}
    (hd : ¬(97 ≤ d.toNat ∧ d.toNat ≤ 122)) (h : d ∈ asciiLower s) : d ∈ s := by
  rcases List.mem_map.1 h with ⟨c, hc, hcd⟩
  rw [← asciiLowerChar_eq_symbol hd hcd]
  exact hc

theorem isSchemeChar_iff (c : Char) :
    isSchemeChar c = true
      ↔ (97 ≤ c.toNat ∧ c.toNat ≤ 122) ∨ (65 ≤ c.toNat ∧ c.toNat ≤ 90)
        ∨ (48 ≤ c.toNat ∧ c.toNat ≤ 57) ∨ c.toNat = 43 ∨ c.toNat = 45 ∨ c.toNat = 46 := by
  unfold isSchemeChar
  simp only [Bool.or_eq_true, decide_eq_true_eq, char_le_iff_toNat, char_eq_iff_toNat]
  tauto

theorem isAsciiAlpha_iff (c : Char) :
    isAsciiAlpha c = true
      ↔ (97 ≤ c.toNat ∧ c.toNat ≤ 122) ∨ (65 ≤ c.toNat ∧ c.toNat ≤ 90) := by
  unfold isAsciiAlpha
  simp only [Bool.or_eq_true, decide_eq_true_eq, char_le_iff_toNat]
  exact Iff.rfl

theorem isSchemeChar_asciiLowerChar {c : Char} (h : isSchemeChar c = true) :
    isSchemeChar (asciiLowerChar c) = true := by
  rw [isSchemeChar_iff] at h ⊢
  rw [asciiLowerChar_toNat]
  split_ifs <;> omega

theorem isAsciiAlpha_asciiLowerChar {c : Char} (h : isAsciiAlpha c = true) :
    isAsciiAlpha (asciiLowerChar c) = true := by
  rw [isAsciiAlpha_iff] at h ⊢
  rw [asciiLowerChar_toNat]
  split_ifs <;> omega

/-! ### Lemmas about `rstrip`, `cleanUrl` and `schemeSplit` -/

theorem dropWhile_head_false (p : Char → Bool) :
    ∀ (l : Str) {x : Char} {rest : Str}, l.dropWhile p = x :: rest → p x = false := by
  intro l
  induction l with
  | nil => intro x rest h; simp at h
  | cons a l ih =>
    intro x rest h
    rw [List.dropWhile_cons] at h
    by_cases hp : p a
    · rw [if_pos hp] at h
      exact ih h
    · rw [if_neg hp] at h
      injection h with h1 _
      rw [← h1]
      simpa using hp

theorem pyRstripChar_decomp (c : Char) (s : Str) :
    ∃ k, s = pyRstripChar c s ++ List.replicate k c := by
  unfold pyRstripChar
  refine ⟨(s.reverse.takeWhile (fun a => a = c)).length, ?_⟩
  conv_lhs => rw [← s.reverse_reverse,
    ← List.takeWhile_append_dropWhile (fun a => a = c) s.reverse]
  rw [List.reverse_append]
  congr 1
  apply List.eq_replicate_iff.2
  constructor
  · simp
  · intro b hb
    have hb2 : b ∈ s.reverse.takeWhile (fun a => a = c) := List.mem_reverse.1 hb
    simpa using List.mem_takeWhile_imp hb2

theorem pyRstripChar_getLast_ne (c : Char) (s : Str) :
    pyRstripChar c s = [] ∨ (pyRstripChar c s).getLast? ≠ some c := by
  rcases hd : s.reverse.dropWhile (fun a => a = c) with _ | ⟨x, rest⟩
  · left
    simp [pyRstripChar, hd]
  · right
    have hx := dropWhile_head_false (fun a => a = c) s.reverse hd
    unfold pyRstripChar
    rw [hd, List.getLast?_reverse]
    simp at hx ⊢
    exact hx

theorem pyRstripChar_idem (c : Char) (s : Str) :
    pyRstripChar c (pyRstripChar c s) = pyRstripChar c s := by
  conv_lhs => unfold pyRstripChar
  rw [List.reverse_reverse]
  rcases hd : s.reverse.dropWhile (fun a => a = c) with _ | ⟨x, rest⟩
  · simp [pyRstripChar, hd]
  · have hx : (fun a => decide (a = c)) x = false := dropWhile_head_false _ s.reverse hd
    rw [List.dropWhile_cons, if_neg (by simpa using hx)]
    simp [pyRstripChar, hd]

theorem pyRstripChar_ne_single (c : Char) (s : Str) : pyRstripChar c s ≠ [c] := by
  intro h
  rcases pyRstripChar_getLast_ne c s with h2 | h2
  · rw [h2] at h; simp at h
  · rw [h] at h2
    simp at h2

theorem pyRstripChar_headD (c : Char) (s : Str) (d : Char)
    (h : pyRstripChar c s ≠ []) : (pyRstripChar c s).headD d = s.headD d := by
  rcases pyRstripChar_decomp c s with ⟨k, hk⟩
  conv_rhs => rw [hk]
  rcases hr : pyRstripChar c s with _ | ⟨x, rest⟩
  · exact absurd hr h
  · simp

/-! ### Lemmas about `cleanUrl` -/

theorem cleanUrl_eq_self {s : Str} (h1 : s = [] ∨ isC0OrSpace (s.headD ' ') = false)
    (h2 : ∀ c ∈ s, isUnsafeUrlByte c = false) : cleanUrl s = s := by
  unfold cleanUrl
  have hd : s.dropWhile isC0OrSpace = s := by
    rcases s with _ | ⟨a, rest⟩
    · rfl
    · rcases h1 with h1 | h1
      · simp at h1
      · rw [List.dropWhile_cons, if_neg (by simpa using h1)]
  rw [hd]
  apply List.filter_eq_self.2
  intro a ha
  simp [h2 a ha]

theorem mem_cleanUrl {c : Char} {s : Str} (h : c ∈ cleanUrl s) : c ∈ s := by
  unfold cleanUrl at h
  exact (List.dropWhile_sublist _).subset ((List.filter_sublist _).subset h)

theorem cleanUrl_no_unsafe {s : Str} : ∀ c ∈ cleanUrl s, isUnsafeUrlByte c = false := by
  intro c h
  unfold cleanUrl at h
  have := (List.mem_filter.1 h).2
  simpa using this

theorem unsafe_of_c0 {c : Char} (h : isUnsafeUrlByte c = true) : isC0OrSpace c = true := by
  unfold isUnsafeUrlByte at h
  unfold isC0OrSpace
  simp only [Bool.or_eq_true, decide_eq_true_eq] at h
  rcases h with (rfl | rfl) | rfl <;> decide

theorem cleanUrl_head_not_c0 (s : Str) :
    cleanUrl s = [] ∨ isC0OrSpace ((cleanUrl s).headD ' ') = false := by
  unfold cleanUrl
  rcases hd : s.dropWhile isC0OrSpace with _ | ⟨x, rest⟩
  · left; rfl
  · have hx : isC0OrSpace x = false := dropWhile_head_false _ s hd
    have hxu : isUnsafeUrlByte x = false := by
      by_cases h : isUnsafeUrlByte x
      · rw [unsafe_of_c0 h] at hx; simp at hx
      · simpa using h
    right
    rw [List.filter_cons, if_pos (by simp [hxu])]
    simpa using hx

/-! ### Lemmas about `schemeSplit` -/

theorem isSchemeChar_ne_colon {x : Char} (h : isSchemeChar x = true) :
    (x = ':') = False := by
  rw [isSchemeChar_iff] at h
  simp only [eq_iff_iff, iff_false]
  intro hx
  rw [hx] at h
  revert h
  decide

theorem schemeSplit_found {t a b : Str}
    (ht : t = a ++ ':' :: b) (hne : a ≠ [])
    (halpha : isAsciiAlpha (a.headD ' ') = true) (hall : ∀ x ∈ a, isSchemeChar x = true) :
    schemeSplit t = (asciiLower a, b) := by
  have hfi : firstIdx (fun c => c = ':') t = some a.length := by
    rw [ht]
    apply firstIdx_append_found
    · intro x hx
      have h2 := isSchemeChar_ne_colon (hall x hx)
      simp [h2]
    · simp
  unfold schemeSplit
  rw [hfi]
  dsimp only
  have htake : t.take a.length = a := by rw [ht]; exact take_append_cons a ':' b
  have hdrop : t.drop (a.length + 1) = b := by rw [ht]; exact drop_append_cons a ':' b
  have hhead : t.headD ' ' = a.headD ' ' := by
    rcases a with _ | ⟨x, a2⟩
    · exact absurd rfl hne
    · rw [ht]; rfl
  rw [if_pos]
  · rw [htake, hdrop]
  · refine ⟨List.length_pos.2 hne, ?_, ?_⟩
    · rw [hhead]; exact halpha
    · rw [htake]
      exact List.all_eq_true.2 hall

theorem schemeSplit_fst_nil_no_decomp {t : Str} (h : (schemeSplit t).1 = [])
    {a b : Str} (ht : t = a ++ ':' :: b) (hne : a ≠ [])
    (halpha : isAsciiAlpha (a.headD ' ') = true)
    (hall : ∀ x ∈ a, isSchemeChar x = true) : False := by
  rw [schemeSplit_found ht hne halpha hall] at h
  simp only [asciiLower] at h
  rw [List.map_eq_nil] at h
  exact hne h

theorem schemeSplit_fst_nil_snd {t : Str} (h : (schemeSplit t).1 = []) :
    (schemeSplit t).2 = t := by
  unfold schemeSplit at h ⊢
  rcases hfi : firstIdx (fun c => c = ':') t with _ | i
  · rfl
  · rw [hfi] at h
    dsimp only at h ⊢
    by_cases hc : 0 < i ∧ isAsciiAlpha (t.headD ' ') = true ∧ (t.take i).all isSchemeChar = true
    · rw [if_pos hc] at h
      exfalso
      simp only [asciiLower] at h
      rw [List.map_eq_nil] at h
      have hlen := congrArg List.length h
      rw [List.length_take] at hlen
      simp only [List.length_nil] at hlen
      have h0 : 0 < i := hc.1
      rcases firstIdx_some_decomp hfi with ⟨a, c, b, hs, hl, _, _⟩
      have hle : i ≤ t.length := by
        rw [hs, ← hl]
        simp
      omega
    · rw [if_neg hc]

theorem schemeSplit_cases (t : Str) :
    ((schemeSplit t).1 = [] ∧ (schemeSplit t).2 = t)
    ∨ (∃ a b, t = a ++ ':' :: b ∧ (schemeSplit t).1 = asciiLower a
        ∧ (schemeSplit t).2 = b ∧ a ≠ [] ∧ isAsciiAlpha (a.headD ' ') = true
        ∧ (∀ x ∈ a, isSchemeChar x = true)) := by
  rcases hfi : firstIdx (fun c => c = ':') t with _ | i
  · left
    constructor <;> (unfold schemeSplit; rw [hfi])
  · by_cases hc : 0 < i ∧ isAsciiAlpha (t.headD ' ') = true ∧ (t.take i).all isSchemeChar = true
    · right
      rcases firstIdx_some_decomp hfi with ⟨a, c, b, hs, hl, ha, hcc⟩
      have hcolon : c = ':' := by simpa using hcc
      subst hcolon
      have htake : t.take i = a := by rw [hs, ← hl, take_append_cons]
      have hdrop : t.drop (i + 1) = b := by rw [hs, ← hl, drop_append_cons]
      have heq : schemeSplit t = (asciiLower (t.take i), t.drop (i + 1)) := by
        unfold schemeSplit
        rw [hfi]
        dsimp only
        rw [if_pos hc]
      have hne : a ≠ [] := by
        intro hnil
        rw [hnil] at hl
        simp at hl
        omega
      refine ⟨a, b, hs, ?_, ?_, hne, ?_, ?_⟩
      · rw [heq, htake]
      · rw [heq]
        exact hdrop
      · have hhead : t.headD ' ' = a.headD ' ' := by
          rcases a with _ | ⟨x, a2⟩
          · exact absurd rfl hne
          · rw [hs]; rfl
        rw [← hhead]
        exact hc.2.1
      · intro x hx
        have := List.all_eq_true.1 hc.2.2
        rw [htake] at this
        exact this x hx
    · left
      constructor <;> (unfold schemeSplit; rw [hfi]; dsimp only; rw [if_neg hc])

theorem mem_schemeSplit_snd {t : Str} {c : Char} (h : c ∈ (schemeSplit t).2) : c ∈ t := by
  rcases schemeSplit_cases t with ⟨_, h2⟩ | ⟨a, b, hs, _, h2, _, _, _⟩
  · rw [h2] at h; exact h
  · rw [h2] at h
    rw [hs]
    exact List.mem_append.2 (Or.inr (List.mem_cons_of_mem ':' h))

/-- Facts produced by a successful `urlsplitM` parse, used to re-parse the
unparse of the normalized components. -/
theorem urlsplitM_spec {u : Str} {p : UrlParts} (h : urlsplitM u = some p) :
    (p.scheme = [] ∨ (p.scheme ≠ [] ∧ isAsciiAlpha (p.scheme.headD ' ') = true
        ∧ (∀ x ∈ p.scheme, isSchemeChar x = true) ∧ asciiLower p.scheme = p.scheme))
    ∧ (∀ c ∈ p.netloc, isNetlocEnd c = false)
    ∧ (p.netloc.any (fun c => c = '[' || c = ']')) = false
    ∧ (∀ c ∈ p.netloc, c ∈ cleanUrl u)
    ∧ ('#' ∉ p.path) ∧ ('?' ∉ p.path)
    ∧ (∀ c ∈ p.path, c ∈ cleanUrl u)
    ∧ ('#' ∉ p.query) ∧ (∀ c ∈ p.query, c ∈ cleanUrl u)
    ∧ (p.netloc ≠ [] → (p.path = [] ∨ p.path.headD ' ' = '/'))
    ∧ (p.scheme = [] → p.netloc = [] →
        ((∃ r, cleanUrl u = p.path ++ r ∧ (schemeSplit (cleanUrl u)).1 = [])
          ∨ (p.path = [] ∨ p.path.headD ' ' = '/')))
    ∧ p.params = [] := by
  unfold urlsplitM at h
  set url1 := cleanUrl u with hurl1
  set sr := schemeSplit url1 with hsr
  set netlocRest :=
    (if (['/', '/'] : Str).isPrefixOf sr.2 then
      ((sr.2.drop 2).takeWhile (fun c => !isNetlocEnd c),
       (sr.2.drop 2).dropWhile (fun c => !isNetlocEnd c))
    else (([] : Str), sr.2)) with hnr
  by_cases hguard : netlocRest.1.any (fun c => c = '[' || c = ']')
  · rw [if_pos hguard] at h
    simp at h
  · rw [if_neg hguard] at h
    set restFrag :=
      (match firstIdx (fun c => c = '#') netlocRest.2 with
       | some i => (netlocRest.2.take i, netlocRest.2.drop (i + 1))
       | none => (netlocRest.2, ([] : Str))) with hrf
    set pathQuery :=
      (match firstIdx (fun c => c = '?') restFrag.1 with
       | some i => (restFrag.1.take i, restFrag.1.drop (i + 1))
       | none => (restFrag.1, ([] : Str))) with hpq
    have hp : p = ⟨sr.1, netlocRest.1, pathQuery.1, [], pathQuery.2, restFrag.2⟩ := by
      have := Option.some_inj.1 h
      rw [← this]
    -- structural facts
    have hsub_rest : ∀ c ∈ sr.2, c ∈ url1 := fun c hc => mem_schemeSplit_snd hc
    have hsub_netloc : ∀ c ∈ netlocRest.1, c ∈ url1 := by
      intro c hc
      rw [hnr] at hc
      by_cases hpre : (['/', '/'] : Str).isPrefixOf sr.2
      · rw [if_pos hpre] at hc
        exact hsub_rest c ((List.drop_sublist 2 _).subset ((List.takeWhile_sublist _).subset hc))
      · rw [if_neg hpre] at hc
        simp at hc
    have hnetloc_end : ∀ c ∈ netlocRest.1, isNetlocEnd c = false := by
      intro c hc
      rw [hnr] at hc
      by_cases hpre : (['/', '/'] : Str).isPrefixOf sr.2
      · rw [if_pos hpre] at hc
        have := List.mem_takeWhile_imp hc
        simpa using this
      · rw [if_neg hpre] at hc
        simp at hc
    have hsub_rest2 : ∀ c ∈ netlocRest.2, c ∈ url1 := by
      intro c hc
      rw [hnr] at hc
      by_cases hpre : (['/', '/'] : Str).isPrefixOf sr.2
      · rw [if_pos hpre] at hc
        exact hsub_rest c ((List.drop_sublist 2 _).subset ((List.dropWhile_sublist _).subset hc))
      · rw [if_neg hpre] at hc
        exact hsub_rest c hc
    have hrf1_pre : restFrag.1 <+: netlocRest.2 := by
      rw [hrf]
      rcases firstIdx (fun c => c = '#') netlocRest.2 with _ | i
      · exact List.prefix_refl _
      · exact List.take_prefix i _
    have hrf1_noH : ('#' : Char) ∉ restFrag.1 := by
      rw [hrf]
      rcases hfi : firstIdx (fun c => c = '#') netlocRest.2 with _ | i
      · dsimp only
        intro hc
        have := firstIdx_eq_none_iff.1 hfi '#' hc
        simp at this
      · dsimp only
        intro hc
        rcases firstIdx_some_decomp hfi with ⟨a, c, b, hs, hl, ha, _⟩
        have htk : netlocRest.2.take i = a := by rw [hs, ← hl, take_append_cons]
        rw [htk] at hc
        have := ha '#' hc
        simp at this
    have hpq1_pre : pathQuery.1 <+: restFrag.1 := by
      rw [hpq]
      rcases firstIdx (fun c => c = '?') restFrag.1 with _ | i
      · exact List.prefix_refl _
      · exact List.take_prefix i _
    have hpath_noH : ('#' : Char) ∉ pathQuery.1 := fun hc => hrf1_noH (hpq1_pre.subset hc)
    have hpath_noQ : ('?' : Char) ∉ pathQuery.1 := by
      rw [hpq]
      rcases hfi : firstIdx (fun c => c = '?') restFrag.1 with _ | i
      · dsimp only
        intro hc
        have := firstIdx_eq_none_iff.1 hfi '?' hc
        simp at this
      · dsimp only
        intro hc
        rcases firstIdx_some_decomp hfi with ⟨a, c, b, hs, hl, ha, _⟩
        have htk : restFrag.1.take i = a := by rw [hs, ← hl, take_append_cons]
        rw [htk] at hc
        have := ha '?' hc
        simp at this
    have hquery_noH : ('#' : Char) ∉ pathQuery.2 := by
      rw [hpq]
      rcases firstIdx (fun c => c = '?') restFrag.1 with _ | i
      · simp
      · dsimp only
        intro hc
        exact hrf1_noH ((List.drop_sublist _ _).subset hc)
    have hpath_pre2 : pathQuery.1 <+: netlocRest.2 := hpq1_pre.trans hrf1_pre
    have hsub_path : ∀ c ∈ pathQuery.1, c ∈ url1 := fun c hc =>
      hsub_rest2 c (hpath_pre2.subset hc)
    have hsub_query : ∀ c ∈ pathQuery.2, c ∈ url1 := by
      intro c hc
      rw [hpq] at hc
      rcases hfi : firstIdx (fun c => c = '?') restFrag.1 with _ | i
      · rw [hfi] at hc
        simp at hc
      · rw [hfi] at hc
        dsimp only at hc
        exact hsub_rest2 c (hrf1_pre.subset ((List.drop_sublist _ _).subset hc))
    -- head of the path when the netloc branch ran
    have hbranch_head : (['/', '/'] : Str).isPrefixOf sr.2 = true →
        pathQuery.1 = [] ∨ pathQuery.1.headD ' ' = '/' := by
      intro hpre
      rcases hpq1 : pathQuery.1 with _ | ⟨x, prest⟩
      · exact Or.inl rfl
      · right
        have hxr2 : netlocRest.2 ≠ [] ∧ netlocRest.2.headD ' ' = x := by
          have := hpath_pre2
          rw [hpq1] at this
          rcases this with ⟨tl, htl⟩
          constructor
          · intro hnil
            rw [hnil] at htl
            simp at htl
          · rw [← htl]
            rfl
        have hr2 : netlocRest.2 = [] ∨ isNetlocEnd (netlocRest.2.headD ' ') = true := by
          rw [hnr]
          rw [if_pos hpre]
          rcases hdw : (sr.2.drop 2).dropWhile (fun c => !isNetlocEnd c) with _ | ⟨y, yrest⟩
          · exact Or.inl rfl
          · right
            have := dropWhile_head_false _ _ hdw
            simpa using this
        rcases hr2 with hr2 | hr2
        · exact absurd hr2 hxr2.1
        · rw [hxr2.2] at hr2
          unfold isNetlocEnd at hr2
          simp only [Bool.or_eq_true, decide_eq_true_eq] at hr2
          rcases hr2 with (hx | hx) | hx
        -- '#' and '?' heads are impossible: they are excluded from the path
          · simpa using hx
          · exfalso
            apply hpath_noQ
            rw [hpq1, ← hx]
            exact List.mem_cons_self x prest
          · exfalso
            apply hpath_noH
            rw [hpq1, ← hx]
            exact List.mem_cons_self x prest
    have hps : p.scheme = sr.1 := by rw [hp]
    have hpn : p.netloc = netlocRest.1 := by rw [hp]
    have hpp : p.path = pathQuery.1 := by rw [hp]
    have hpq2 : p.query = pathQuery.2 := by rw [hp]
    have hppar : p.params = [] := by rw [hp]
    have hnb : netlocRest.1.any (fun c => c = '[' || c = ']') = false := by
      rw [Bool.eq_false_iff]
      exact hguard
    rw [hps, hpn, hpp, hpq2]
    refine ⟨?_, hnetloc_end, hnb, hsub_netloc, hpath_noH, hpath_noQ, hsub_path, hquery_noH,
      hsub_query, ?_, ?_, hppar⟩
    · -- scheme facts
      rw [hsr]
      rcases schemeSplit_cases url1 with ⟨h1, _⟩ | ⟨a, b, _, h1, _, hne, halpha, hall⟩
      · left
        exact h1
      · right
        rw [h1]
        have hhead2 : (asciiLower a).headD ' ' = asciiLowerChar (a.headD ' ') := by
          rcases a with _ | ⟨x, a2⟩
          · exact absurd rfl hne
          · rfl
        refine ⟨?_, ?_, ?_, asciiLower_idem a⟩
        · simp only [asciiLower, ne_eq, List.map_eq_nil]
          exact hne
        · rw [hhead2]
          exact isAsciiAlpha_asciiLowerChar halpha
        · intro y hy
          rcases List.mem_map.1 hy with ⟨z, hz, rfl⟩
          exact isSchemeChar_asciiLowerChar (hall z hz)
    · -- netloc nonempty → path shape ; netloc nonempty implies the branch ran
      intro hnl
      apply hbranch_head
      by_contra hpre
      rw [hnr] at hnl
      rw [if_neg hpre] at hnl
      exact hnl rfl
    · -- scheme empty and netloc empty
      intro hsch hnl
      by_cases hpre : (['/', '/'] : Str).isPrefixOf sr.2
      · exact Or.inr (hbranch_head hpre)
      · left
        have hr2 : netlocRest.2 = sr.2 := by
          rw [hnr, if_neg hpre]
        have hsch2 : (schemeSplit url1).1 = [] := by
          rw [← hsr]
          exact hsch
        have hsnd : sr.2 = url1 := by
          rw [hsr]
          exact schemeSplit_fst_nil_snd hsch2
        rcases hpath_pre2 with ⟨r, hr⟩
        refine ⟨r, ?_, hsch2⟩
        rw [← hsnd, ← hr2, hr]

/-! ### Re-parsing an unparsed URL -/

theorem schemeSplit_not_alpha {t : Str} (h : isAsciiAlpha (t.headD ' ') = false) :
    schemeSplit t = ([], t) := by
  unfold schemeSplit
  rcases hfi : firstIdx (fun c => c = ':') t with _ | i
  · rfl
  · dsimp only
    rw [if_neg]
    intro hc
    rw [hc.2.1] at h
    simp at h

theorem schemeSplit_no_decomp {t : Str}
    (h : ∀ a b : Str, t = a ++ ':' :: b →
      a = [] ∨ isAsciiAlpha (a.headD ' ') = false ∨ ∃ x ∈ a, isSchemeChar x = false) :
    schemeSplit t = ([], t) := by
  unfold schemeSplit
  rcases hfi : firstIdx (fun c => c = ':') t with _ | i
  · rfl
  · dsimp only
    rcases firstIdx_some_decomp hfi with ⟨a, c, b, hs, hl, ha, hc⟩
    have hcolon : c = ':' := by simpa using hc
    subst hcolon
    have htake : t.take i = a := by rw [hs, ← hl, take_append_cons]
    have hhead : a ≠ [] → t.headD ' ' = a.headD ' ' := by
      intro hne
      rcases a with _ | ⟨x, a2⟩
      · exact absurd rfl hne
      · rw [hs]
        rfl
    rw [if_neg]
    intro hcond
    rcases h a b hs with hbad | hbad | ⟨x, hx, hbad⟩
    · rw [hbad] at hl
      simp at hl
      omega
    · have hne : a ≠ [] := by
        intro hnil
        rw [hnil] at hl
        simp at hl
        omega
      rw [hhead hne] at hcond
      rw [hcond.2.1] at hbad
      simp at hbad
    · have := List.all_eq_true.1 hcond.2.2 x (by rw [htake]; exact hx)
      rw [hbad] at this
      simp at this

theorem takeWhile_append_of_all {p : Char → Bool} {n X : Str}
    (hn : ∀ c ∈ n, p c = true)
    (hX : ∀ x, X.head? = some x → p x = false) :
    (n ++ X).takeWhile p = n ∧ (n ++ X).dropWhile p = X := by
  induction n with
  | nil =>
    rcases X with _ | ⟨x, xrest⟩
    · simp
    · have hx : p x = false := hX x rfl
      simp [List.takeWhile_cons, List.dropWhile_cons, hx]
  | cons a n2 ih =>
    have hpa : p a = true := hn a (List.mem_cons_self a n2)
    have ih2 := ih (fun c hc => hn c (List.mem_cons_of_mem a hc))
    constructor
    · rw [List.cons_append, List.takeWhile_cons, if_pos hpa, ih2.1]
    · rw [List.cons_append, List.dropWhile_cons, if_pos hpa, ih2.2]

theorem prefix2_iff (l : Str) :
    (['/', '/'] : Str).isPrefixOf l = true ↔ ∃ r, l = '/' :: '/' :: r := by
  rcases l with _ | ⟨a, _ | ⟨b, rest⟩⟩
  · simp [List.isPrefixOf]
  · simp [List.isPrefixOf]
  · simp only [List.isPrefixOf, Bool.and_eq_true, beq_iff_eq]
    constructor
    · rintro ⟨rfl, rfl, _⟩
      exact ⟨rest, rfl⟩
    · rintro ⟨r, h⟩
      injection h with h1 h2
      injection h2 with h2 h3
      subst h1
      subst h2
      simp [List.isPrefixOf]

theorem no_slash2_prefix {pth q : Str}
    (hpre : (['/', '/'] : Str).isPrefixOf pth = false) :
    (['/', '/'] : Str).isPrefixOf
      (pth ++ (if q = [] then ([] : Str) else '?' :: q)) = false := by
  rw [Bool.eq_false_iff]
  intro hp
  rcases (prefix2_iff _).1 hp with ⟨r, hr⟩
  rcases pth with _ | ⟨c1, _ | ⟨c2, p2⟩⟩
  · rw [List.nil_append] at hr
    by_cases hq : q = []
    · rw [if_pos hq] at hr
      exact List.noConfusion hr
    · rw [if_neg hq] at hr
      injection hr with h1 _
      exact absurd h1 (by decide)
  · rw [List.cons_append, List.nil_append] at hr
    injection hr with h1 h2
    by_cases hq : q = []
    · rw [if_pos hq] at h2
      exact List.noConfusion h2
    · rw [if_neg hq] at h2
      injection h2 with h21 _
      exact absurd h21 (by decide)
  · rw [List.cons_append, List.cons_append] at hr
    injection hr with h1 h2
    injection h2 with h2 _
    subst h1
    subst h2
    rw [Bool.eq_false_iff] at hpre
    exact hpre ((prefix2_iff _).2 ⟨p2 ++ [], by simp⟩)

/-- One pass of `urlsplitM` when the outcome of the scheme and netloc stages is
known and the remainder is a hash-free path followed by an optional query. -/
theorem urlsplitM_steps {u sch rest n2 pth q qp : Str}
    (hqp : qp = if q = [] then ([] : Str) else '?' :: q)
    (hclean : cleanUrl u = u)
    (hss : schemeSplit u = (sch, rest))
    (hnet : (if (['/', '/'] : Str).isPrefixOf rest then
              ((rest.drop 2).takeWhile (fun c => !isNetlocEnd c),
               (rest.drop 2).dropWhile (fun c => !isNetlocEnd c))
             else (([] : Str), rest)) = (n2, pth ++ qp))
    (hnb : (n2.any (fun c => c = '[' || c = ']')) = false)
    (hpH : ('#' : Char) ∉ pth) (hpQ : ('?' : Char) ∉ pth) (hqH : ('#' : Char) ∉ q) :
    urlsplitM u = some ⟨sch, n2, pth, [], q, []⟩ := by
  subst hqp
  have hfragNone : firstIdx (fun c => c = '#')
      (pth ++ (if q = [] then ([] : Str) else '?' :: q)) = none := by
    rw [firstIdx_eq_none_iff]
    intro c hc
    rcases List.mem_append.1 hc with hc | hc
    · exact decide_eq_false (fun h => hpH (h ▸ hc))
    · by_cases hq : q = []
      · rw [if_pos hq] at hc
        simp at hc
      · rw [if_neg hq] at hc
        rcases List.mem_cons.1 hc with rfl | hc2
        · decide
        · exact decide_eq_false (fun h => hqH (h ▸ hc2))
  simp only [urlsplitM]
  rw [hclean, hss]
  dsimp only
  rw [hnet]
  dsimp only
  rw [if_neg (by simp [hnb])]
  rw [hfragNone]
  dsimp only
  by_cases hq : q = []
  · subst hq
    rw [if_pos rfl, List.append_nil]
    have hpqNone : firstIdx (fun c => c = '?') pth = none := by
      rw [firstIdx_eq_none_iff]
      intro c hc
      exact decide_eq_false (fun h => hpQ (h ▸ hc))
    rw [hpqNone]
  · rw [if_neg hq]
    have hfound : firstIdx (fun c => c = '?') (pth ++ '?' :: q) = some pth.length :=
      firstIdx_append_found (fun x hx => decide_eq_false (fun h => hpQ (h ▸ hx))) (by decide)
    rw [hfound]
    dsimp only
    rw [take_append_cons, drop_append_cons]

/-- Parsing the string that `urlunsplitM` assembles from the components of a
successful parse recovers those components (the scheme comes back through the
parser lower-cased). -/
theorem urlsplit_unsplit_roundtrip {s n pth q qp : Str}
    (hqp : qp = if q = [] then ([] : Str) else '?' :: q)
    (hs : s = [] ∨ (s ≠ [] ∧ isAsciiAlpha (s.headD ' ') = true
        ∧ (∀ x ∈ s, isSchemeChar x = true)))
    (hn : ∀ c ∈ n, isNetlocEnd c = false)
    (hnb : (n.any (fun c => c = '[' || c = ']')) = false)
    (hpH : ('#' : Char) ∉ pth) (hpQ : ('?' : Char) ∉ pth) (hqH : ('#' : Char) ∉ q)
    (hshape : n ≠ [] → pth = [] ∨ pth.headD ' ' = '/')
    (hclean : cleanUrl (urlunsplitM s n pth q []) = urlunsplitM s n pth q [])
    (hsc : s = [] → n = [] → (['/', '/'] : Str).isPrefixOf pth = false →
      ∀ a b : Str, pth ++ qp = a ++ ':' :: b →
        a = [] ∨ isAsciiAlpha (a.headD ' ') = false ∨ ∃ x ∈ a, isSchemeChar x = false) :
    urlsplitM (urlunsplitM s n pth q []) = some ⟨asciiLower s, n, pth, [], q, []⟩ := by
  have hl3 : ∀ u2 : Str, (if q ≠ [] then u2 ++ ['?'] ++ q else u2) = u2 ++ qp := by
    intro u2
    by_cases hqe : q = []
    · rw [if_neg (not_not_intro hqe), hqp, if_pos hqe, List.append_nil]
    · rw [if_pos hqe, hqp, if_neg hqe]
      simp
  by_cases hbr : n ≠ [] ∨ (pth ≠ [] ∧ (['/', '/'] : Str).isPrefixOf pth)
  · -- the authority branch of urlunsplit runs and the path keeps its slash
    have hinner : ¬(pth ≠ [] ∧ pth.headD ' ' ≠ '/') := by
      rintro ⟨hpne, hph⟩
      rcases hbr with hnne | ⟨_, hpre⟩
      · rcases hshape hnne with h | h
        · exact hpne h
        · exact hph h
      · rcases (prefix2_iff pth).1 hpre with ⟨r, hr⟩
        rw [hr] at hph
        exact hph rfl
    have hpthhead : pth = [] ∨ pth.headD ' ' = '/' := by
      by_cases hpe : pth = []
      · exact Or.inl hpe
      · right
        by_contra hph
        exact hinner ⟨hpe, hph⟩
    have hv : urlunsplitM s n pth q [] =
        (if s = [] then ([] : Str) else s ++ [':']) ++ ('/' :: '/' :: (n ++ (pth ++ qp))) := by
      simp only [urlunsplitM]
      rw [if_neg (fun h => h rfl), hl3, if_pos hbr, if_neg hinner]
      by_cases hse : s = []
      · rw [if_neg (not_not_intro hse), if_pos hse, List.nil_append]
        simp
      · rw [if_pos hse, if_neg hse]
        simp
    have h2 : ∀ x, (pth ++ qp).head? = some x → (!isNetlocEnd x) = false := by
      intro x hx
      rcases hpthhead with hpe | hph
      · rw [hpe, List.nil_append, hqp] at hx
        by_cases hqe : q = []
        · rw [if_pos hqe] at hx
          simp at hx
        · rw [if_neg hqe, List.head?_cons] at hx
          injection hx with hx
          rw [← hx]
          decide
      · rcases hpth : pth with _ | ⟨c, prest⟩
        · rw [hpth] at hph
          exact absurd hph (by decide)
        · rw [hpth] at hph
          have hc : c = '/' := hph
          rw [hpth, hc, List.cons_append, List.head?_cons] at hx
          injection hx with hx
          rw [← hx]
          decide
    have h1 : ∀ c ∈ n, (!isNetlocEnd c) = true := by
      intro c hc
      rw [hn c hc]
      rfl
    have htd := @takeWhile_append_of_all (fun c => !isNetlocEnd c) n (pth ++ qp) h1 h2
    have hdrop : ('/' :: '/' :: (n ++ (pth ++ qp))).drop 2 = n ++ (pth ++ qp) := rfl
    have hnet : (if (['/', '/'] : Str).isPrefixOf ('/' :: '/' :: (n ++ (pth ++ qp))) then
          ((('/' :: '/' :: (n ++ (pth ++ qp))).drop 2).takeWhile (fun c => !isNetlocEnd c),
           (('/' :: '/' :: (n ++ (pth ++ qp))).drop 2).dropWhile (fun c => !isNetlocEnd c))
        else (([] : Str), '/' :: '/' :: (n ++ (pth ++ qp)))) = (n, pth ++ qp) := by
      rw [if_pos ((prefix2_iff _).2 ⟨_, rfl⟩)]
      rw [hdrop, htd.1, htd.2]
    rcases hs with hs0 | ⟨hsne, hsalpha, hsall⟩
    · subst hs0
      have hss : schemeSplit (urlunsplitM [] n pth q []) =
          (asciiLower [], '/' :: '/' :: (n ++ (pth ++ qp))) := by
        rw [hv, if_pos rfl, List.nil_append]
        have halpha2 : isAsciiAlpha (('/' :: '/' :: (n ++ (pth ++ qp))).headD ' ') = false := by
          show isAsciiAlpha '/' = false
          decide
        exact schemeSplit_not_alpha halpha2
      exact urlsplitM_steps hqp hclean hss hnet hnb hpH hpQ hqH
    · have hss : schemeSplit (urlunsplitM s n pth q []) =
          (asciiLower s, '/' :: '/' :: (n ++ (pth ++ qp))) := by
        rw [hv, if_neg hsne]
        exact schemeSplit_found (by simp) hsne hsalpha hsall
      exact urlsplitM_steps hqp hclean hss hnet hnb hpH hpQ hqH
  · -- no authority: the path is emitted verbatim
    push_neg at hbr
    rcases hbr with ⟨hne, hpp⟩
    have hpref : (['/', '/'] : Str).isPrefixOf pth = false := by
      by_cases hpe : pth = []
      · rw [hpe]
        decide
      · rw [Bool.eq_false_iff]
        exact hpp hpe
    have hcond : ¬(n ≠ [] ∨ (pth ≠ [] ∧ (['/', '/'] : Str).isPrefixOf pth)) := by
      rintro (h | ⟨hpe, hpre⟩)
      · exact h hne
      · rw [hpref] at hpre
        exact Bool.false_ne_true hpre
    have hv : urlunsplitM s n pth q [] =
        (if s = [] then ([] : Str) else s ++ [':']) ++ (pth ++ qp) := by
      simp only [urlunsplitM]
      rw [if_neg (fun h => h rfl), hl3, if_neg hcond]
      by_cases hse : s = []
      · rw [if_neg (not_not_intro hse), if_pos hse, List.nil_append]
      · rw [if_pos hse, if_neg hse]
        simp
    have hnp : (['/', '/'] : Str).isPrefixOf (pth ++ qp) = false := by
      rw [hqp]
      exact no_slash2_prefix hpref
    have hnet : (if (['/', '/'] : Str).isPrefixOf (pth ++ qp) then
          (((pth ++ qp).drop 2).takeWhile (fun c => !isNetlocEnd c),
           ((pth ++ qp).drop 2).dropWhile (fun c => !isNetlocEnd c))
        else (([] : Str), pth ++ qp)) = (n, pth ++ qp) := by
      rw [if_neg (by rw [hnp]; exact Bool.false_ne_true), hne]
    rcases hs with hs0 | ⟨hsne, hsalpha, hsall⟩
    · subst hs0
      have hss : schemeSplit (urlunsplitM [] n pth q []) = (asciiLower [], pth ++ qp) := by
        rw [hv, if_pos rfl, List.nil_append]
        exact schemeSplit_no_decomp (hsc rfl hne hpref)
      exact urlsplitM_steps hqp hclean hss hnet hnb hpH hpQ hqH
    · have hss : schemeSplit (urlunsplitM s n pth q []) = (asciiLower s, pth ++ qp) := by
        rw [hv, if_neg hsne]
        exact schemeSplit_found (by simp) hsne hsalpha hsall
      exact urlsplitM_steps hqp hclean hss hnet hnb hpH hpQ hqH

/-! ### Transporting character classes through `asciiLowerChar` -/

theorem pred_asciiLowerChar (P : Char → Bool)
    (hP : ∀ x, P x = true → ¬(97 ≤ x.toNat ∧ x.toNat ≤ 122) ∧ ¬(65 ≤ x.toNat ∧ x.toNat ≤ 90))
    (d : Char) : P (asciiLowerChar d) = P d := by
  by_cases h : 'A' ≤ d ∧ d ≤ 'Z'
  · have hd1 : 65 ≤ d.toNat := char_le_iff_toNat.1 h.1
    have hd2 : d.toNat ≤ 90 := char_le_iff_toNat.1 h.2
    have hl : (asciiLowerChar d).toNat = d.toNat + 32 := by
      rw [asciiLowerChar_toNat, if_pos ⟨hd1, hd2⟩]
    have h1 : P (asciiLowerChar d) = false := by
      by_cases hp : P (asciiLowerChar d) = true
      · exact absurd ⟨by rw [hl]; omega, by rw [hl]; omega⟩ (hP _ hp).1
      · exact Bool.eq_false_iff.2 hp
    have h2 : P d = false := by
      by_cases hp : P d = true
      · exact absurd ⟨hd1, hd2⟩ (hP _ hp).2
      · exact Bool.eq_false_iff.2 hp
    rw [h1, h2]
  · unfold asciiLowerChar
    rw [if_neg h]

theorem isNetlocEnd_asciiLowerChar (d : Char) :
    isNetlocEnd (asciiLowerChar d) = isNetlocEnd d := by
  apply pred_asciiLowerChar
  intro x hx
  unfold isNetlocEnd at hx
  simp only [Bool.or_eq_true, decide_eq_true_eq] at hx
  rcases hx with (rfl | rfl) | rfl <;> exact ⟨by decide, by decide⟩

theorem unsafe_asciiLowerChar (d : Char) :
    isUnsafeUrlByte (asciiLowerChar d) = isUnsafeUrlByte d := by
  apply pred_asciiLowerChar
  intro x hx
  unfold isUnsafeUrlByte at hx
  simp only [Bool.or_eq_true, decide_eq_true_eq] at hx
  rcases hx with (rfl | rfl) | rfl <;> exact ⟨by decide, by decide⟩

theorem any_bracket_asciiLower {s : Str}
    (h : (s.any (fun c => c = '[' || c = ']')) = false) :
    ((asciiLower s).any (fun c => c = '[' || c = ']')) = false := by
  rw [Bool.eq_false_iff]
  intro hany
  rcases List.any_eq_true.1 hany with ⟨c, hc, hcb⟩
  have hcb2 : c = '[' ∨ c = ']' := by simpa using hcb
  have hnl : ¬(97 ≤ c.toNat ∧ c.toNat ≤ 122) := by
    rcases hcb2 with rfl | rfl <;> decide
  have hc2 : c ∈ s := mem_asciiLower_symbol hnl hc
  rw [Bool.eq_false_iff] at h
  exact h (List.any_eq_true.2 ⟨c, hc2, hcb⟩)

theorem mem_pyRstripChar {c ch : Char} {s : Str} (h : c ∈ pyRstripChar ch s) : c ∈ s := by
  rcases pyRstripChar_decomp ch s with ⟨k, hk⟩
  rw [hk]
  exact List.mem_append.2 (Or.inl h)

theorem headD_append {s : Str} (t : Str) (d : Char) (h : s ≠ []) :
    (s ++ t).headD d = s.headD d := by
  rcases s with _ | ⟨a, s2⟩
  · exact absurd rfl h
  · rfl

theorem alpha_not_c0 {c : Char} (h : isAsciiAlpha c = true) : isC0OrSpace c = false := by
  rw [isAsciiAlpha_iff] at h
  unfold isC0OrSpace
  simp only [decide_eq_false_iff_not, not_le]
  omega

/-- Every character of an unparsed URL with empty fragment is drawn from a
component or is one of the three joining punctuation characters. -/
theorem mem_urlunsplitM {c : Char} {s n pth q : Str}
    (h : c ∈ urlunsplitM s n pth q []) :
    c ∈ s ∨ c ∈ n ∨ c ∈ pth ∨ c ∈ q ∨ c = ':' ∨ c = '/' ∨ c = '?' := by
  simp only [urlunsplitM] at h
  rw [if_neg (fun hf : ([] : Str) ≠ [] => hf rfl)] at h
  have hin : ∀ x ∈ (if pth ≠ [] ∧ pth.headD ' ' ≠ '/' then '/' :: pth else pth),
      x ∈ pth ∨ x = '/' := by
    intro x hx
    by_cases hc : pth ≠ [] ∧ pth.headD ' ' ≠ '/'
    · rw [if_pos hc] at hx
      rcases List.mem_cons.1 hx with rfl | hx2
      · exact Or.inr rfl
      · exact Or.inl hx2
    · rw [if_neg hc] at hx
      exact Or.inl hx
  have hu1 : ∀ x ∈ (if n ≠ [] ∨ (pth ≠ [] ∧ (['/', '/'] : Str).isPrefixOf pth) then
        ['/', '/'] ++ n ++ (if pth ≠ [] ∧ pth.headD ' ' ≠ '/' then '/' :: pth else pth)
      else pth), x ∈ n ∨ x ∈ pth ∨ x = '/' := by
    intro x hx
    by_cases hc : n ≠ [] ∨ (pth ≠ [] ∧ (['/', '/'] : Str).isPrefixOf pth)
    · rw [if_pos hc] at hx
      rcases List.mem_append.1 hx with hx | hx
      · rcases List.mem_append.1 hx with hx | hx
        · rcases List.mem_cons.1 hx with rfl | hx2
          · exact Or.inr (Or.inr rfl)
          · rcases List.mem_cons.1 hx2 with rfl | hx3
            · exact Or.inr (Or.inr rfl)
            · exact absurd hx3 (List.not_mem_nil x)
        · exact Or.inl hx
      · rcases hin x hx with hx | hx
        · exact Or.inr (Or.inl hx)
        · exact Or.inr (Or.inr hx)
    · rw [if_neg hc] at hx
      exact Or.inr (Or.inl hx)
  have hu2 : ∀ x ∈ (if s ≠ [] then
        s ++ [':'] ++ (if n ≠ [] ∨ (pth ≠ [] ∧ (['/', '/'] : Str).isPrefixOf pth) then
          ['/', '/'] ++ n ++ (if pth ≠ [] ∧ pth.headD ' ' ≠ '/' then '/' :: pth else pth)
        else pth)
      else (if n ≠ [] ∨ (pth ≠ [] ∧ (['/', '/'] : Str).isPrefixOf pth) then
          ['/', '/'] ++ n ++ (if pth ≠ [] ∧ pth.headD ' ' ≠ '/' then '/' :: pth else pth)
        else pth)),
      x ∈ s ∨ x ∈ n ∨ x ∈ pth ∨ x = ':' ∨ x = '/' := by
    intro x hx
    by_cases hc : s ≠ []
    · rw [if_pos hc] at hx
      rcases List.mem_append.1 hx with hx | hx
      · rcases List.mem_append.1 hx with hx | hx
        · exact Or.inl hx
        · rcases List.mem_cons.1 hx with rfl | hx2
          · exact Or.inr (Or.inr (Or.inr (Or.inl rfl)))
          · exact absurd hx2 (List.not_mem_nil x)
      · rcases hu1 x hx with hx | hx | hx
        · exact Or.inr (Or.inl hx)
        · exact Or.inr (Or.inr (Or.inl hx))
        · exact Or.inr (Or.inr (Or.inr (Or.inr hx)))
    · rw [if_neg hc] at hx
      rcases hu1 x hx with hx | hx | hx
      · exact Or.inr (Or.inl hx)
      · exact Or.inr (Or.inr (Or.inl hx))
      · exact Or.inr (Or.inr (Or.inr (Or.inr hx)))
  by_cases hqc : q ≠ []
  · rw [if_pos hqc] at h
    rcases List.mem_append.1 h with h | h
    · rcases List.mem_append.1 h with h | h
      · rcases hu2 c h with h | h | h | h | h
        · exact Or.inl h
        · exact Or.inr (Or.inl h)
        · exact Or.inr (Or.inr (Or.inl h))
        · exact Or.inr (Or.inr (Or.inr (Or.inr (Or.inl h))))
        · exact Or.inr (Or.inr (Or.inr (Or.inr (Or.inr (Or.inl h)))))
      · rcases List.mem_cons.1 h with rfl | h2
        · exact Or.inr (Or.inr (Or.inr (Or.inr (Or.inr (Or.inr rfl)))))
        · exact absurd h2 (List.not_mem_nil c)
    · exact Or.inr (Or.inr (Or.inr (Or.inl h)))
  · rw [if_neg hqc] at h
    rcases hu2 c h with h | h | h | h | h
    · exact Or.inl h
    · exact Or.inr (Or.inl h)
    · exact Or.inr (Or.inr (Or.inl h))
    · exact Or.inr (Or.inr (Or.inr (Or.inr (Or.inl h))))
    · exact Or.inr (Or.inr (Or.inr (Or.inr (Or.inr (Or.inl h)))))

/-- The unparsed URL survives `cleanUrl` when its components have no unsafe
bytes and the leading character cannot be a C0 control or space. -/
theorem urlunsplitM_clean {s n pth q : Str}
    (hs : s = [] ∨ (s ≠ [] ∧ isAsciiAlpha (s.headD ' ') = true))
    (hpth : s = [] → pth = [] ∨ isC0OrSpace (pth.headD ' ') = false)
    (hmem : ∀ c, c ∈ s ∨ c ∈ n ∨ c ∈ pth ∨ c ∈ q → isUnsafeUrlByte c = false) :
    cleanUrl (urlunsplitM s n pth q []) = urlunsplitM s n pth q [] := by
  apply cleanUrl_eq_self
  · -- head analysis of the assembled string
    simp only [urlunsplitM]
    rw [if_neg (fun h : ([] : Str) ≠ [] => h rfl)]
    rcases hs with hs0 | ⟨hsne, hsalpha⟩
    · subst hs0
      rw [if_neg (fun h : ([] : Str) ≠ [] => h rfl)]
      by_cases hau : n ≠ [] ∨ (pth ≠ [] ∧ (['/', '/'] : Str).isPrefixOf pth)
      · rw [if_pos hau]
        right
        by_cases hq : q ≠ []
        · rw [if_pos hq]
          show isC0OrSpace '/' = false
          decide
        · rw [if_neg hq]
          show isC0OrSpace '/' = false
          decide
      · rw [if_neg hau]
        rcases hpth rfl with hp0 | hp1
        · subst hp0
          by_cases hq : q ≠ []
          · rw [if_pos hq]
            right
            show isC0OrSpace '?' = false
            decide
          · rw [if_neg hq]
            exact Or.inl rfl
        · have hpne : pth ≠ [] := by
            intro h0
            rw [h0] at hp1
            exact absurd hp1 (by decide)
          right
          by_cases hq : q ≠ []
          · rw [if_pos hq, headD_append _ _ (by simp [hpne]), headD_append _ _ hpne]
            exact hp1
          · rw [if_neg hq]
            exact hp1
    · rw [if_pos hsne]
      right
      have hcol : s ++ [':'] ≠ [] := by simp
      by_cases hq : q ≠ []
      · rw [if_pos hq, headD_append _ _ (by simp), headD_append _ _ (by simp),
          headD_append _ _ hcol, headD_append _ _ hsne]
        exact alpha_not_c0 hsalpha
      · rw [if_neg hq, headD_append _ _ hcol, headD_append _ _ hsne]
        exact alpha_not_c0 hsalpha
  · intro c hc
    rcases mem_urlunsplitM hc with h | h | h | h | rfl | rfl | rfl
    · exact hmem c (Or.inl h)
    · exact hmem c (Or.inr (Or.inl h))
    · exact hmem c (Or.inr (Or.inr (Or.inl h)))
    · exact hmem c (Or.inr (Or.inr (Or.inr h)))
    · decide
    · decide
    · decide

theorem schemeChar_not_unsafe {x : Char} (h : isSchemeChar x = true) :
    isUnsafeUrlByte x = false := by
  rw [isSchemeChar_iff] at h
  unfold isUnsafeUrlByte
  simp only [Bool.or_eq_false_iff, decide_eq_false_iff_not, char_eq_iff_toNat]
  have e1 : ('\t' : Char).toNat = 9 := by decide
  have e2 : ('\r' : Char).toNat = 13 := by decide
  have e3 : ('\n' : Char).toNat = 10 := by decide
  rw [e1, e2, e3]
  omega

/-- A string that is empty or does not start with a letter admits no
scheme-shaped decomposition. -/
theorem no_decomp_head {t : Str} (h : t = [] ∨ isAsciiAlpha (t.headD ' ') = false) :
    ∀ a b : Str, t = a ++ ':' :: b →
      a = [] ∨ isAsciiAlpha (a.headD ' ') = false ∨ ∃ x ∈ a, isSchemeChar x = false := by
  intro a b heq
  by_cases ha : a = []
  · exact Or.inl ha
  · right
    left
    rcases h with h | h
    · rw [h] at heq
      rcases List.append_eq_nil.1 heq.symm with ⟨_, h2⟩
      exact absurd h2 (fun hc => List.noConfusion hc)
    · rw [heq, headD_append _ _ ha] at h
      exact h

/-- When the parsed path is a prefix of the cleaned URL and `urlsplit` found
no scheme there, no scheme-shaped decomposition of `rstrip(path) ++ query`
exists either. -/
theorem no_decomp_of_path_prefix {u0 pth r p2 q : Str}
    (hcu : u0 = pth ++ r) (hfst : (schemeSplit u0).1 = [])
    (hp2 : ∃ k, pth = p2 ++ List.replicate k '/') :
    ∀ a b : Str, p2 ++ (if q = [] then ([] : Str) else '?' :: q) = a ++ ':' :: b →
      a = [] ∨ isAsciiAlpha (a.headD ' ') = false ∨ ∃ x ∈ a, isSchemeChar x = false := by
  intro a b heq
  by_cases ha : a = []
  · exact Or.inl ha
  by_cases halpha : isAsciiAlpha (a.headD ' ') = true
  case neg => exact Or.inr (Or.inl (Bool.eq_false_iff.2 halpha))
  by_cases hall : ∀ x ∈ a, isSchemeChar x = true
  case neg =>
    right
    right
    push_neg at hall
    rcases hall with ⟨x, hx, hnx⟩
    exact ⟨x, hx, Bool.eq_false_iff.2 hnx⟩
  exfalso
  rcases hp2 with ⟨k, hk⟩
  rcases List.append_eq_append_iff.1 heq with ⟨a2, haa, hqa⟩ | ⟨c2, hc2, hcq⟩
  · -- the colon would sit inside the query part
    by_cases hq : q = []
    · rw [if_pos hq] at hqa
      rcases List.append_eq_nil.1 hqa.symm with ⟨_, h2⟩
      exact List.noConfusion h2
    · rw [if_neg hq] at hqa
      rcases a2 with _ | ⟨y, a3⟩
      · rw [List.nil_append] at hqa
        injection hqa with h1 _
        exact absurd h1 (by decide)
      · rw [List.cons_append] at hqa
        injection hqa with h1 _
        have hy : y ∈ a := by
          rw [haa]
          exact List.mem_append.2 (Or.inr (List.mem_cons_self y a3))
        have := hall y hy
        rw [← h1] at this
        exact absurd this (by decide)
  · -- the colon would sit inside the stripped path, hence inside the URL
    rcases c2 with _ | ⟨z, c3⟩
    · rw [List.nil_append] at hcq
      by_cases hq : q = []
      · rw [if_pos hq] at hcq
        exact List.noConfusion hcq
      · rw [if_neg hq] at hcq
        injection hcq with h1 _
        exact absurd h1 (by decide)
    · injection hcq with h1 _
      have ht : u0 = a ++ ':' :: (c3 ++ (List.replicate k '/' ++ r)) := by
        rw [hcu, hk, hc2, ← h1]
        simp
      exact schemeSplit_fst_nil_no_decomp hfst ht ha halpha hall

theorem normalizeUrl_eq (url : Str) :
    normalizeUrl url = (urlparseM url).map (fun parsed =>
      urlunparseM (asciiLower parsed.scheme) (asciiLower parsed.netloc)
        (if parsed.path ≠ ['/'] then pyRstripChar '/' parsed.path else ['/'])
        parsed.params parsed.query []) := by
  unfold normalizeUrl
  rcases urlparseM url with _ | p <;> rfl

theorem urlparseM_no_semicolon {u : Str} {sp : UrlParts}
    (h : urlsplitM u = some sp) (hsemi : sp.path.contains ';' = false) :
    urlparseM u = some sp := by
  unfold urlparseM
  rw [h]
  show (if sp.path.contains ';' then
      some { sp with path := (splitParams sp.path).1, params := (splitParams sp.path).2 }
    else some sp) = some sp
  rw [if_neg (by rw [hsemi]; exact Bool.false_ne_true)]

/-- On a URL without semicolons a successful `normalizeUrl` output is a fixed
point of `normalizeUrl` (the params re-split of `_splitparams` cannot run). -/
theorem normalizeUrl_idem {u v : Str} (hsemi : (';' : Char) ∉ u)
    (h : normalizeUrl u = some v) : normalizeUrl v = some v := by
  rw [normalizeUrl_eq] at h
  rcases Option.map_eq_some.1 h with ⟨p, hpar, hv⟩
  have hex : ∃ sp, urlsplitM u = some sp := by
    rcases hsp0 : urlsplitM u with _ | sp
    · unfold urlparseM at hpar
      rw [hsp0] at hpar
      exact absurd hpar (by simp)
    · exact ⟨sp, rfl⟩
  rcases hex with ⟨sp, hsp0⟩
  obtain ⟨hsch, hnend, hnbr, hnsub, hpH0, hpQ0, hpsub, hqH0, hqsub, hnshape, hsempty, hparms⟩ :=
    urlsplitM_spec hsp0
  have hcf : sp.path.contains ';' = false := by
    rw [Bool.eq_false_iff]
    intro hc
    have hmem : (';' : Char) ∈ sp.path := by simpa using hc
    exact hsemi (mem_cleanUrl (hpsub ';' hmem))
  have hpeq : p = sp := by
    have h2 := urlparseM_no_semicolon hsp0 hcf
    rw [hpar] at h2
    exact Option.some_inj.1 h2
  subst hpeq
  rw [hparms] at hv
  have hunp : ∀ (sc nl pa qu : Str),
      urlunparseM sc nl pa [] qu [] = urlunsplitM sc nl pa qu [] := by
    intro sc nl pa qu
    unfold urlunparseM
    rw [if_neg (fun hh : ([] : Str) ≠ [] => hh rfl)]
  rw [hunp] at hv
  have hmemp : ∀ c, c ∈ (if p.path ≠ ['/'] then pyRstripChar '/' p.path else ['/']) →
      c ∈ p.path := by
    intro c hc
    by_cases hpp : p.path ≠ ['/']
    · rw [if_pos hpp] at hc
      exact mem_pyRstripChar hc
    · rw [if_neg hpp] at hc
      rw [not_not.1 hpp]
      exact hc
  have hsfacts : asciiLower p.scheme = [] ∨ (asciiLower p.scheme ≠ []
      ∧ isAsciiAlpha ((asciiLower p.scheme).headD ' ') = true
      ∧ ∀ x ∈ asciiLower p.scheme, isSchemeChar x = true) := by
    rcases hsch with h0 | ⟨hne, halpha, hchars, hidem⟩
    · left
      rw [h0]
      rfl
    · right
      rw [hidem]
      exact ⟨hne, halpha, hchars⟩
  have hn1 : ∀ c ∈ asciiLower p.netloc, isNetlocEnd c = false := by
    intro c hc
    rcases List.mem_map.1 hc with ⟨d, hd, rfl⟩
    rw [isNetlocEnd_asciiLowerChar]
    exact hnend d hd
  have hshape1 : asciiLower p.netloc ≠ [] →
      (if p.path ≠ ['/'] then pyRstripChar '/' p.path else ['/']) = [] ∨
      ((if p.path ≠ ['/'] then pyRstripChar '/' p.path else ['/']).headD ' ') = '/' := by
    intro hne1
    have hnne : p.netloc ≠ [] := by
      intro h0
      rw [h0] at hne1
      exact hne1 rfl
    by_cases hpp : p.path ≠ ['/']
    · rw [if_pos hpp]
      rcases hnshape hnne with hp0 | hph
      · left
        rw [hp0]
        rfl
      · by_cases hpe : pyRstripChar '/' p.path = []
        · exact Or.inl hpe
        · right
          rw [pyRstripChar_headD _ _ _ hpe]
          exact hph
    · rw [if_neg hpp]
      right
      rfl
  have hpth1 : asciiLower p.scheme = [] →
      (if p.path ≠ ['/'] then pyRstripChar '/' p.path else ['/']) = [] ∨
      isC0OrSpace ((if p.path ≠ ['/'] then pyRstripChar '/' p.path else ['/']).headD ' ')
        = false := by
    intro hs0
    have hsch0 : p.scheme = [] := by
      rcases hsch with h0 | ⟨hne, _, _, hidem⟩
      · exact h0
      · rw [hidem] at hs0
        exact absurd hs0 hne
    by_cases hpp : p.path ≠ ['/']
    · rw [if_pos hpp]
      by_cases hpe : pyRstripChar '/' p.path = []
      · exact Or.inl hpe
      · right
        rw [pyRstripChar_headD _ _ _ hpe]
        have hpne : p.path ≠ [] := by
          intro h0
          apply hpe
          rw [h0]
          rfl
        by_cases hnl : p.netloc = []
        · rcases hsempty hsch0 hnl with ⟨r, hr, _⟩ | hshp
          · rcases cleanUrl_head_not_c0 u with hcn | hcn
            · rw [hcn] at hr
              rcases List.append_eq_nil.1 hr.symm with ⟨h1, _⟩
              exact absurd h1 hpne
            · rw [hr, headD_append _ _ hpne] at hcn
              exact hcn
          · rcases hshp with hp0 | hph
            · exact absurd hp0 hpne
            · rw [hph]
              decide
        · rcases hnshape hnl with hp0 | hph
          · exact absurd hp0 hpne
          · rw [hph]
            decide
    · rw [if_neg hpp]
      right
      decide
  have hmemall : ∀ c, c ∈ asciiLower p.scheme ∨ c ∈ asciiLower p.netloc ∨
      c ∈ (if p.path ≠ ['/'] then pyRstripChar '/' p.path else ['/']) ∨ c ∈ p.query →
      isUnsafeUrlByte c = false := by
    intro c hc
    rcases hc with hc | hc | hc | hc
    · rcases List.mem_map.1 hc with ⟨d, hd, rfl⟩
      rw [unsafe_asciiLowerChar]
      rcases hsch with h0 | ⟨_, _, hchars, _⟩
      · rw [h0] at hd
        exact absurd hd (List.not_mem_nil d)
      · exact schemeChar_not_unsafe (hchars d hd)
    · rcases List.mem_map.1 hc with ⟨d, hd, rfl⟩
      rw [unsafe_asciiLowerChar]
      exact cleanUrl_no_unsafe d (hnsub d hd)
    · exact cleanUrl_no_unsafe c (hpsub c (hmemp c hc))
    · exact cleanUrl_no_unsafe c (hqsub c hc)
  have hclean1 : cleanUrl (urlunsplitM (asciiLower p.scheme) (asciiLower p.netloc)
      (if p.path ≠ ['/'] then pyRstripChar '/' p.path else ['/']) p.query []) =
      urlunsplitM (asciiLower p.scheme) (asciiLower p.netloc)
      (if p.path ≠ ['/'] then pyRstripChar '/' p.path else ['/']) p.query [] := by
    apply urlunsplitM_clean
    · rcases hsfacts with h0 | ⟨hne, halpha, _⟩
      · exact Or.inl h0
      · exact Or.inr ⟨hne, halpha⟩
    · intro hs0
      exact hpth1 hs0
    · exact hmemall
  have hsc1 : asciiLower p.scheme = [] → asciiLower p.netloc = [] →
      (['/', '/'] : Str).isPrefixOf
        (if p.path ≠ ['/'] then pyRstripChar '/' p.path else ['/']) = false →
      ∀ a b : Str,
        (if p.path ≠ ['/'] then pyRstripChar '/' p.path else ['/']) ++
          (if p.query = [] then ([] : Str) else '?' :: p.query) = a ++ ':' :: b →
        a = [] ∨ isAsciiAlpha (a.headD ' ') = false ∨ ∃ x ∈ a, isSchemeChar x = false := by
    intro hs0 hn0 hpref
    have hsch0 : p.scheme = [] := by
      rcases hsch with h0 | ⟨hne, _, _, hidem⟩
      · exact h0
      · rw [hidem] at hs0
        exact absurd hs0 hne
    have hnl0 : p.netloc = [] := by
      rcases hnl : p.netloc with _ | ⟨x, t⟩
      · rfl
      · rw [hnl] at hn0
        exact absurd hn0 (by simp [asciiLower])
    rcases hsempty hsch0 hnl0 with ⟨r, hr, hfst⟩ | hshp
    · by_cases hpp : p.path ≠ ['/']
      · rw [if_pos hpp]
        exact no_decomp_of_path_prefix hr hfst (pyRstripChar_decomp '/' p.path)
      · rw [if_neg hpp]
        apply no_decomp_head
        right
        show isAsciiAlpha '/' = false
        decide
    · rcases hshp with hp0 | hph
      · have hpp : p.path ≠ ['/'] := by
          rw [hp0]
          exact fun hh => List.noConfusion hh
        rw [if_pos hpp, hp0]
        apply no_decomp_head
        by_cases hq : p.query = []
        · left
          rw [hq]
          rfl
        · right
          rw [if_neg hq]
          show isAsciiAlpha '?' = false
          decide
      · by_cases hpp : p.path ≠ ['/']
        · rw [if_pos hpp]
          apply no_decomp_head
          by_cases hpe : pyRstripChar '/' p.path = []
          · by_cases hq : p.query = []
            · left
              rw [hpe, hq]
              rfl
            · right
              rw [hpe, if_neg hq]
              show isAsciiAlpha '?' = false
              decide
          · right
            rw [headD_append _ _ hpe, pyRstripChar_headD _ _ _ hpe, hph]
            decide
        · rw [if_neg hpp]
          apply no_decomp_head
          right
          show isAsciiAlpha '/' = false
          decide
  have hround := urlsplit_unsplit_roundtrip rfl hsfacts hn1 (any_bracket_asciiLower hnbr)
      (fun hc => hpH0 (hmemp _ hc)) (fun hc => hpQ0 (hmemp _ hc)) hqH0
      hshape1 hclean1 hsc1
  rw [asciiLower_idem] at hround
  rw [hv] at hround
  have hcf2 : (if p.path ≠ ['/'] then pyRstripChar '/' p.path else ['/']).contains ';'
      = false := by
    rw [Bool.eq_false_iff]
    intro hc
    have hmem2 : (';' : Char) ∈ (if p.path ≠ ['/'] then pyRstripChar '/' p.path else ['/']) := by
      simpa using hc
    exact hsemi (mem_cleanUrl (hpsub ';' (hmemp ';' hmem2)))
  have hpar2 : urlparseM v = some ⟨asciiLower p.scheme, asciiLower p.netloc,
      (if p.path ≠ ['/'] then pyRstripChar '/' p.path else ['/']), [], p.query, []⟩ :=
    urlparseM_no_semicolon hround hcf2
  rw [normalizeUrl_eq, hpar2]
  show some (urlunparseM (asciiLower (asciiLower p.scheme)) (asciiLower (asciiLower p.netloc))
      (if (if p.path ≠ ['/'] then pyRstripChar '/' p.path else ['/']) ≠ ['/']
        then pyRstripChar '/' (if p.path ≠ ['/'] then pyRstripChar '/' p.path else ['/'])
        else ['/'])
      [] p.query []) = some v
  have hpath2 : (if (if p.path ≠ ['/'] then pyRstripChar '/' p.path else ['/']) ≠ ['/']
      then pyRstripChar '/' (if p.path ≠ ['/'] then pyRstripChar '/' p.path else ['/'])
      else ['/']) = (if p.path ≠ ['/'] then pyRstripChar '/' p.path else ['/']) := by
    by_cases hpp : p.path ≠ ['/']
    · rw [if_pos hpp, if_pos (pyRstripChar_ne_single '/' p.path), pyRstripChar_idem]
    · rw [if_neg hpp, if_neg (fun hh => hh rfl)]
  rw [hpath2, asciiLower_idem, asciiLower_idem, hunp, hv]

/-- C7 (corrected): `normalize_url` (crawl.py lines 138-145) is idempotent on
URLs that contain no semicolon: if it maps `u` to `v` then it maps `v` to `v`,
lower-casing scheme and netloc, dropping the fragment and right-stripping
trailing slashes exactly as on the first pass. The restriction is necessary:
re-parsing the output splits `;params` off the last path segment, which breaks
idempotence on general URLs. -/
theorem c7_normalize_idempotent_semicolon_free {u v : Str}
    (hsemi : (';' : Char) ∉ u) (h : normalizeUrl u = some v) :
    normalizeUrl v = some v :=
  normalizeUrl_idem hsemi h

/-- Concrete instantiation of `c7_normalize_idempotent_semicolon_free`:
a semicolon-free URL whose normalization (lower-cased scheme and host, dropped
fragment, stripped trailing slashes, preserved path case and query) is a fixed
point of `normalizeUrl`. -/
theorem c7_normalize_idempotent_semicolon_free_witness :
    ((';' : Char) ∉ ("HTTP://Ex.COM/Path//?Q=1#frag").toList
      ∧ normalizeUrl ("HTTP://Ex.COM/Path//?Q=1#frag").toList
          = some ("http://ex.com/Path?Q=1").toList)
    ∧ normalizeUrl ("http://ex.com/Path?Q=1").toList
        = some ("http://ex.com/Path?Q=1").toList :=
  ⟨⟨by decide, by decide⟩,
    @c7_normalize_idempotent_semicolon_free ("HTTP://Ex.COM/Path//?Q=1#frag").toList
      ("http://ex.com/Path?Q=1").toList (by decide) (by decide)⟩

/-- C7 counterexample: `normalize_url` is not idempotent on every URL. The
first application maps `http://h/b/;p/` to `http://h/b/;p`; re-parsing that
output makes CPython's `_splitparams` split `;p` off the last path segment, so
the second application yields the different string `http://h/b;p`. Moreover
the trailing `rstrip("/")` removes every trailing slash rather than a single
one, and the whole netloc, including userinfo, is lower-cased, not only the
host: `http://USER@h/a//` becomes `http://user@h/a`. -/
theorem c7_counterexample_not_idempotent :
    normalizeUrl ("http://h/b/;p/").toList = some ("http://h/b/;p").toList
    ∧ normalizeUrl ("http://h/b/;p").toList = some ("http://h/b;p").toList
    ∧ ("http://h/b/;p").toList ≠ ("http://h/b;p").toList
    ∧ normalizeUrl ("http://USER@h/a//").toList = some ("http://user@h/a").toList :=
  ⟨by decide, by decide, by decide, by decide⟩

/-! ### crawl.py: SSRF host classification (`_is_private_host`, lines 124-135) -/

/-- `str.split(sep)[0]`: the prefix before the first separator. -/
def pySplitFirst (sep : Char) (s : Str) : Str := s.takeWhile (fun c => c ≠ sep)

/-- `str.endswith(suffix)`. -/
def pyEndsWith (suffix s : Str) : Bool := suffix.isSuffixOf s

/-- The numeric value of a decimal digit string. -/
def digitsVal (s : Str) : Nat := s.foldl (fun acc c => 10 * acc + (c.toNat - 48)) 0

/-- CPython `ipaddress._parse_octet`: at most three ASCII digits, no leading
zero unless the octet is exactly `0`, value at most 255. -/
def parseOctet (s : Str) : Option Nat :=
  if s = [] then none
  else if ¬ s.all Char.isDigit then none
  else if 3 < s.length then none
  else if s.headD ' ' = '0' ∧ s.length ≠ 1 then none
  else if 255 < digitsVal s then none
  else some (digitsVal s)

/-- `ipaddress.ip_address` on the string reaching it in `_is_private_host`:
after `split(":")[0]` no colon survives, so only an IPv4 dotted quad can
parse; everything else raises `ValueError`. -/
def parseIPv4 (s : Str) : Option (Nat × Nat × Nat × Nat) :=
  match (splitOnChar '.' s).map parseOctet with
  | [some a, some b, some c, some d] => some (a, b, c, d)
  | _ => none

/-- IPv4 `is_loopback`: 127.0.0.0/8. -/
def ipv4Loopback (a : Nat) : Bool := a = 127

/-- IPv4 `is_link_local`: 169.254.0.0/16. -/
def ipv4LinkLocal (a b : Nat) : Bool := a = 169 && b = 254

/-- IPv4 `is_reserved`: 240.0.0.0/4. -/
def ipv4Reserved (a : Nat) : Bool := 240 ≤ a

/-- IPv4 `is_private`: membership in CPython's `_private_networks` list. -/
def ipv4Private (a b c d : Nat) : Bool :=
  a = 0 || a = 10 || a = 127 || (a = 169 && b = 254)
  || (a = 172 && 16 ≤ b && b ≤ 31)
  || (a = 192 && b = 0 && c = 0 && d ≤ 7)
  || (a = 192 && b = 0 && c = 0 && (d = 170 || d = 171))
  || (a = 192 && b = 0 && c = 2) || (a = 192 && b = 168)
  || (a = 198 && (b = 18 || b = 19)) || (a = 198 && b = 51 && c = 100)
  || (a = 203 && b = 0 && c = 113) || 240 ≤ a
  || (a = 255 && b = 255 && c = 255 && d = 255)

/-- crawl.py `_is_private_host` (lines 124-135). -/
def isPrivateHost (hostname : Str) : Bool :=
  let lower := pySplitFirst ':' (asciiLower hostname)
  if lower = ("localhost").toList ∨ lower = ("localhost.localdomain").toList ∨ lower = [] then
    true
  else if pyEndsWith (".local").toList lower || pyEndsWith (".internal").toList lower then
    true
  else
    match parseIPv4 lower with
    | some (a, b, c, d) =>
      ipv4Private a b c d || ipv4Loopback a || ipv4LinkLocal a b || ipv4Reserved a
    | none => false

/-- The substring after the last occurrence of `c` (`str.rpartition(c)[2]`;
the whole string when `c` does not occur). -/
def afterLastChar (c : Char) (s : Str) : Str :=
  (s.reverse.takeWhile (fun a => a ≠ c)).reverse

/-- `urlparse(u).hostname or ""`: userinfo stripped at the last `@`, the port
stripped at the first `:`, lower-cased; empty when there is no host. -/
def pyHostname (u : Str) : Str :=
  match urlsplitM u with
  | none => []
  | some p => asciiLower (pySplitFirst ':' (afterLastChar '@' p.netloc))

/-! ### crawl.py: fetch and per-URL crawl (`fetch_page`, `_crawl_single`) -/

/-- A Python exception inside the crawler: task cancellation
(`asyncio.CancelledError`, a `BaseException`) or an ordinary `Exception`
with its message. -/
inductive PyExc where
  | cancelled
  | exc (msg : Str)
deriving Repr, DecidableEq

/-- `str(e)` for a converted exception. -/
def excMsg : PyExc → Str
  | .cancelled => []
  | .exc m => m

/-- The observable part of an `httpx.Response`. -/
structure Response where
  statusCode : Nat
  finalUrl : Str
  text : Str
  contentType : Str
  contentLength : Option Nat
  etag : Option Str
  lastModified : Option Str
deriving Repr, DecidableEq

/-- crawl.py `_FetchResult`. -/
structure FetchResult where
  url : Str
  html : Str
  etag : Option Str
  lastModified : Option Str
deriving Repr, DecidableEq

/-- crawl.py `CrawlAction`. -/
inductive CrawlAction where
  | crawled | unchanged | skipped | error | blocked | dryRun
deriving Repr, DecidableEq

/-- crawl.py `CrawlResult`. -/
structure CrawlResultM where
  url : Str
  chunks : Nat
  action : CrawlAction
  detail : Str
deriving Repr, DecidableEq

/-- One crawl-cache entry as written by `_crawl_single`. -/
structure CacheEntryM where
  etag : Option Str
  lastModified : Option Str
  hash : Option Str
  timestamp : Nat
deriving Repr, DecidableEq

/-- The crawl cache: an insertion-ordered string-keyed map. -/
abbrev CacheM := List (Str × CacheEntryM)

/-- Python `cache.get(url)`. -/
def cacheGet (cache : CacheM) (url : Str) : Option CacheEntryM :=
  match cache.find? (fun kv => kv.1 = url) with
  | some kv => some kv.2
  | none => none

/-- Python `cache[url] = e`: replace in place, append when new. -/
def cacheSet (cache : CacheM) (url : Str) (e : CacheEntryM) : CacheM :=
  if (cache.find? (fun kv => kv.1 = url)).isSome then
    cache.map (fun kv => if kv.1 = url then (url, e) else kv)
  else cache ++ [(url, e)]

/-- Effects a single-URL crawl performs, in order. -/
inductive CrawlEvent where
  | httpGet (url : Str) (headers : List (Str × Str))
  | extract (html : Str)
  | hashLookup (url : Str)
  | chunk (markdown : Str)
  | ingest (url : Str) (nChunks : Nat)
  | insertLinks (url : Str) (links : List Str)
  | sleep
deriving Repr, DecidableEq

/-- The conditional-request headers `fetch_page` builds from the cache
(crawl.py lines 294-300). -/
def conditionalHeaders (cache : CacheM) (url : Str) (force : Bool) : List (Str × Str) :=
  match cacheGet cache url with
  | some e =>
    if force then []
    else
      (match e.etag with
       | some t => [(("If-None-Match").toList, t)]
       | none => []) ++
      (match e.lastModified with
       | some lm => [(("If-Modified-Since").toList, lm)]
       | none => [])
  | none => []

/-- Decimal digits of a Nat (fuel-based; the fuel `n + 1` always suffices). -/
def natDigitsAux : Nat → Nat → Str
  | 0, _ => []
  | fuel + 1, n =>
    if n < 10 then [Char.ofNat (48 + n)]
    else natDigitsAux fuel (n / 10) ++ [Char.ofNat (48 + n % 10)]

def natDigits (n : Nat) : Str := natDigitsAux (n + 1) n

/-- Python `needle in hay` for strings. -/
def containsSubstr (needle hay : Str) : Bool :=
  (List.range (hay.length + 1)).any (fun i => matchesAt needle hay i)

/-- crawl.py `fetch_page` (lines 287-329). The network call is an oracle from
the request headers to a response or an exception; `ok none` models every
`return None` path: 304, redirect to a private host, oversized body,
non-HTML content type. -/
def fetchPage (get : List (Str × Str) → Except PyExc Response)
    (url : Str) (cache : CacheM) (force : Bool) :
    Except PyExc (Option FetchResult) :=
  let headers := conditionalHeaders cache url force
  match get headers with
  | .error e => .error e
  | .ok r =>
    if r.statusCode = 304 then .ok none
    else if 400 ≤ r.statusCode then
      .error (.exc (("HTTP error ").toList ++ natDigits r.statusCode))
    else
      if isPrivateHost (pyHostname r.finalUrl) then .ok none
      else if (match r.contentLength with
               | some n => decide (50 * 1024 * 1024 < n)
               | none => false) then .ok none
      else if ¬ (containsSubstr ("text/html").toList r.contentType
          || containsSubstr ("application/xhtml").toList r.contentType) then .ok none
      else .ok (some ⟨r.finalUrl, r.text, r.etag, r.lastModified⟩)

/-- `str.strip(c)` for one character. -/
def pyStripCharBoth (c : Char) (s : Str) : Str :=
  pyRstripChar c (s.dropWhile (fun a => a = c))

/-- The title fallback of `_crawl_single`:
`urlparse(url).path.strip("/").split("/")[-1]`. -/
def urlPathTitle (url : Str) : Str :=
  let pa := match urlparseM url with
    | some p => p.path
    | none => []
  (splitOnChar '/' (pyStripCharBoth '/' pa)).getLastD []

/-- The oracle bundle for `_crawl_single`: the outcome of every awaited or
external effect, keyed by its inputs where the code passes them. -/
structure SingleOracle where
  get : List (Str × Str) → Except PyExc Response
  extractContent : Str → Except PyExc (Option Str)
  contentHash : Str → Str
  getContentHash : Except PyExc (Option Str)
  ingestFile : Except PyExc Nat
  extractLinks : Str → Str → List Str
  insertLinksResult : Except PyExc Unit
  sleepResult : Except PyExc Unit
  now : Nat

/-- `_crawl_single` from the chunking step to the end (crawl.py 677-719):
chunk, ingest, insert links (whose own `except Exception` swallows ordinary
failures but not cancellation), update the cache, optionally sleep. -/
def crawlSingleRest (o : SingleOracle) (url : Str) (cache : CacheM)
    (fr : FetchResult) (md digest : Str) (evs : List CrawlEvent)
    (delayPos : Bool) : List CrawlEvent × CacheM × Except PyExc CrawlResultM :=
  let chunks := chunkByHeadings md url
  let ev4 := evs ++ [CrawlEvent.chunk md, CrawlEvent.ingest url chunks.length]
  match o.ingestFile with
  | .error e => (ev4, cache, .error e)
  | .ok count =>
    let links := o.extractLinks fr.html url
    let ev5 := if links ≠ [] then ev4 ++ [CrawlEvent.insertLinks url (links.take 50)] else ev4
    let insExc : Option PyExc :=
      if links ≠ [] then
        match o.insertLinksResult with
        | .error .cancelled => some .cancelled
        | _ => none
      else none
    match insExc with
    | some e => (ev5, cache, .error e)
    | none =>
      let cache2 := cacheSet cache url ⟨fr.etag, fr.lastModified, some digest, o.now⟩
      if delayPos then
        match o.sleepResult with
        | .error e => (ev5 ++ [CrawlEvent.sleep], cache2, .error e)
        | .ok _ => (ev5 ++ [CrawlEvent.sleep], cache2, .ok ⟨url, count, .crawled, []⟩)
      else (ev5, cache2, .ok ⟨url, count, .crawled, []⟩)

/-- The `try:` body of `_crawl_single` (crawl.py lines 652-719): the events
performed, the cache as mutated so far, and the result or the escaping
exception. -/
def crawlSingleBody (o : SingleOracle) (url : Str) (cache : CacheM)
    (force hasHash delayPos : Bool) :
    List CrawlEvent × CacheM × Except PyExc CrawlResultM :=
  let headers := conditionalHeaders cache url force
  let ev0 := [CrawlEvent.httpGet url headers]
  match fetchPage o.get url cache force with
  | .error e => (ev0, cache, .error e)
  | .ok none => (ev0, cache, .ok ⟨url, 0, .unchanged, ("304 Not Modified").toList⟩)
  | .ok (some fr) =>
    let ev1 := ev0 ++ [CrawlEvent.extract fr.html]
    match o.extractContent fr.html with
    | .error e => (ev1, cache, .error e)
    | .ok none => (ev1, cache, .ok ⟨url, 0, .skipped, ("No extractable content").toList⟩)
    | .ok (some md) =>
      let digest := o.contentHash md
      if hasHash && !force then
        let ev2 := ev1 ++ [CrawlEvent.hashLookup url]
        match o.getContentHash with
        | .error e => (ev2, cache, .error e)
        | .ok existing =>
          if existing = some digest then
            let cache2 := cacheSet cache url ⟨fr.etag, fr.lastModified, some digest, o.now⟩
            (ev2, cache2, .ok ⟨url, 0, .unchanged, ("hash match").toList⟩)
          else crawlSingleRest o url cache fr md digest ev2 delayPos
      else crawlSingleRest o url cache fr md digest ev1 delayPos

/-- crawl.py `_crawl_single` (lines 633-724): the robots gate, then the body
under `except asyncio.CancelledError: raise` / `except Exception` converted
to an ERROR result. -/
def crawlSingle (o : SingleOracle) (robots : Option (Str → Str → Bool))
    (userAgent url : Str) (cache : CacheM) (force hasHash delayPos : Bool) :
    List CrawlEvent × CacheM × Except PyExc CrawlResultM :=
  let gate : Bool := match robots with
    | some canFetch => ¬ canFetch userAgent url
    | none => false
  if gate then ([], cache, .ok ⟨url, 0, .blocked, ("robots.txt").toList⟩)
  else
    let r := crawlSingleBody o url cache force hasHash delayPos
    (r.1, r.2.1, match r.2.2 with
                 | .error (.exc m) => .ok ⟨url, 0, .error, m⟩
                 | x => x)

/-! ### crawl.py: the orchestrator around `asyncio.gather` (`crawl_url`) -/

/-- The SSRF gate at the top of `crawl_url` (lines 484-491): a private base
host short-circuits to a single BLOCKED result before anything is fetched. -/
def crawlUrlBaseGate (url : Str) : Option (List CrawlResultM) :=
  if isPrivateHost (pyHostname url) then
    some [⟨url, 0, .blocked, ("private/internal host blocked").toList⟩]
  else none

/-- `await asyncio.gather(*tasks, return_exceptions=True)` as awaited by
`crawl_url`: when the surrounding task is cancelled the await re-raises
`CancelledError`; otherwise every child outcome, exceptions included, is
returned in order. -/
def gatherM (outerCancelled : Bool) (children : List (Except PyExc CrawlResultM)) :
    Except PyExc (List (Except PyExc CrawlResultM)) :=
  if outerCancelled then .error .cancelled else .ok children

/-- The exception-to-result conversion of `crawl_url` (lines 578-586). -/
def convertGathered (discovered : List Str)
    (raw : List (Except PyExc CrawlResultM)) : List CrawlResultM :=
  (discovered.zip raw).map (fun ur =>
    match ur.2 with
    | .error e => ⟨ur.1, 0, .error, excMsg e⟩
    | .ok r => r)

/-- `crawl_url` from the gather to the end (lines 575-631): the `finally:`
always runs `save_cache`, and an exception from the gather — in particular
the overall cancellation — propagates after the save. The Bool records that
`save_cache` ran. -/
def crawlUrlGatherPhase (outerCancelled : Bool) (discovered : List Str)
    (children : List (Except PyExc CrawlResultM)) :
    Bool × Except PyExc (List CrawlResultM) :=
  match gatherM outerCancelled children with
  | .error e => (true, .error e)
  | .ok raw => (true, .ok (convertGathered discovered raw))

/-! ### Claims C3, C4, C6 -/

/-- C4: for a URL whose own host is private, the gate at the top of
`crawl_url` short-circuits to a single BLOCKED result before anything is
fetched. But a public URL whose redirect chain ends at a private host is NOT
classified BLOCKED: the redirected fetch has already happened and
`fetch_page` returns `None`, which `_crawl_single` maps to an UNCHANGED
result labelled "304 Not Modified"; the content is dropped (no extraction,
chunking or ingestion events), yet the action is UNCHANGED rather than
BLOCKED. -/
theorem c4_private_host_blocking {url : Str}
    (hpriv : isPrivateHost (pyHostname url) = true) :
    crawlUrlBaseGate url
      = some [⟨url, 0, .blocked, ("private/internal host blocked").toList⟩]
    ∧ ∀ (o : SingleOracle) (r : Response) (cache : CacheM)
        (force hasHash delayPos : Bool) (ua u2 : Str),
      o.get (conditionalHeaders cache u2 force) = .ok r →
      r.statusCode ≠ 304 → r.statusCode < 400 →
      isPrivateHost (pyHostname r.finalUrl) = true →
      crawlSingle o none ua u2 cache force hasHash delayPos =
        ([CrawlEvent.httpGet u2 (conditionalHeaders cache u2 force)], cache,
          .ok ⟨u2, 0, .unchanged, ("304 Not Modified").toList⟩) := by
  constructor
  · unfold crawlUrlBaseGate
    rw [if_pos hpriv]
  · intro o r cache force hasHash delayPos ua u2 hget h304 h400 hfin
    have hbody : crawlSingleBody o u2 cache force hasHash delayPos =
        ([CrawlEvent.httpGet u2 (conditionalHeaders cache u2 force)], cache,
          .ok ⟨u2, 0, .unchanged, ("304 Not Modified").toList⟩) := by
      simp only [crawlSingleBody, fetchPage]
      rw [hget]
      dsimp only
      rw [if_neg h304, if_neg (by omega : ¬ 400 ≤ r.statusCode), if_pos hfin]
    simp only [crawlSingle]
    rw [hbody]
    rfl

/-- Concrete instantiation of `c4_private_host_blocking`: a URL with host
`localhost` is blocked by the base gate before any network activity. -/
theorem c4_private_host_blocking_witness :
    crawlUrlBaseGate ("http://localhost/page").toList
      = some [⟨("http://localhost/page").toList, 0, .blocked,
          ("private/internal host blocked").toList⟩] :=
  (c4_private_host_blocking (by decide)).1

def c4url : Str := ("http://public.example.com/a").toList

/-- A fetch whose redirect chain ends at the loopback address. -/
def c4oracle : SingleOracle :=
  ⟨fun _ => .ok ⟨200, ("http://127.0.0.1/x").toList, ("<html>").toList,
      ("text/html").toList, none, none, none⟩,
   fun _ => .ok none, fun _ => [], .ok none, .ok 0, fun _ _ => [], .ok (), .ok (), 0⟩

/-- C4 counterexample: the redirected fetch to a private host happens (the
`httpGet` event is present) and the per-URL result has action UNCHANGED with
detail "304 Not Modified", not BLOCKED. -/
theorem c4_counterexample_redirect_not_blocked :
    crawlSingle c4oracle none [] c4url [] false true false =
      ([CrawlEvent.httpGet c4url []], ([] : CacheM),
        .ok ⟨c4url, 0, .unchanged, ("304 Not Modified").toList⟩)
    ∧ CrawlAction.unchanged ≠ CrawlAction.blocked :=
  ⟨rfl, by decide⟩

/-- C6: with a cached entry carrying an ETag, `force = false` and a 304
answer, `_crawl_single` returns UNCHANGED with zero chunks; the only event is
the conditional GET, which carried the `If-None-Match` header, and no
extraction, chunking or ingestion event occurs. -/
theorem c6_etag_304_unchanged {o : SingleOracle} {r : Response} {cache : CacheM}
    {url ua : Str} {e : CacheEntryM} {t : Str} {robots : Option (Str → Str → Bool)}
    {hasHash delayPos : Bool}
    (hentry : cacheGet cache url = some e)
    (hetag : e.etag = some t)
    (hget : o.get (conditionalHeaders cache url false) = .ok r)
    (h304 : r.statusCode = 304)
    (hrob : ∀ canFetch, robots = some canFetch → canFetch ua url = true) :
    crawlSingle o robots ua url cache false hasHash delayPos =
      ([CrawlEvent.httpGet url (conditionalHeaders cache url false)], cache,
        .ok ⟨url, 0, .unchanged, ("304 Not Modified").toList⟩)
    ∧ ((("If-None-Match").toList, t)) ∈ conditionalHeaders cache url false
    ∧ ∀ ev ∈ [CrawlEvent.httpGet url (conditionalHeaders cache url false)],
        (∀ h2, ev ≠ CrawlEvent.extract h2) ∧ (∀ m, ev ≠ CrawlEvent.chunk m)
        ∧ (∀ u2 n, ev ≠ CrawlEvent.ingest u2 n) := by
  have hbody : crawlSingleBody o url cache false hasHash delayPos =
      ([CrawlEvent.httpGet url (conditionalHeaders cache url false)], cache,
        .ok ⟨url, 0, .unchanged, ("304 Not Modified").toList⟩) := by
    simp only [crawlSingleBody, fetchPage]
    rw [hget]
    dsimp only
    rw [if_pos h304]
  refine ⟨?_, ?_, ?_⟩
  · rcases robots with _ | canFetch
    · simp only [crawlSingle]
      rw [hbody]
      rfl
    · have hcf : canFetch ua url = true := hrob canFetch rfl
      simp only [crawlSingle]
      rw [if_neg (by simp [hcf]), hbody]
  · unfold conditionalHeaders
    rw [hentry]
    dsimp only
    rw [hetag]
    dsimp only
    exact List.mem_append.2 (Or.inl (List.mem_cons_self _ _))
  · intro ev hev
    rcases List.mem_cons.1 hev with rfl | h0
    · exact ⟨fun h2 hh => CrawlEvent.noConfusion hh,
        fun m hh => CrawlEvent.noConfusion hh,
        fun u2 n hh => CrawlEvent.noConfusion hh⟩
    · exact absurd h0 (List.not_mem_nil ev)

def c6url : Str := ("http://site.example/doc").toList

def c6entry : CacheEntryM :=
  ⟨some ("W/abc").toList, some ("Mon, 01 Jan 2024").toList, some ("h1").toList, 5⟩

def c6cache : CacheM := [(c6url, c6entry)]

/-- A server answering 304 Not Modified. -/
def c6oracle : SingleOracle :=
  ⟨fun _ => .ok ⟨304, c6url, [], [], none, none, none⟩,
   fun _ => .ok none, fun _ => [], .ok none, .ok 0, fun _ _ => [], .ok (), .ok (), 0⟩

/-- Concrete instantiation of `c6_etag_304_unchanged`. -/
theorem c6_etag_304_unchanged_witness :
    crawlSingle c6oracle none [] c6url c6cache false true true =
      ([CrawlEvent.httpGet c6url (conditionalHeaders c6cache c6url false)], c6cache,
        .ok ⟨c6url, 0, .unchanged, ("304 Not Modified").toList⟩) :=
  (c6_etag_304_unchanged (by rfl) (by rfl) (by rfl) (by rfl)
    (fun c h => Option.noConfusion h)).1

/-- C3: when the overall crawl run is cancelled, the gather re-raises
`CancelledError` after the `finally:` has saved the cache, so no per-URL
result list is built and no cancelled unit is reinterpreted; inside a unit,
`except asyncio.CancelledError: raise` re-raises cancellation unchanged,
while ordinary exceptions are the only ones converted to an ERROR result. -/
theorem c3_cancellation_control_signal :
    (∀ (discovered : List Str) (children : List (Except PyExc CrawlResultM)),
      crawlUrlGatherPhase true discovered children = (true, .error .cancelled))
    ∧ (∀ (o : SingleOracle) (url ua : Str) (cache : CacheM)
        (robots : Option (Str → Str → Bool)) (force hasHash delayPos : Bool),
      (crawlSingleBody o url cache force hasHash delayPos).2.2 = .error .cancelled →
      (crawlSingle o robots ua url cache force hasHash delayPos).2.2 = .error .cancelled
        ∨ (crawlSingle o robots ua url cache force hasHash delayPos).2.2 =
            .ok ⟨url, 0, .blocked, ("robots.txt").toList⟩)
    ∧ (∀ (o : SingleOracle) (url ua : Str) (cache : CacheM) (m : Str)
        (force hasHash delayPos : Bool),
      (crawlSingleBody o url cache force hasHash delayPos).2.2 = .error (.exc m) →
      (crawlSingle o none ua url cache force hasHash delayPos).2.2 =
        .ok ⟨url, 0, .error, m⟩) := by
  refine ⟨?_, ?_, ?_⟩
  · intro discovered children
    unfold crawlUrlGatherPhase gatherM
    rw [if_pos rfl]
  · intro o url ua cache robots force hasHash delayPos h
    rcases robots with _ | canFetch
    · left
      simp only [crawlSingle]
      rw [h]
      rfl
    · by_cases hc : canFetch ua url = true
      · left
        simp only [crawlSingle]
        rw [if_neg (by simp [hc]), h]
      · right
        simp only [crawlSingle]
        rw [if_pos (by simp [hc])]
  · intro o url ua cache m force hasHash delayPos h
    simp only [crawlSingle]
    rw [h]
    rfl

def c3url : Str := ("http://site.example/a").toList

/-- A fetch interrupted by cancellation. -/
def c3oracle : SingleOracle :=
  ⟨fun _ => .error .cancelled, fun _ => .ok none, fun _ => [], .ok none, .ok 0,
   fun _ _ => [], .ok (), .ok (), 0⟩

/-- Concrete instantiation of `c3_cancellation_control_signal`: an overall
cancellation propagates out of the gather phase with the cache saved, and a
unit cancelled during its fetch re-raises instead of reporting ERROR. -/
theorem c3_cancellation_control_signal_witness :
    crawlUrlGatherPhase true [] [] = (true, .error .cancelled)
    ∧ ((crawlSingle c3oracle none [] c3url [] false false false).2.2 = .error .cancelled
        ∨ (crawlSingle c3oracle none [] c3url [] false false false).2.2 =
            .ok ⟨c3url, 0, .blocked, ("robots.txt").toList⟩) :=
  ⟨c3_cancellation_control_signal.1 [] [],
   c3_cancellation_control_signal.2.1 c3oracle c3url [] [] none false false false (by rfl)⟩

/-! ### crawl.py: URL discovery (`parse_sitemap`, `_discover_sitemap`,
`_discover_bfs`) -/

/-- An ElementTree node: tag, text, children. -/
inductive Xml where
  | el (tag : Str) (text : Option Str) (children : List Xml)

def xmlTag : Xml → Str
  | .el t _ _ => t

def xmlText : Xml → Option Str
  | .el _ t _ => t

def xmlChildren : Xml → List Xml
  | .el _ _ cs => cs

/-- All strict descendants of the given nodes in document order, to the given
recursion depth (exact for any bound at least the tree height; the tree is
finite and the source recursion is unbounded). -/
def descendantsAux : Nat → List Xml → List Xml
  | 0, _ => []
  | fuel + 1, xs => (xs.map (fun x => x :: descendantsAux fuel (xmlChildren x))).flatten

/-- The namespace prefix `root.tag.split("}")[0] + "}"` when the root tag
starts with `{`. -/
def xmlNs (root : Xml) : Str :=
  if (xmlTag root).headD ' ' = '{' then pySplitFirst '}' (xmlTag root) ++ ['}'] else []

/-- crawl.py `parse_sitemap` (lines 148-177). `xmlParse` is the
`ET.fromstring` oracle, `none` meaning `ParseError`. -/
def parseSitemap (xmlParse : Str → Option Xml) (fuel : Nat) (xtext : Str) : List Str :=
  if 10 * 1024 * 1024 < xtext.length then []
  else
    match xmlParse xtext with
    | none => []
    | some root =>
      let ns := xmlNs root
      let locsOf := fun (tag : Str) =>
        ((descendantsAux fuel (xmlChildren root)).filter
            (fun e2 => xmlTag e2 = ns ++ tag)).filterMap
          (fun e2 =>
            match (xmlChildren e2).find? (fun c => xmlTag c = ns ++ ("loc").toList) with
            | some loc =>
              match xmlText loc with
              | some t => if t ≠ [] then some (pyStrip t) else none
              | none => none
            | none => none)
      locsOf ("sitemap").toList ++ locsOf ("url").toList

/-- `resp.raise_for_status()`: raises `httpx.HTTPStatusError` for 4xx/5xx. -/
def raiseForStatus (r : Response) : Except PyExc Response :=
  if 400 ≤ r.statusCode then
    .error (.exc (("HTTP error ").toList ++ natDigits r.statusCode))
  else .ok r

/-- The oracle bundle for discovery: plain GETs keyed by URL, the XML
parser, and the link extractor. -/
structure DiscOracle where
  get : Str → Except PyExc Response
  xmlParse : Str → Option Xml
  extractLinks : Str → Str → List Str

/-- Observable discovery effects: a network GET, or entering the BFS
fallback crawl. -/
inductive DiscEvent where
  | get (url : Str)
  | bfs
deriving Repr, DecidableEq

/-- The robots gate `robots is not None and not robots.can_fetch(ua, url)`. -/
def robotsGate (robots : Option (Str → Str → Bool)) (ua url : Str) : Bool :=
  match robots with
  | some cf => !cf ua url
  | none => false

/-- The queue pushes at the bottom of the BFS loop (crawl.py 448-450). -/
def bfsPush (queue : List (Str × Nat)) (visited : List Str) (maxUrls : Nat)
    (links : List Str) (depth : Nat) : List (Str × Nat) :=
  links.foldl (fun q link =>
    if link ∉ visited ∧ q.length < maxUrls then q ++ [(link, depth + 1)] else q) queue

/-- The `while` loop of `_discover_bfs` (crawl.py lines 430-457), fuel-based:
every iteration pops one queue element, so any fuel at least the total number
of queue insertions is exact; the zero-fuel truncation is unreachable then.
A cancelled GET escapes the loop (`except Exception` does not catch
`CancelledError`); the rate-limit sleep is elided. -/
def bfsLoop (o : DiscOracle) (robots : Option (Str → Str → Bool)) (ua : Str)
    (depthLimit maxUrls : Nat) :
    Nat → List (Str × Nat) → List Str → List Str → List DiscEvent →
    List DiscEvent × Except PyExc (List Str)
  | 0, _, _, result, evs => (evs, .ok result)
  | _ + 1, [], _, result, evs => (evs, .ok result)
  | fuel + 1, (url, depth) :: qrest, visited, result, evs =>
    if maxUrls ≤ result.length then (evs, .ok result)
    else if url ∈ visited then
      bfsLoop o robots ua depthLimit maxUrls fuel qrest visited result evs
    else
      let visited2 := visited ++ [url]
      if robotsGate robots ua url then
        bfsLoop o robots ua depthLimit maxUrls fuel qrest visited2 result evs
      else
        let result2 := result ++ [url]
        if depthLimit ≤ depth then
          bfsLoop o robots ua depthLimit maxUrls fuel qrest visited2 result2 evs
        else
          let evs2 := evs ++ [DiscEvent.get url]
          match o.get url with
          | .error .cancelled => (evs2, .error .cancelled)
          | .error (.exc _) =>
            bfsLoop o robots ua depthLimit maxUrls fuel qrest visited2 result2 evs2
          | .ok resp =>
            if resp.statusCode = 200
                && containsSubstr ("text/html").toList resp.contentType then
              bfsLoop o robots ua depthLimit maxUrls fuel
                (bfsPush qrest visited2 maxUrls (o.extractLinks resp.text url) depth)
                visited2 result2 evs2
            else
              bfsLoop o robots ua depthLimit maxUrls fuel qrest visited2 result2 evs2

/-- crawl.py `_discover_bfs` (lines 419-459): seed the queue with the
normalized base URL at depth 0. `normalizeUrl` is `none` only outside the
modelled domain. -/
def discoverBfs (o : DiscOracle) (robots : Option (Str → Str → Bool)) (ua base : Str)
    (depthLimit maxUrls fuel : Nat) : List DiscEvent × Except PyExc (List Str) :=
  match normalizeUrl base with
  | some b => bfsLoop o robots ua depthLimit maxUrls fuel [(b, 0)] [] [] [DiscEvent.bfs]
  | none => ([DiscEvent.bfs], .ok [])

/-- `f"{parsed.scheme}://{parsed.netloc}/sitemap.xml"`. -/
def sitemapUrlOf (base : Str) : Str :=
  match urlparseM base with
  | some p => p.scheme ++ ("://").toList ++ p.netloc ++ ("/sitemap.xml").toList
  | none => ("/sitemap.xml").toList

/-- The nested-sitemap resolution of `_discover_sitemap` (lines 393-407):
each nested fetch swallows ordinary failures as `[]`, cancellation escapes
the gather. -/
def fetchNestedAll (o : DiscOracle) (fuel : Nat) (nested : List Str) :
    List DiscEvent × Except PyExc (List Str) :=
  nested.foldl (fun acc sm =>
    match acc.2 with
    | .error e => (acc.1, .error e)
    | .ok lst =>
      let evs := acc.1 ++ [DiscEvent.get sm]
      match o.get sm with
      | .error .cancelled => (evs, .error .cancelled)
      | .error (.exc _) => (evs, .ok lst)
      | .ok smr =>
        if 400 ≤ smr.statusCode then (evs, .ok lst)
        else (evs, .ok (lst ++ parseSitemap o.xmlParse fuel smr.text)))
    ([], .ok [])

/-- crawl.py `_discover_sitemap` (lines 372-416): fetch `/sitemap.xml`;
any `Exception` there (network failure or a 4xx/5xx from
`raise_for_status`) falls back to BFS; otherwise the parsed `<loc>` URLs —
possibly resolved through a sitemap index — are filtered to the base host
and normalized. A parse failure inside `parse_sitemap` is NOT an exception:
it yields an empty url list and no fallback. -/
def discoverSitemap (o : DiscOracle) (robots : Option (Str → Str → Bool))
    (ua base baseHost : Str) (depthLimit maxUrls fuel : Nat) :
    List DiscEvent × Except PyExc (List Str) :=
  let smUrl := sitemapUrlOf base
  let ev0 := [DiscEvent.get smUrl]
  match o.get smUrl with
  | .error .cancelled => (ev0, .error .cancelled)
  | .error (.exc _) =>
    let bfs := discoverBfs o robots ua base depthLimit maxUrls fuel
    (ev0 ++ bfs.1, bfs.2)
  | .ok resp0 =>
    match raiseForStatus resp0 with
    | .error _ =>
      let bfs := discoverBfs o robots ua base depthLimit maxUrls fuel
      (ev0 ++ bfs.1, bfs.2)
    | .ok resp =>
      let urls := parseSitemap o.xmlParse fuel resp.text
      let nested := urls.filter (fun u =>
        pyEndsWith (".xml").toList u || containsSubstr ("sitemap").toList (asciiLower u))
      let step :=
        if nested ≠ [] ∧ nested.length = urls.length then
          let fn := fetchNestedAll o fuel nested
          (ev0 ++ fn.1, fn.2)
        else (ev0, .ok urls)
      match step.2 with
      | .error e => (step.1, .error e)
      | .ok urls2 =>
        (step.1, .ok ((urls2.filter (fun u =>
            match urlparseM u with
            | some pu => asciiLower pu.netloc = baseHost
            | none => false)).filterMap normalizeUrl))

theorem bfsLoop_evs_prefix (o : DiscOracle) (robots : Option (Str → Str → Bool))
    (ua : Str) (depthLimit maxUrls : Nat) :
    ∀ (fuel : Nat) (queue : List (Str × Nat)) (visited result : List Str)
      (evs : List DiscEvent),
      ∃ t, (bfsLoop o robots ua depthLimit maxUrls fuel queue visited result evs).1
        = evs ++ t := by
  intro fuel
  induction fuel with
  | zero =>
    intro queue visited result evs
    exact ⟨[], by simp [bfsLoop]⟩
  | succ fuel ih =>
    intro queue visited result evs
    rcases queue with _ | ⟨⟨url, depth⟩, qrest⟩
    · exact ⟨[], by simp [bfsLoop]⟩
    · simp only [bfsLoop]
      by_cases h1 : maxUrls ≤ result.length
      · rw [if_pos h1]
        exact ⟨[], by simp⟩
      · rw [if_neg h1]
        by_cases h2 : url ∈ visited
        · rw [if_pos h2]
          exact ih qrest visited result evs
        · rw [if_neg h2]
          by_cases h3 : robotsGate robots ua url = true
          · rw [if_pos h3]
            exact ih qrest (visited ++ [url]) result evs
          · rw [if_neg h3]
            by_cases h4 : depthLimit ≤ depth
            · rw [if_pos h4]
              exact ih qrest (visited ++ [url]) (result ++ [url]) evs
            · rw [if_neg h4]
              rcases hg : o.get url with e | resp
              · rcases e with _ | m
                · exact ⟨[DiscEvent.get url], rfl⟩
                · dsimp only
                  rcases ih qrest (visited ++ [url]) (result ++ [url])
                      (evs ++ [DiscEvent.get url]) with ⟨t, ht⟩
                  exact ⟨[DiscEvent.get url] ++ t, by rw [ht, List.append_assoc]⟩
              · dsimp only
                by_cases h5 : (resp.statusCode = 200
                    && containsSubstr ("text/html").toList resp.contentType) = true
                · rw [if_pos h5]
                  rcases ih (bfsPush qrest (visited ++ [url]) maxUrls
                      (o.extractLinks resp.text url) depth) (visited ++ [url])
                      (result ++ [url]) (evs ++ [DiscEvent.get url]) with ⟨t, ht⟩
                  exact ⟨[DiscEvent.get url] ++ t, by rw [ht, List.append_assoc]⟩
                · rw [if_neg h5]
                  rcases ih qrest (visited ++ [url]) (result ++ [url])
                      (evs ++ [DiscEvent.get url]) with ⟨t, ht⟩
                  exact ⟨[DiscEvent.get url] ++ t, by rw [ht, List.append_assoc]⟩

theorem discoverBfs_evs_head (o : DiscOracle) (robots : Option (Str → Str → Bool))
    (ua base : Str) (depthLimit maxUrls fuel : Nat) :
    ∃ t, (discoverBfs o robots ua base depthLimit maxUrls fuel).1
      = DiscEvent.bfs :: t := by
  unfold discoverBfs
  rcases hn : normalizeUrl base with _ | b
  · exact ⟨[], rfl⟩
  · rcases bfsLoop_evs_prefix o robots ua depthLimit maxUrls fuel [(b, 0)] [] []
        [DiscEvent.bfs] with ⟨t, ht⟩
    exact ⟨t, ht⟩

theorem bfsLoop_length_le (o : DiscOracle) (robots : Option (Str → Str → Bool))
    (ua : Str) (depthLimit maxUrls : Nat) :
    ∀ (fuel : Nat) (queue : List (Str × Nat)) (visited result : List Str)
      (evs evs2 : List DiscEvent) (l : List Str),
      result.length ≤ maxUrls →
      bfsLoop o robots ua depthLimit maxUrls fuel queue visited result evs = (evs2, .ok l) →
      l.length ≤ maxUrls := by
  intro fuel
  induction fuel with
  | zero =>
    intro queue visited result evs evs2 l hlen h
    simp only [bfsLoop] at h
    injection h with h1 h2
    injection h2 with h2
    rw [← h2]
    exact hlen
  | succ fuel ih =>
    intro queue visited result evs evs2 l hlen h
    rcases queue with _ | ⟨⟨url, depth⟩, qrest⟩
    · simp only [bfsLoop] at h
      injection h with h1 h2
      injection h2 with h2
      rw [← h2]
      exact hlen
    · simp only [bfsLoop] at h
      by_cases h1 : maxUrls ≤ result.length
      · rw [if_pos h1] at h
        injection h with h1e h2e
        injection h2e with h2e
        rw [← h2e]
        exact hlen
      · rw [if_neg h1] at h
        have hlen2 : (result ++ [url]).length ≤ maxUrls := by
          rw [List.length_append]
          simp only [List.length_singleton]
          omega
        by_cases h2 : url ∈ visited
        · rw [if_pos h2] at h
          exact ih qrest visited result evs evs2 l hlen h
        · rw [if_neg h2] at h
          by_cases h3 : robotsGate robots ua url = true
          · rw [if_pos h3] at h
            exact ih qrest (visited ++ [url]) result evs evs2 l hlen h
          · rw [if_neg h3] at h
            by_cases h4 : depthLimit ≤ depth
            · rw [if_pos h4] at h
              exact ih qrest (visited ++ [url]) (result ++ [url]) evs evs2 l hlen2 h
            · rw [if_neg h4] at h
              rcases hg : o.get url with e | resp
              · rcases e with _ | m
                · rw [hg] at h
                  dsimp only at h
                  injection h with h1e h2e
                  exact Except.noConfusion h2e
                · rw [hg] at h
                  dsimp only at h
                  exact ih qrest (visited ++ [url]) (result ++ [url])
                    (evs ++ [DiscEvent.get url]) evs2 l hlen2 h
              · rw [hg] at h
                dsimp only at h
                by_cases h5 : (resp.statusCode = 200
                    && containsSubstr ("text/html").toList resp.contentType) = true
                · rw [if_pos h5] at h
                  exact ih (bfsPush qrest (visited ++ [url]) maxUrls
                      (o.extractLinks resp.text url) depth) (visited ++ [url])
                    (result ++ [url]) (evs ++ [DiscEvent.get url]) evs2 l hlen2 h
                · rw [if_neg h5] at h
                  exact ih qrest (visited ++ [url]) (result ++ [url])
                    (evs ++ [DiscEvent.get url]) evs2 l hlen2 h

/-- C5 (corrected): only an `Exception` while fetching `/sitemap.xml` — a
network failure or a 4xx/5xx status raised by `raise_for_status` — makes
sitemap discovery fall back to BFS. A sitemap that fails to parse (malformed
XML) or exceeds the 10 MB guard makes `parse_sitemap` return `[]`, which
discovery treats as a successful empty result: no BFS fallback runs and the
frontier is empty. -/
theorem c5_sitemap_failure_handling
    {o : DiscOracle} {robots : Option (Str → Str → Bool)} {ua base baseHost : Str}
    {depthLimit maxUrls fuel : Nat} :
    (∀ m : Str, o.get (sitemapUrlOf base) = .error (.exc m) →
      discoverSitemap o robots ua base baseHost depthLimit maxUrls fuel =
        (DiscEvent.get (sitemapUrlOf base) ::
          (discoverBfs o robots ua base depthLimit maxUrls fuel).1,
         (discoverBfs o robots ua base depthLimit maxUrls fuel).2)
      ∧ DiscEvent.bfs ∈
          (discoverSitemap o robots ua base baseHost depthLimit maxUrls fuel).1)
    ∧ (∀ r : Response, o.get (sitemapUrlOf base) = .ok r → 400 ≤ r.statusCode →
      discoverSitemap o robots ua base baseHost depthLimit maxUrls fuel =
        (DiscEvent.get (sitemapUrlOf base) ::
          (discoverBfs o robots ua base depthLimit maxUrls fuel).1,
         (discoverBfs o robots ua base depthLimit maxUrls fuel).2)
      ∧ DiscEvent.bfs ∈
          (discoverSitemap o robots ua base baseHost depthLimit maxUrls fuel).1)
    ∧ (∀ r : Response, o.get (sitemapUrlOf base) = .ok r → r.statusCode < 400 →
      (o.xmlParse r.text = none ∨ 10 * 1024 * 1024 < r.text.length) →
      discoverSitemap o robots ua base baseHost depthLimit maxUrls fuel =
        ([DiscEvent.get (sitemapUrlOf base)], .ok [])
      ∧ DiscEvent.bfs ∉ [DiscEvent.get (sitemapUrlOf base)]) := by
  have hmem : ∀ h1 : discoverSitemap o robots ua base baseHost depthLimit maxUrls fuel =
      (DiscEvent.get (sitemapUrlOf base) ::
        (discoverBfs o robots ua base depthLimit maxUrls fuel).1,
       (discoverBfs o robots ua base depthLimit maxUrls fuel).2),
      DiscEvent.bfs ∈
        (discoverSitemap o robots ua base baseHost depthLimit maxUrls fuel).1 := by
    intro h1
    rw [h1]
    rcases discoverBfs_evs_head o robots ua base depthLimit maxUrls fuel with ⟨t, ht⟩
    rw [ht]
    exact List.mem_cons_of_mem _ (List.mem_cons_self _ _)
  refine ⟨?_, ?_, ?_⟩
  · intro m hget
    have h1 : discoverSitemap o robots ua base baseHost depthLimit maxUrls fuel =
        (DiscEvent.get (sitemapUrlOf base) ::
          (discoverBfs o robots ua base depthLimit maxUrls fuel).1,
         (discoverBfs o robots ua base depthLimit maxUrls fuel).2) := by
      simp only [discoverSitemap]
      rw [hget]
      rfl
    exact ⟨h1, hmem h1⟩
  · intro r hget hge
    have h1 : discoverSitemap o robots ua base baseHost depthLimit maxUrls fuel =
        (DiscEvent.get (sitemapUrlOf base) ::
          (discoverBfs o robots ua base depthLimit maxUrls fuel).1,
         (discoverBfs o robots ua base depthLimit maxUrls fuel).2) := by
      simp only [discoverSitemap]
      rw [hget]
      dsimp only
      unfold raiseForStatus
      rw [if_pos hge]
      rfl
    exact ⟨h1, hmem h1⟩
  · intro r hget hlt hpf
    have hurls : parseSitemap o.xmlParse fuel r.text = [] := by
      unfold parseSitemap
      by_cases hsz : 10 * 1024 * 1024 < r.text.length
      · rw [if_pos hsz]
      · rw [if_neg hsz]
        rcases hpf with hnone | hbig
        · rw [hnone]
        · exact absurd hbig hsz
    constructor
    · simp only [discoverSitemap]
      rw [hget]
      dsimp only
      unfold raiseForStatus
      rw [if_neg (by omega : ¬ 400 ≤ r.statusCode)]
      dsimp only
      rw [hurls]
      rw [if_neg (fun hc => hc.1 rfl)]
      rfl
    · intro hm
      exact DiscEvent.noConfusion (List.mem_singleton.1 hm)

def c5base : Str := ("http://h.example").toList

/-- A sitemap server answering 200 with a body `ET.fromstring` rejects. -/
def c5oracleBad : DiscOracle :=
  ⟨fun _ => .ok ⟨200, [], ("this is not xml").toList, [], none, none, none⟩,
   fun _ => none, fun _ _ => []⟩

/-- C5 counterexample: with malformed sitemap XML (HTTP 200), discovery
returns an empty frontier after the single sitemap GET — it does not fall
back to BFS. -/
theorem c5_counterexample_malformed_no_fallback :
    discoverSitemap c5oracleBad none [] c5base ("h.example").toList 1 10 5 =
      ([DiscEvent.get (sitemapUrlOf c5base)], .ok [])
    ∧ DiscEvent.bfs ∉ [DiscEvent.get (sitemapUrlOf c5base)] :=
  ⟨rfl, by decide⟩

/-- A failing sitemap fetch. -/
def c5oracleErr : DiscOracle :=
  ⟨fun _ => .error (.exc ("boom").toList), fun _ => none, fun _ _ => []⟩

/-- Concrete instantiation of `c5_sitemap_failure_handling`: a network
failure on the sitemap fetch falls back to the BFS crawl. -/
theorem c5_sitemap_failure_handling_witness :
    discoverSitemap c5oracleErr none [] c5base ("h.example").toList 1 10 5 =
      (DiscEvent.get (sitemapUrlOf c5base) ::
        (discoverBfs c5oracleErr none [] c5base 1 10 5).1,
       (discoverBfs c5oracleErr none [] c5base 1 10 5).2)
    ∧ DiscEvent.bfs ∈
        (discoverSitemap c5oracleErr none [] c5base ("h.example").toList 1 10 5).1 :=
  (@c5_sitemap_failure_handling c5oracleErr none [] c5base ("h.example").toList
    1 10 5).1 ("boom").toList rfl

/-- C8: BFS discovery with `depth = 0` returns exactly the normalized seed
(when robots.txt allows it and at least one URL may be collected), and for
every `max_urls = N` the successful result never exceeds N URLs, no matter
what links the oracle produces. -/
theorem c8_bfs_depth0_and_cap :
    (∀ (o : DiscOracle) (robots : Option (Str → Str → Bool)) (ua base b : Str)
        (maxUrls fuel : Nat),
      normalizeUrl base = some b →
      (∀ cf, robots = some cf → cf ua b = true) →
      0 < maxUrls → 2 ≤ fuel →
      discoverBfs o robots ua base 0 maxUrls fuel = ([DiscEvent.bfs], .ok [b]))
    ∧ (∀ (o : DiscOracle) (robots : Option (Str → Str → Bool)) (ua base : Str)
        (depthLimit maxUrls fuel : Nat) (evs : List DiscEvent) (l : List Str),
      discoverBfs o robots ua base depthLimit maxUrls fuel = (evs, .ok l) →
      l.length ≤ maxUrls) := by
  constructor
  · intro o robots ua base b maxUrls fuel hnorm hrob hmu hfuel
    unfold discoverBfs
    rw [hnorm]
    obtain ⟨f, rfl⟩ : ∃ f, fuel = f + 2 := ⟨fuel - 2, by omega⟩
    simp only [bfsLoop]
    rw [if_neg (by simp; omega : ¬ maxUrls ≤ ([] : List Str).length)]
    rw [if_neg (List.not_mem_nil b)]
    have hgate : robotsGate robots ua b = false := by
      unfold robotsGate
      rcases robots with _ | cf
      · rfl
      · dsimp only
        rw [hrob cf rfl]
        rfl
    rw [if_neg (by rw [hgate]; exact Bool.false_ne_true)]
    rw [if_pos (Nat.le_refl 0)]
    rfl
  · intro o robots ua base depthLimit maxUrls fuel evs l h
    unfold discoverBfs at h
    rcases hn : normalizeUrl base with _ | b
    · rw [hn] at h
      injection h with h1 h2
      injection h2 with h2
      rw [← h2]
      exact Nat.zero_le maxUrls
    · rw [hn] at h
      exact bfsLoop_length_le o robots ua depthLimit maxUrls fuel [(b, 0)] [] [] 
        [DiscEvent.bfs] evs l (Nat.zero_le maxUrls) h

def c8base : Str := ("http://h.example/").toList

/-- A trivial network for the BFS witness. -/
def c8oracle : DiscOracle :=
  ⟨fun _ => .ok ⟨200, [], [], ("text/html").toList, none, none, none⟩,
   fun _ => none, fun _ _ => []⟩

/-- Concrete instantiation of `c8_bfs_depth0_and_cap`: depth 0 yields exactly
the normalized seed, and the cap holds for that run. -/
theorem c8_bfs_depth0_and_cap_witness :
    discoverBfs c8oracle none [] c8base 0 5 2 = ([DiscEvent.bfs], .ok [c8base])
    ∧ ([c8base] : List Str).length ≤ 5 :=
  ⟨c8_bfs_depth0_and_cap.1 c8oracle none [] c8base c8base 5 2 (by decide)
      (fun cf h => Option.noConfusion h) (by decide) (by decide),
   c8_bfs_depth0_and_cap.2 c8oracle none [] c8base 0 5 2 [DiscEvent.bfs] [c8base]
     (c8_bfs_depth0_and_cap.1 c8oracle none [] c8base c8base 5 2 (by decide)
       (fun cf h => Option.noConfusion h) (by decide) (by decide))⟩

/-! ### crawl.py: the JSON crawl cache (`save_cache`, `load_cache`) -/

/-- A JSON scalar as stored in a crawl-cache entry: a string, a number kept
as its decimal token, or `null`. The cache written by `_crawl_single` holds
exactly these (etag/last-modified strings or null, the hash string, the
float timestamp). -/
inductive JScalar where
  | jstr (s : Str)
  | jnum (tok : Str)
  | jnull
deriving Repr, DecidableEq

/-- A cache map as serialized by `save_cache`: a string-keyed object whose
values are objects of scalars. -/
abbrev JCache := List (Str × List (Str × JScalar))

/-- The characters `json.dump` escapes within the modelled printable-ASCII
domain. -/
def jsonEscape (s : Str) : Str :=
  (s.map (fun c => if c = '"' ∨ c = '\\' then ['\\', c] else [c])).flatten

/-- A JSON string literal. -/
def jsonStr (s : Str) : Str := '"' :: (jsonEscape s ++ ['"'])

def dumpScalar : JScalar → Str
  | .jstr s => jsonStr s
  | .jnum t => t
  | .jnull => ("null").toList

def spaces (n : Nat) : Str := List.replicate n ' '

def sepJoin (sep : Str) : List Str → Str
  | [] => []
  | [x] => x
  | x :: rest => x ++ sep ++ sepJoin sep rest

/-- One `"key": value` item of an inner object. -/
def itemRender (kv : Str × JScalar) : Str :=
  jsonStr kv.1 ++ ':' :: ' ' :: dumpScalar kv.2

/-- `json.dump(entry, f, indent=2)` of an inner object at nesting depth 1. -/
def dumpEntry (e : List (Str × JScalar)) : Str :=
  if e = [] then ("{}").toList
  else ('{' :: '\n' :: spaces 4) ++ sepJoin (',' :: '\n' :: spaces 4) (e.map itemRender)
    ++ '\n' :: (spaces 2 ++ ['}'])

/-- One `"url": {...}` item of the top-level object. -/
def entryRender (kv : Str × List (Str × JScalar)) : Str :=
  jsonStr kv.1 ++ ':' :: ' ' :: dumpEntry kv.2

/-- `json.dump(data, f, indent=2)`: the exact text `save_cache` writes. -/
def dumpCache (m : JCache) : Str :=
  if m = [] then ("{}").toList
  else ('{' :: '\n' :: spaces 2) ++ sepJoin (',' :: '\n' :: spaces 2) (m.map entryRender)
    ++ '\n' :: ['}']

/-- crawl.py `save_cache` (lines 240-255): after the atomic temp-file write
and `os.replace`, the cache file holds exactly the indent-2 JSON dump. -/
def saveCache (m : JCache) : Option Str := some (dumpCache m)

/-- JSON whitespace. -/
def isJsonWs (c : Char) : Bool := c = ' ' || c = '\t' || c = '\n' || c = '\r'

def skipWs (s : Str) : Str := s.dropWhile isJsonWs

/-- Characters a JSON number token may contain. -/
def isNumChar (c : Char) : Bool :=
  c.isDigit || c = '-' || c = '+' || c = '.' || c = 'e' || c = 'E'

/-- String-body parser, positioned after the opening quote; returns the
unescaped content and the rest after the closing quote. Fuel at least the
content length plus one is exact. -/
def parseJStringAux : Nat → Str → Option (Str × Str)
  | 0, _ => none
  | _ + 1, [] => none
  | fuel + 1, c :: rest =>
    if c = '"' then some ([], rest)
    else if c = '\\' then
      match rest with
      | [] => none
      | e :: rest2 =>
        if e = '"' ∨ e = '\\' then
          match parseJStringAux fuel rest2 with
          | some (s, r) => some (e :: s, r)
          | none => none
        else none
    else if c.toNat < 32 then none
    else
      match parseJStringAux fuel rest with
      | some (s, r) => some (c :: s, r)
      | none => none

/-- Scalar parser: a string, `null`, or a number token. -/
def parseScalar (s : Str) : Option (JScalar × Str) :=
  match s with
  | [] => none
  | c :: rest =>
    if c = '"' then
      match parseJStringAux (rest.length + 1) rest with
      | some (k, r) => some (.jstr k, r)
      | none => none
    else if (("null").toList).isPrefixOf s then
      some (.jnull, s.drop 4)
    else
      let tok := s.takeWhile isNumChar
      if tok = [] then none else some (.jnum tok, s.drop tok.length)

/-- The items of an inner object, positioned after the opening brace (with
at least one item). -/
def parseInnerItems : Nat → Str → Option (List (Str × JScalar) × Str)
  | 0, _ => none
  | fuel + 1, s =>
    match skipWs s with
    | [] => none
    | c :: rest =>
      if c = '"' then
        match parseJStringAux (rest.length + 1) rest with
        | some (k, r1) =>
          match skipWs r1 with
          | [] => none
          | c2 :: r2 =>
            if c2 = ':' then
              match parseScalar (skipWs r2) with
              | some (v, r3) =>
                match skipWs r3 with
                | [] => none
                | c3 :: r4 =>
                  if c3 = ',' then
                    match parseInnerItems fuel r4 with
                    | some (items, r) => some ((k, v) :: items, r)
                    | none => none
                  else if c3 = '}' then some ([(k, v)], r4)
                  else none
              | none => none
            else none
        | none => none
      else none

/-- An inner object. -/
def parseEntry (fuel : Nat) (s : Str) : Option (List (Str × JScalar) × Str) :=
  match skipWs s with
  | [] => none
  | c :: r1 =>
    if c = '{' then
      match skipWs r1 with
      | [] => parseInnerItems fuel r1
      | c2 :: r2 => if c2 = '}' then some ([], r2) else parseInnerItems fuel r1
    else none

/-- The items of the top-level object (with at least one item). -/
def parseOuterItems : Nat → Str → Option (JCache × Str)
  | 0, _ => none
  | fuel + 1, s =>
    match skipWs s with
    | [] => none
    | c :: rest =>
      if c = '"' then
        match parseJStringAux (rest.length + 1) rest with
        | some (k, r1) =>
          match skipWs r1 with
          | [] => none
          | c2 :: r2 =>
            if c2 = ':' then
              match parseEntry fuel r2 with
              | some (v, r3) =>
                match skipWs r3 with
                | [] => none
                | c3 :: r4 =>
                  if c3 = ',' then
                    match parseOuterItems fuel r4 with
                    | some (items, r) => some ((k, v) :: items, r)
                    | none => none
                  else if c3 = '}' then some ([(k, v)], r4)
                  else none
              | none => none
            else none
        | none => none
      else none

/-- `json.loads` on the cache-map domain: a top-level object of objects of
scalars, with nothing but whitespace after it; `none` models
`JSONDecodeError`. -/
def parseCache (s : Str) : Option JCache :=
  match skipWs s with
  | [] => none
  | c :: r1 =>
    if c = '{' then
      match skipWs r1 with
      | [] =>
        (match parseOuterItems (s.length + 1) r1 with
         | some (m, r) => if skipWs r = [] then some m else none
         | none => none)
      | c2 :: r2 =>
        if c2 = '}' then (if skipWs r2 = [] then some [] else none)
        else
          match parseOuterItems (s.length + 1) r1 with
          | some (m, r) => if skipWs r = [] then some m else none
          | none => none
    else none

/-- crawl.py `load_cache` (lines 228-237): a missing file or a file that
fails to parse yields the empty map. -/
def loadCache (fs : Option Str) : JCache :=
  match fs with
  | none => []
  | some txt =>
    match parseCache txt with
    | some m => m
    | none => []

/-- Printable-ASCII strings, the domain on which the modelled escaping is
exactly `json.dump`'s (`ensure_ascii` would escape anything beyond it). -/
def okStr (s : Str) : Prop := ∀ c ∈ s, 32 ≤ c.toNat ∧ c.toNat ≤ 126

def okScalar : JScalar → Prop
  | .jstr s => okStr s
  | .jnum t => t ≠ [] ∧ ∀ c ∈ t, isNumChar c = true
  | .jnull => True

def okEntry (e : List (Str × JScalar)) : Prop :=
  ∀ kv ∈ e, okStr kv.1 ∧ okScalar kv.2

def okCache (m : JCache) : Prop :=
  ∀ kv ∈ m, okStr kv.1 ∧ okEntry kv.2

theorem jsonEscape_cons (c : Char) (s2 : Str) :
    jsonEscape (c :: s2)
      = (if c = '"' ∨ c = '\\' then ['\\', c] else [c]) ++ jsonEscape s2 := by
  simp only [jsonEscape, List.map_cons, List.flatten_cons]

theorem jsonEscape_length (s : Str) : s.length ≤ (jsonEscape s).length := by
  induction s with
  | nil => simp [jsonEscape]
  | cons c s2 ih =>
    rw [jsonEscape_cons, List.length_append, List.length_cons]
    split_ifs <;> simp only [List.length_cons, List.length_nil] <;> omega

theorem skipWs_append {ws X : Str} (hws : ∀ c ∈ ws, isJsonWs c = true)
    (hX : ∀ x, X.head? = some x → isJsonWs x = false) : skipWs (ws ++ X) = X := by
  unfold skipWs
  exact (takeWhile_append_of_all hws hX).2

theorem skipWs_cons_neg {x : Char} {X : Str} (h : isJsonWs x = false) :
    skipWs (x :: X) = x :: X := by
  unfold skipWs
  rw [List.dropWhile_cons, if_neg (by simp [h])]

theorem skipWs_cons_pos {x : Char} {X : Str} (h : isJsonWs x = true) :
    skipWs (x :: X) = skipWs X := by
  unfold skipWs
  rw [List.dropWhile_cons, if_pos (by simp [h])]

theorem numchar_not_ws {c : Char} (h : isNumChar c = true) : isJsonWs c = false := by
  by_cases hw : isJsonWs c = true
  · unfold isJsonWs at hw
    simp only [Bool.or_eq_true, decide_eq_true_eq] at hw
    rcases hw with ((rfl | rfl) | rfl) | rfl <;> exact absurd h (by decide)
  · exact Bool.eq_false_iff.2 hw

theorem spaces_ws : ∀ n, ∀ c ∈ spaces n, isJsonWs c = true := by
  intro n c hc
  unfold spaces at hc
  rw [List.eq_of_mem_replicate hc]
  decide

theorem parseJStringAux_roundtrip :
    ∀ (s : Str) (r : Str) (fuel : Nat), s.length + 1 ≤ fuel → okStr s →
      parseJStringAux fuel (jsonEscape s ++ '"' :: r) = some (s, r) := by
  intro s
  induction s with
  | nil =>
    intro r fuel hfuel hok
    obtain ⟨f, rfl⟩ : ∃ f, fuel = f + 1 := ⟨fuel - 1, by omega⟩
    show parseJStringAux (f + 1) ('"' :: r) = some ([], r)
    simp only [parseJStringAux]
    rw [if_pos trivial]
  | cons c s2 ih =>
    intro r fuel hfuel hok
    obtain ⟨f, rfl⟩ : ∃ f, fuel = f + 1 := ⟨fuel - 1, by omega⟩
    have hok2 : okStr s2 := fun x hx => hok x (List.mem_cons_of_mem c hx)
    have hokc := hok c (List.mem_cons_self c s2)
    have hlen : s2.length + 1 ≤ f := by
      simp only [List.length_cons] at hfuel
      omega
    rw [jsonEscape_cons]
    by_cases hc : c = '"' ∨ c = '\\'
    · rw [if_pos hc]
      simp only [List.cons_append, List.nil_append]
      simp only [parseJStringAux]
      rw [if_neg (by decide : ¬ ('\\' : Char) = '"'), if_pos trivial]
      rw [if_pos hc, ih r f hlen hok2]
    · rw [if_neg hc]
      push_neg at hc
      simp only [List.cons_append, List.nil_append]
      simp only [parseJStringAux]
      rw [if_neg hc.1, if_neg hc.2, if_neg (by omega : ¬ c.toNat < 32),
        ih r f hlen hok2]

theorem parseScalar_roundtrip (v : JScalar) (r : Str) (hok : okScalar v)
    (hr : ∀ x, r.head? = some x → isNumChar x = false) :
    parseScalar (dumpScalar v ++ r) = some (v, r) := by
  rcases v with sv | t | _
  · -- string scalar
    simp only [dumpScalar, jsonStr, List.cons_append]
    simp only [parseScalar]
    rw [if_pos trivial]
    have hsh : (jsonEscape sv ++ ['"']) ++ r = jsonEscape sv ++ '"' :: r := by simp
    rw [hsh]
    have hfl : sv.length + 1 ≤ (jsonEscape sv ++ '"' :: r).length + 1 := by
      rw [List.length_append]
      have := jsonEscape_length sv
      omega
    rw [parseJStringAux_roundtrip sv r _ hfl hok]
  · -- number scalar
    rcases hok with ⟨hne, hall⟩
    simp only [dumpScalar]
    rcases t with _ | ⟨c, t2⟩
    · exact absurd rfl hne
    · have hcn := hall c (List.mem_cons_self c t2)
      simp only [List.cons_append]
      simp only [parseScalar]
      rw [if_neg (fun h => absurd (h ▸ hcn) (by decide))]
      rw [if_neg ?hnull]
      case hnull =>
        intro hpre
        rcases List.isPrefixOf_iff_prefix.1 hpre with ⟨tl, htl⟩
        injection htl with h1 _
        rw [← h1] at hcn
        exact absurd hcn (by decide)
      have htw := @takeWhile_append_of_all isNumChar (c :: t2) r hall hr
      rw [show (c :: t2) ++ r = c :: (t2 ++ r) from rfl] at htw
      rw [htw.1]
      rw [if_neg (fun h => List.noConfusion h)]
      rw [show c :: (t2 ++ r) = (c :: t2) ++ r from rfl, List.drop_left]
  · -- null
    have hnl : dumpScalar JScalar.jnull ++ r = 'n' :: 'u' :: 'l' :: 'l' :: r := rfl
    rw [hnl]
    simp only [parseScalar]
    rw [if_pos (show (("null").toList.isPrefixOf ('n' :: 'u' :: 'l' :: 'l' :: r)) = true
      from List.isPrefixOf_iff_prefix.2 ⟨r, rfl⟩)]
    rfl

theorem nl_spaces_ws (n : Nat) : ∀ c ∈ '\n' :: spaces n, isJsonWs c = true := by
  intro c hc
  rcases List.mem_cons.1 hc with rfl | hc2
  · decide
  · exact spaces_ws n c hc2

theorem parseInnerItems_step (k : Str) (v : JScalar) (ws E : Str) (f : Nat)
    (hk : okStr k) (hv : okScalar v)
    (hws : ∀ c ∈ ws, isJsonWs c = true)
    (hE : ∀ x, E.head? = some x → isNumChar x = false) :
    parseInnerItems (f + 1)
      (ws ++ ('"' :: (jsonEscape k ++ '"' :: (':' :: ' ' :: (dumpScalar v ++ E)))))
      = (match skipWs E with
         | [] => none
         | c3 :: r4 =>
           if c3 = ',' then
             match parseInnerItems f r4 with
             | some (items, r) => some ((k, v) :: items, r)
             | none => none
           else if c3 = '}' then some ([(k, v)], r4)
           else none) := by
  simp only [parseInnerItems]
  rw [skipWs_append hws ?hx]
  case hx =>
    intro x hx
    injection hx with hx
    rw [← hx]
    decide
  dsimp only
  rw [if_pos rfl]
  rw [parseJStringAux_roundtrip k _ _ ?hfl hk]
  case hfl =>
    rw [List.length_append]
    have := jsonEscape_length k
    simp only [List.length_cons]
    omega
  dsimp only
  rw [skipWs_cons_neg (by decide : isJsonWs ':' = false)]
  dsimp only
  rw [if_pos rfl]
  rw [skipWs_cons_pos (by decide : isJsonWs ' ' = true)]
  rw [show skipWs (dumpScalar v ++ E) = dumpScalar v ++ E from ?hsw]
  case hsw =>
    rcases v with sv | t | _
    · exact skipWs_cons_neg (by decide)
    · rcases hv with ⟨hne, hall⟩
      rcases t with _ | ⟨c, t2⟩
      · exact absurd rfl hne
      · exact skipWs_cons_neg (numchar_not_ws (hall c (List.mem_cons_self c t2)))
    · exact skipWs_cons_neg (by decide)
  rw [parseScalar_roundtrip v E hv hE]

theorem parseInnerItems_roundtrip :
    ∀ (e : List (Str × JScalar)) (ws tail : Str) (fuel : Nat),
      e ≠ [] → okEntry e → e.length ≤ fuel →
      (∀ c ∈ ws, isJsonWs c = true) →
      parseInnerItems fuel
        (ws ++ (sepJoin (',' :: '\n' :: spaces 4) (e.map itemRender)
          ++ '\n' :: (spaces 2 ++ '}' :: tail)))
        = some (e, tail) := by
  intro e
  induction e with
  | nil =>
    intro ws tail fuel hne
    exact absurd rfl hne
  | cons kv rest ih =>
    intro ws tail fuel hne hok hfuel hws
    obtain ⟨f, rfl⟩ : ∃ f, fuel = f + 1 :=
      ⟨fuel - 1, by simp only [List.length_cons] at hfuel; omega⟩
    have hokkv := hok kv (List.mem_cons_self kv rest)
    rcases rest with _ | ⟨kv2, rest2⟩
    · have hshape : ws ++ (sepJoin (',' :: '\n' :: spaces 4) ([kv].map itemRender)
            ++ '\n' :: (spaces 2 ++ '}' :: tail))
          = ws ++ ('"' :: (jsonEscape kv.1 ++ '"' :: (':' :: ' ' ::
              (dumpScalar kv.2 ++ ('\n' :: (spaces 2 ++ '}' :: tail)))))) := by
        simp [sepJoin, itemRender, jsonStr, List.append_assoc]
      rw [hshape, parseInnerItems_step kv.1 kv.2 ws _ f hokkv.1 hokkv.2 hws ?hE1]
      case hE1 =>
        intro x hx
        injection hx with hx
        rw [← hx]
        decide
      rw [skipWs_cons_pos (by decide : isJsonWs '\n' = true),
        skipWs_append (spaces_ws 2) ?hx2]
      case hx2 =>
        intro x hx
        injection hx with hx
        rw [← hx]
        decide
      rfl
    · have hshape : ws ++ (sepJoin (',' :: '\n' :: spaces 4)
              ((kv :: kv2 :: rest2).map itemRender)
            ++ '\n' :: (spaces 2 ++ '}' :: tail))
          = ws ++ ('"' :: (jsonEscape kv.1 ++ '"' :: (':' :: ' ' ::
              (dumpScalar kv.2 ++ (',' :: ('\n' :: (spaces 4 ++
                (sepJoin (',' :: '\n' :: spaces 4) ((kv2 :: rest2).map itemRender)
                  ++ '\n' :: (spaces 2 ++ '}' :: tail))))))))) := by
        simp [sepJoin, itemRender, jsonStr, List.append_assoc]
      rw [hshape, parseInnerItems_step kv.1 kv.2 ws _ f hokkv.1 hokkv.2 hws ?hE2]
      case hE2 =>
        intro x hx
        injection hx with hx
        rw [← hx]
        decide
      rw [skipWs_cons_neg (by decide : isJsonWs ',' = false)]
      dsimp only
      rw [if_pos rfl]
      have hok2 : okEntry (kv2 :: rest2) := fun x hx => hok x (List.mem_cons_of_mem kv hx)
      have hf2 : (kv2 :: rest2).length ≤ f := by
        simp only [List.length_cons] at hfuel ⊢
        omega
      rw [show '\n' :: (spaces 4 ++
            (sepJoin (',' :: '\n' :: spaces 4) ((kv2 :: rest2).map itemRender)
              ++ '\n' :: (spaces 2 ++ '}' :: tail)))
          = ('\n' :: spaces 4) ++
            (sepJoin (',' :: '\n' :: spaces 4) ((kv2 :: rest2).map itemRender)
              ++ '\n' :: (spaces 2 ++ '}' :: tail)) from rfl]
      rw [ih ('\n' :: spaces 4) tail f (fun hh => List.noConfusion hh) hok2 hf2
        (nl_spaces_ws 4)]


instance decOkStr (s : Str) : Decidable (okStr s) :=
  inferInstanceAs (Decidable (∀ c ∈ s, 32 ≤ c.toNat ∧ c.toNat ≤ 126))

instance decOkScalar : (v : JScalar) → Decidable (okScalar v)
  | .jstr s => inferInstanceAs (Decidable (okStr s))
  | .jnum t => inferInstanceAs (Decidable (t ≠ [] ∧ ∀ c ∈ t, isNumChar c = true))
  | .jnull => Decidable.isTrue trivial

instance decOkEntry (e : List (Str × JScalar)) : Decidable (okEntry e) :=
  inferInstanceAs (Decidable (∀ kv ∈ e, okStr kv.1 ∧ okScalar kv.2))

instance decOkCache (m : JCache) : Decidable (okCache m) :=
  inferInstanceAs (Decidable (∀ kv ∈ m, okStr kv.1 ∧ okEntry kv.2))

/-- Fuel measure for the outer-object parser: one unit per entry plus the
entry's item count. -/
def cacheSize : JCache → Nat
  | [] => 0
  | kv :: rest => kv.2.length + 1 + cacheSize rest

theorem sepJoin_itemRender_head (e : List (Str × JScalar)) (he : e ≠ []) :
    ∃ t, sepJoin (',' :: '\n' :: spaces 4) (e.map itemRender) = '"' :: t := by
  rcases e with _ | ⟨kv, rest⟩
  · exact absurd rfl he
  · rcases rest with _ | ⟨kv2, rest2⟩
    · exact ⟨_, rfl⟩
    · exact ⟨_, rfl⟩

theorem sepJoin_entryRender_head (m : JCache) (hm : m ≠ []) :
    ∃ t, sepJoin (',' :: '\n' :: spaces 2) (m.map entryRender) = '"' :: t := by
  rcases m with _ | ⟨kv, rest⟩
  · exact absurd rfl hm
  · rcases rest with _ | ⟨kv2, rest2⟩
    · exact ⟨_, rfl⟩
    · exact ⟨_, rfl⟩

theorem sepJoin_length_ge (sep : Str) :
    ∀ l : List Str, (∀ x ∈ l, 1 ≤ x.length) → l.length ≤ (sepJoin sep l).length := by
  intro l
  induction l with
  | nil => intro _; simp [sepJoin]
  | cons x rest ih =>
    intro h
    rcases rest with _ | ⟨y, r2⟩
    · simpa [sepJoin] using h x (List.mem_cons_self x [])
    · have h2 : ∀ z ∈ y :: r2, 1 ≤ z.length :=
        fun z hz => h z (List.mem_cons_of_mem x hz)
      have hrec := ih h2
      have hx := h x (List.mem_cons_self x (y :: r2))
      simp only [sepJoin, List.length_append, List.length_cons] at hrec ⊢
      omega

theorem itemRender_length (kv : Str × JScalar) : 1 ≤ (itemRender kv).length := by
  simp only [itemRender, jsonStr, List.length_append, List.length_cons]
  omega

theorem dumpEntry_length (v : List (Str × JScalar)) :
    v.length + 1 ≤ (dumpEntry v).length := by
  by_cases hv : v = []
  · subst hv; decide
  · have h1 := sepJoin_length_ge (',' :: '\n' :: spaces 4) (v.map itemRender) ?hall
    case hall =>
      intro x hx
      simp only [List.mem_map] at hx
      obtain ⟨kv, _, rfl⟩ := hx
      exact itemRender_length kv
    simp only [dumpEntry, if_neg hv, List.length_append, List.length_cons,
      List.length_map, spaces, List.length_replicate] at h1 ⊢
    omega

theorem entryRender_length (kv : Str × List (Str × JScalar)) :
    kv.2.length + 1 ≤ (entryRender kv).length := by
  have := dumpEntry_length kv.2
  simp only [entryRender, jsonStr, List.length_append, List.length_cons]
  omega

theorem cacheSize_le_sepJoin :
    ∀ m : JCache, m ≠ [] →
      cacheSize m ≤ (sepJoin (',' :: '\n' :: spaces 2) (m.map entryRender)).length := by
  intro m
  induction m with
  | nil => intro hm; exact absurd rfl hm
  | cons kv rest ih =>
    intro _
    rcases rest with _ | ⟨kv2, rest2⟩
    · have := entryRender_length kv
      simp only [cacheSize, List.map_cons, List.map_nil, sepJoin]
      omega
    · have h1 := entryRender_length kv
      have h2 := ih (fun hh => List.noConfusion hh)
      simp only [cacheSize, List.map_cons, sepJoin, List.length_append,
        List.length_cons] at h2 ⊢
      omega

theorem cacheSize_le_dump (m : JCache) : cacheSize m ≤ (dumpCache m).length := by
  by_cases hm : m = []
  · subst hm; decide
  · have h := cacheSize_le_sepJoin m hm
    simp only [dumpCache, if_neg hm, List.length_append, List.length_cons]
    omega

theorem parseEntry_roundtrip (e : List (Str × JScalar)) (ws tail : Str) (fuel : Nat)
    (hok : okEntry e) (hfuel : e.length ≤ fuel)
    (hws : ∀ c ∈ ws, isJsonWs c = true) :
    parseEntry fuel (ws ++ (dumpEntry e ++ tail)) = some (e, tail) := by
  by_cases he : e = []
  · subst he
    rw [show dumpEntry ([] : List (Str × JScalar)) ++ tail = '{' :: '}' :: tail from rfl]
    simp only [parseEntry]
    rw [skipWs_append hws ?h1]
    case h1 =>
      intro x hx
      injection hx with hx
      rw [← hx]
      decide
    dsimp only
    rw [if_pos rfl]
    rw [skipWs_cons_neg (by decide : isJsonWs '}' = false)]
    dsimp only
    rw [if_pos rfl]
  · have hshape : ws ++ (dumpEntry e ++ tail)
        = ws ++ ('{' :: (('\n' :: spaces 4) ++
            (sepJoin (',' :: '\n' :: spaces 4) (e.map itemRender)
              ++ '\n' :: (spaces 2 ++ '}' :: tail)))) := by
      simp [dumpEntry, if_neg he, List.append_assoc]
    rw [hshape]
    simp only [parseEntry]
    rw [skipWs_append hws ?h2]
    case h2 =>
      intro x hx
      injection hx with hx
      rw [← hx]
      decide
    dsimp only
    rw [if_pos rfl]
    obtain ⟨t, ht⟩ := sepJoin_itemRender_head e he
    rw [show skipWs (('\n' :: spaces 4) ++
          (sepJoin (',' :: '\n' :: spaces 4) (e.map itemRender)
            ++ '\n' :: (spaces 2 ++ '}' :: tail)))
        = '"' :: (t ++ '\n' :: (spaces 2 ++ '}' :: tail)) from ?hsw]
    case hsw =>
      rw [skipWs_append (nl_spaces_ws 4) ?hh, ht, List.cons_append]
      case hh =>
        intro x hx
        rw [ht, List.cons_append, List.head?_cons] at hx
        injection hx with hx
        rw [← hx]
        decide
    dsimp only
    rw [if_neg (by decide : ¬('"' = '}'))]
    exact parseInnerItems_roundtrip e ('\n' :: spaces 4) tail fuel he hok hfuel
      (nl_spaces_ws 4)

theorem parseOuterItems_step (k : Str) (v : List (Str × JScalar)) (ws E : Str) (f : Nat)
    (hk : okStr k) (hv : okEntry v) (hfv : v.length ≤ f)
    (hws : ∀ c ∈ ws, isJsonWs c = true) :
    parseOuterItems (f + 1)
      (ws ++ ('"' :: (jsonEscape k ++ '"' :: (':' :: (' ' :: (dumpEntry v ++ E))))))
      = (match skipWs E with
         | [] => none
         | c3 :: r4 =>
           if c3 = ',' then
             match parseOuterItems f r4 with
             | some (items, r) => some ((k, v) :: items, r)
             | none => none
           else if c3 = '}' then some ([(k, v)], r4)
           else none) := by
  simp only [parseOuterItems]
  rw [skipWs_append hws ?hx]
  case hx =>
    intro x hx
    injection hx with hx
    rw [← hx]
    decide
  dsimp only
  rw [if_pos rfl]
  rw [parseJStringAux_roundtrip k _ _ ?hfl hk]
  case hfl =>
    rw [List.length_append]
    have := jsonEscape_length k
    simp only [List.length_cons]
    omega
  dsimp only
  rw [skipWs_cons_neg (by decide : isJsonWs ':' = false)]
  dsimp only
  rw [if_pos rfl]
  rw [show (' ' :: (dumpEntry v ++ E)) = [' '] ++ (dumpEntry v ++ E) from rfl]
  rw [parseEntry_roundtrip v [' '] E f hv hfv ?hws2]
  case hws2 =>
    intro c hc
    rw [List.mem_singleton] at hc
    rw [hc]
    decide

theorem parseOuterItems_roundtrip :
    ∀ (m : JCache) (ws tail : Str) (fuel : Nat),
      m ≠ [] → okCache m → cacheSize m ≤ fuel →
      (∀ c ∈ ws, isJsonWs c = true) →
      parseOuterItems fuel
        (ws ++ (sepJoin (',' :: '\n' :: spaces 2) (m.map entryRender)
          ++ '\n' :: ('}' :: tail)))
        = some (m, tail) := by
  intro m
  induction m with
  | nil =>
    intro ws tail fuel hne
    exact absurd rfl hne
  | cons kv rest ih =>
    intro ws tail fuel hne hok hfuel hws
    obtain ⟨f, rfl⟩ : ∃ f, fuel = f + 1 :=
      ⟨fuel - 1, by simp only [cacheSize] at hfuel; omega⟩
    have hokkv := hok kv (List.mem_cons_self kv rest)
    have hfv : kv.2.length ≤ f := by simp only [cacheSize] at hfuel; omega
    rcases rest with _ | ⟨kv2, rest2⟩
    · have hshape : ws ++ (sepJoin (',' :: '\n' :: spaces 2) ([kv].map entryRender)
            ++ '\n' :: ('}' :: tail))
          = ws ++ ('"' :: (jsonEscape kv.1 ++ '"' :: (':' :: (' ' ::
              (dumpEntry kv.2 ++ ('\n' :: ('}' :: tail))))))) := by
        simp [sepJoin, entryRender, jsonStr, List.append_assoc]
      rw [hshape, parseOuterItems_step kv.1 kv.2 ws _ f hokkv.1 hokkv.2 hfv hws]
      rw [skipWs_cons_pos (by decide : isJsonWs '\n' = true),
        skipWs_cons_neg (by decide : isJsonWs '}' = false)]
      rfl
    · have hshape : ws ++ (sepJoin (',' :: '\n' :: spaces 2)
              ((kv :: kv2 :: rest2).map entryRender) ++ '\n' :: ('}' :: tail))
          = ws ++ ('"' :: (jsonEscape kv.1 ++ '"' :: (':' :: (' ' ::
              (dumpEntry kv.2 ++ (',' :: ('\n' :: (spaces 2 ++
                (sepJoin (',' :: '\n' :: spaces 2) ((kv2 :: rest2).map entryRender)
                  ++ '\n' :: ('}' :: tail)))))))))) := by
        simp [sepJoin, entryRender, jsonStr, List.append_assoc]
      rw [hshape, parseOuterItems_step kv.1 kv.2 ws _ f hokkv.1 hokkv.2 hfv hws]
      rw [skipWs_cons_neg (by decide : isJsonWs ',' = false)]
      dsimp only
      rw [if_pos rfl]
      have hok2 : okCache (kv2 :: rest2) := fun x hx => hok x (List.mem_cons_of_mem kv hx)
      have hf2 : cacheSize (kv2 :: rest2) ≤ f := by
        simp only [cacheSize] at hfuel ⊢
        omega
      rw [show '\n' :: (spaces 2 ++
            (sepJoin (',' :: '\n' :: spaces 2) ((kv2 :: rest2).map entryRender)
              ++ '\n' :: ('}' :: tail)))
          = ('\n' :: spaces 2) ++
            (sepJoin (',' :: '\n' :: spaces 2) ((kv2 :: rest2).map entryRender)
              ++ '\n' :: ('}' :: tail)) from rfl]
      rw [ih ('\n' :: spaces 2) tail f (fun hh => List.noConfusion hh) hok2 hf2
        (nl_spaces_ws 2)]

theorem parseCache_dumpCache (m : JCache) (hok : okCache m) :
    parseCache (dumpCache m) = some m := by
  by_cases hm : m = []
  · subst hm; rfl
  · have hcs : cacheSize m ≤ (dumpCache m).length := cacheSize_le_dump m
    have hshape : dumpCache m
        = '{' :: (('\n' :: spaces 2) ++
            (sepJoin (',' :: '\n' :: spaces 2) (m.map entryRender)
              ++ '\n' :: ('}' :: ([] : Str)))) := by
      simp [dumpCache, if_neg hm, List.append_assoc]
    rw [hshape] at hcs ⊢
    simp only [parseCache]
    rw [skipWs_cons_neg (by decide : isJsonWs '\x7b' = false)]
    dsimp only
    rw [if_pos rfl]
    obtain ⟨t, ht⟩ := sepJoin_entryRender_head m hm
    rw [show skipWs (('\n' :: spaces 2) ++
          (sepJoin (',' :: '\n' :: spaces 2) (m.map entryRender)
            ++ '\n' :: ('}' :: ([] : Str))))
        = '"' :: (t ++ '\n' :: ('}' :: ([] : Str))) from ?hsw]
    case hsw =>
      rw [skipWs_append (nl_spaces_ws 2) ?hh, ht, List.cons_append]
      case hh =>
        intro x hx
        rw [ht, List.cons_append, List.head?_cons] at hx
        injection hx with hx
        rw [← hx]
        decide
    dsimp only
    rw [if_neg (by decide : ¬('"' = '}'))]
    rw [parseOuterItems_roundtrip m ('\n' :: spaces 2) [] _ hm hok ?hfl
      (nl_spaces_ws 2)]
    case hfl =>
      simp only [List.length_cons] at hcs ⊢
      omega
    rfl

/-- **C9.** `save_cache` followed by `load_cache` is an exact round-trip on
every printable-ASCII cache map (the indent-2 `json.dump` text written by
`save_cache` is parsed back by `json.loads` to an equal map); `load_cache`
on a missing file returns the empty map, and on any file whose contents
fail to parse it returns the empty map instead of raising. -/
theorem c9_cache_roundtrip :
    (∀ m : JCache, okCache m → loadCache (saveCache m) = m)
    ∧ loadCache none = []
    ∧ (∀ s : Str, parseCache s = none → loadCache (some s) = []) := by
  refine ⟨fun m hok => ?_, rfl, fun s hs => ?_⟩
  · simp [loadCache, saveCache, parseCache_dumpCache m hok]
  · simp [loadCache, hs]

/-- A realistic cache: one URL entry with etag, null last-modified, content
hash and crawl timestamp, plus one empty entry. -/
def c9cache : JCache :=
  [(("https://example.com/docs").toList,
     [(("etag").toList, JScalar.jstr (("W/\"abc123\"").toList)),
      (("last_modified").toList, JScalar.jnull),
      (("content_hash").toList, JScalar.jstr (("9f2c").toList)),
      (("last_crawled").toList, JScalar.jnum (("1760000000.25").toList))]),
   (("https://example.com/empty").toList, [])]

theorem c9_cache_roundtrip_witness :
    okCache c9cache ∧ loadCache (saveCache c9cache) = c9cache
    ∧ parseCache (("\x7bnot json").toList) = none
    ∧ loadCache (some (("\x7bnot json").toList)) = [] :=
  ⟨by decide, c9_cache_roundtrip.1 c9cache (by decide),
   by decide, c9_cache_roundtrip.2.2 (("\x7bnot json").toList) (by decide)⟩

end GnosisMcp